import Mathlib

/-!
# goflow: the workflow engine

A shallow embedding of `internal/models/workflow.go`,
`internal/steps/echo_step.go` and `internal/core/workflow_engine.go`.

Conventions of the embedding.

* Go maps (`map[string]T`) are association lists whose keys are kept distinct
  by `mapSet`; `len(m)` is the length of the list.
* The engine runs one goroutine per call of `executeStepAndDependents`.  The
  goroutines are embedded as an interleaving semantics: `ExecState.pool` is the
  set of live goroutines, `act` is one action of one goroutine and a schedule
  (`List Nat`) says which goroutine moves next.  A statement about "every
  execution" quantifies over every schedule.
* The map `completed` is written under `w.mu` and read under another lock or
  under none.  Its assignment takes two actions, between which the map is
  flagged as being written (`ExecState.writing`); a read made in between
  aborts the program, as the Go runtime does (`fatal error: concurrent map
  read and map write`), and an aborted program never returns.  A goroutine
  that needs `w.mu` while it is held waits.
* The outside world is the record `Env`: the outcome of every call of the
  `rest` and `transform` executors, the state of the `context.Context` and the
  wall clock, all indexed by a logical clock that ticks at every executor call
  and every back-off wait.
* The run of an executor reads and writes no shared state, so the body of
  `executeStep` up to the start of the assignment to `completed` is one action
  of its goroutine; each test of `completed`, each call of `canExecuteStep`,
  each visit of a loop and each send to `errChan` is an action of its own.
* `ExecState.trace` is an instrumentation: it lists the runs of the executors
  in the order in which they happened.
* `time.Duration` and `int` values are integers; the embedding compares and
  stores them and counts attempts up to the limit, so none of them overflows.
  The `float64` multiplier of a retry policy is a rational number (a finite
  `float64`); the `float64` product of a delay and the multiplier is not
  computed by the embedding but taken from `Env.scaleDelay`.
-/

namespace GoFlow

/-! ## Maps -/

/-- Read `m[k]`. -/
def mapGet {α : Type} : List (String × α) → String → Option α
  | [], _ => none
  | (k', v) :: rest, k => if k' = k then some v else mapGet rest k

/-- Write `m[k] = v`: replaces the entry of `k` or adds one. -/
def mapSet {α : Type} : List (String × α) → String → α → List (String × α)
  | [], k, v => [(k, v)]
  | (k', v') :: rest, k, v =>
    if k' = k then (k, v) :: rest else (k', v') :: mapSet rest k v

/-- Remove `k`: `delete(m, k)` leaves no entry of `k`. -/
def mapDel {α : Type} : List (String × α) → String → List (String × α)
  | [], _ => []
  | (k', v') :: rest, k => if k' = k then mapDel rest k else (k', v') :: mapDel rest k

/-- The keys of a map. -/
def mapKeys {α : Type} (m : List (String × α)) : List String := m.map Prod.fst

/-! ## internal/models/workflow.go -/

/-- The type `models.WorkflowStatus` with its four constants. -/
inductive WorkflowStatus where
  | pending
  | running
  | completed
  | failed
  deriving DecidableEq, Repr

/-- The type `models.RetryConfig`.  `Delay` and `MaxDelay` are `time.Duration`
values (nanoseconds); `Multiplier` is the value of a finite `float64`. -/
structure RetryConfig where
  MaxAttempts : Int
  Delay : Int
  MaxDelay : Int
  Multiplier : ℚ
  deriving DecidableEq, Repr

/-- The type `models.StepConfig`, an opaque bag of settings read by the executors. -/
abbrev StepConfig := List (String × String)

/-- The type `models.Step`; `StepType` is the field `Type`. -/
structure Step where
  ID : String
  Name : String
  StepType : String
  Config : StepConfig
  Next : List String
  OnError : List String
  Retry : Option RetryConfig
  Timeout : Int
  Required : Bool
  deriving DecidableEq, Repr

/-- The type `models.Workflow`. -/
structure Workflow where
  ID : String
  Name : String
  Description : String
  Steps : List Step
  Status : WorkflowStatus
  CreatedAt : Nat
  UpdatedAt : Nat
  Metadata : List (String × String)
  deriving DecidableEq, Repr

/-- The type `models.StepResult`. -/
structure StepResult where
  StepID : String
  Status : WorkflowStatus
  StartTime : Nat
  EndTime : Nat
  Data : Option String
  Error : String
  Attempts : Nat
  deriving DecidableEq, Repr

/-- The type `models.WorkflowResult`. -/
structure WorkflowResult where
  WorkflowID : String
  Status : WorkflowStatus
  StepResults : List (String × StepResult)
  StartTime : Nat
  EndTime : Nat
  Error : String
  deriving DecidableEq, Repr

/-! ## The outside world -/

/-- What one call of an executor's `Execute` does: it returns data, returns an
error, or panics (a failed type assertion on the configuration). -/
inductive Outcome where
  | ok (data : String)
  | err (msg : String)
  | panic
  deriving DecidableEq, Repr

/-- The environment of one execution.  `rest n cfg` and `transform n cfg` are the
outcomes of the executor call made at logical time `n`; `ctxErr n` is
`ctx.Err()` at time `n` (`none` while the context is live); `now n` is
`time.Now()` at time `n`.

`scaleDelay delay m` is the value of the Go expression
`time.Duration(float64(delay) * m)` of `executeWithRetry`: the conversion of
the `int64` delay to `float64`, the `float64` product and the conversion back
to `int64`.  Floating-point arithmetic is not embedded, so the value is left to
the environment and nothing is assumed about it. -/
structure Env where
  rest : Nat → StepConfig → Outcome
  transform : Nat → StepConfig → Outcome
  ctxErr : Nat → Option String
  now : Nat → Nat
  scaleDelay : Int → ℚ → Int

/-! ## internal/steps/echo_step.go -/

/-- The method `EchoStep.Execute`: the configured message, a panic when there is none. -/
def EchoStep.Execute (config : StepConfig) : Outcome :=
  match mapGet config "message" with
  | some message => Outcome.ok message
  | none => Outcome.panic

/-! ## internal/core/workflow_engine.go: the registry -/

/-- The type `core.WorkflowEngine` (without its lock). -/
structure WorkflowEngine where
  workflows : List (String × Workflow)
  results : List (String × WorkflowResult)
  deriving DecidableEq, Repr

/-- The constructor `NewWorkflowEngine`. -/
def NewWorkflowEngine : WorkflowEngine := { workflows := [], results := [] }

/-- The method `RegisterWorkflow`; `now` is the value of `time.Now()`.  Returns the
engine afterwards and the error (`none` for `nil`). -/
def RegisterWorkflow (w : WorkflowEngine) (now : Nat) (workflow : Workflow) :
    WorkflowEngine × Option String :=
  if workflow.ID = "" then
    (w, some "workflow ID cannot be empty")
  else if (mapGet w.workflows workflow.ID).isSome then
    (w, some ("workflow with ID " ++ workflow.ID ++ " already exists"))
  else
    let workflow := { workflow with
      Status := WorkflowStatus.pending, CreatedAt := now, UpdatedAt := now }
    ({ w with workflows := mapSet w.workflows workflow.ID workflow }, none)

/-- The method `GetWorkflow`: the engine afterwards, the workflow and the flag `exists`. -/
def GetWorkflow (w : WorkflowEngine) (id : String) : WorkflowEngine × Option Workflow × Bool :=
  (w, mapGet w.workflows id, (mapGet w.workflows id).isSome)

/-- The method `DeleteWorkflow`. -/
def DeleteWorkflow (w : WorkflowEngine) (id : String) : WorkflowEngine × Option String :=
  if (mapGet w.workflows id).isSome then
    ({ workflows := mapDel w.workflows id, results := mapDel w.results id }, none)
  else
    (w, some ("workflow " ++ id ++ " not found"))

/-! ## internal/core/workflow_engine.go: helpers of the scheduler -/

/-- The method `findStep`: the first step with this id. -/
def findStep (workflow : Workflow) (stepID : String) : Option Step :=
  workflow.Steps.find? (fun s => s.ID = stepID)

/-- The method `findInitialSteps`: the steps no step names in `Next`. -/
def findInitialSteps (workflow : Workflow) : List Step :=
  let nextSteps := workflow.Steps.flatMap (fun s => s.Next)
  workflow.Steps.filter (fun s => !(nextSteps.contains s.ID))

/-- The method `canExecuteStep`: no step that names `step` in `Next` is still
missing from `completed`. -/
def canExecuteStep (step : Step) (completed : List String) (workflow : Workflow) : Bool :=
  workflow.Steps.all (fun s =>
    s.Next.all (fun next => !(next = step.ID && !(completed.contains s.ID))))

/-! ## internal/core/workflow_engine.go: one attempt and the retry loop -/

/-- The method `executeSingleStep`: `none` is a panic, otherwise the returned
error and the step result (with `Data` set on success). -/
def executeSingleStep (env : Env) (clock : Nat) (step : Step) (result : StepResult) :
    Option (Option String × StepResult) :=
  let outcome : Option Outcome :=
    if step.StepType = "rest" then some (env.rest clock step.Config)
    else if step.StepType = "transform" then some (env.transform clock step.Config)
    else if step.StepType = "echo" then some (EchoStep.Execute step.Config)
    else none
  match outcome with
  | none => some (some ("unknown step type: " ++ step.StepType), result)
  | some (Outcome.ok data) => some (none, { result with Data := some data })
  | some (Outcome.err msg) => some (some msg, result)
  | some Outcome.panic => none

/-- What running a step hands back: the error, the step result, the logical
clock afterwards and the back-off waits that were slept through. -/
structure Attempted where
  err : Option String
  result : StepResult
  clock : Nat
  waits : List Int
  deriving DecidableEq, Repr

/-- Lines 263-268 of `executeWithRetry`, the delay after one wait: unchanged
unless `Multiplier > 0`; otherwise `time.Duration(float64(delay) * Multiplier)`
(the value `env.scaleDelay delay Multiplier`), replaced by `MaxDelay` when
`MaxDelay > 0` and the new delay is greater. -/
def nextDelay (env : Env) (r : RetryConfig) (delay : Int) : Int :=
  if r.Multiplier > 0 then
    let d : Int := env.scaleDelay delay r.Multiplier
    if r.MaxDelay > 0 ∧ d > r.MaxDelay then r.MaxDelay else d
  else delay

/-- The `for` loop of `executeWithRetry`, with `todo = maxAttempts - attempt`
iterations left.  `none` is a panic of the executor. -/
def retryLoop (env : Env) (step : Step) (r : RetryConfig) (maxAttempts : Nat) :
    Nat → Nat → Int → String → StepResult → Nat → List Int → Option Attempted
  | 0, _, _, lastErr, result, clock, waits =>
    some { err := some ("max retry attempts reached: " ++ lastErr),
           result := result, clock := clock, waits := waits }
  | todo + 1, attempt, delay, _, result, clock, waits =>
    let result := { result with Attempts := attempt + 1 }
    match executeSingleStep env clock step result with
    | none => none
    | some (none, result) =>
      some { err := none, result := result, clock := clock + 1, waits := waits }
    | some (some e, result) =>
      if attempt + 1 < maxAttempts then
        match env.ctxErr (clock + 1) with
        | some ce => some { err := some ce, result := result, clock := clock + 1, waits := waits }
        | none =>
          retryLoop env step r maxAttempts todo (attempt + 1) (nextDelay env r delay) e result
            (clock + 2) (waits ++ [delay])
      else
        retryLoop env step r maxAttempts todo (attempt + 1) delay e result (clock + 1) waits

/-- The method `executeWithRetry` for a step whose policy is `r`. -/
def executeWithRetry (env : Env) (clock : Nat) (step : Step) (r : RetryConfig)
    (result : StepResult) : Option Attempted :=
  let maxAttempts : Nat := if r.MaxAttempts ≤ 0 then 1 else r.MaxAttempts.toNat
  retryLoop env step r maxAttempts maxAttempts 0 r.Delay "<nil>" result clock []

/-- Lines 178-190 of `executeStep`: the fresh step result and the run of the
executor, with or without the retry loop. -/
def runStep (env : Env) (clock : Nat) (step : Step) : Option Attempted :=
  let stepResult : StepResult :=
    { StepID := step.ID, Status := WorkflowStatus.running, StartTime := env.now clock,
      EndTime := 0, Data := none, Error := "", Attempts := 0 }
  match step.Retry with
  | some r => executeWithRetry env clock step r stepResult
  | none =>
    match executeSingleStep env clock step stepResult with
    | none => none
    | some (err, result) => some { err := err, result := result, clock := clock + 1, waits := [] }

/-! ## internal/core/workflow_engine.go: the goroutines of `executeSteps` -/

/-- How a call of `executeStep` was reached. -/
inductive Admission where
  | wrapper
  | next
  | onError
  deriving DecidableEq, Repr

/-- One run of a step's executor (an instrumentation of the embedding): the
step, how it was admitted, the keys of `result.StepResults` at that moment and
whether the run ended in an error. -/
structure Event where
  step : Step
  via : Admission
  recorded : List String
  failed : Bool
  deriving DecidableEq, Repr

/-- An activation of `executeStep`: about to run its body (`call`), inside the
assignment `completed[step.ID] = true` of line 205 (`write`, with whether the
run failed), inside the loop over `step.Next` or inside the loop over
`step.OnError`, with the ids still to visit. -/
inductive Frame where
  | call (step : Step) (via : Admission)
  | write (step : Step) (failed : Bool)
  | next (step : Step) (rest : List String)
  | onError (step : Step) (rest : List String)
  deriving DecidableEq, Repr

/-- A goroutine running `executeStepAndDependents(step)`: before the test of
`completed[step.ID]`, before the call of `canExecuteStep`, inside
`w.executeStep` with its stack of activations, or sending to `errChan`. -/
inductive Goroutine where
  | entry (step : Step)
  | checked (step : Step)
  | exec (step : Step) (stack : List Frame)
  | send (step : Step) (err : String)
  deriving DecidableEq, Repr

/-- The state shared by the goroutines of one call of `executeSteps`.

`writing` is the flag `hashWriting` that the Go runtime keeps in the map
`completed`: it is set while an assignment to the map is in progress.
`panicked` is set once the program has died: an executor panicked, or the
runtime aborted with `fatal error: concurrent map read and map write`. -/
structure ExecState where
  completed : List String
  stepResults : List (String × StepResult)
  errChan : List String
  clock : Nat
  trace : List Event
  panicked : Bool
  writing : Bool
  pool : List Goroutine
  deriving DecidableEq, Repr

/-- Whether `canExecuteStep step` reads the map `completed` at all: it reads
`completed[s.ID]` for the steps `s` that name `step` in `Next`. -/
def readsCompleted (workflow : Workflow) (step : Step) : Bool :=
  workflow.Steps.any (fun s => s.Next.contains step.ID)

/-- The body of `executeStep` for `step`, called by the goroutine of `root` with
the callers `stack` below it, up to the start of the assignment to
`completed`: the test of the context, the run of the executor, the return of
the error of a required step, `w.mu.Lock()` and the store of the step result.
While another goroutine is between `w.mu.Lock()` and `w.mu.Unlock()`
(`writing` is set), a goroutine that has to store its result waits; the run of
its executor touches no shared state, so the whole action is taken when the
lock is free. -/
def actCall (env : Env) (st : ExecState) (root step : Step) (via : Admission)
    (stack : List Frame) : ExecState × List Goroutine :=
  match env.ctxErr st.clock with
  | some ce => (st, [Goroutine.send root ("error in step " ++ root.ID ++ ": " ++ ce)])
  | none =>
    match runStep env st.clock step with
    | none => ({ st with panicked := true }, [Goroutine.exec root (Frame.call step via :: stack)])
    | some a =>
      let ev : Event :=
        { step := step, via := via, recorded := mapKeys st.stepResults, failed := a.err.isSome }
      let st' := { st with clock := a.clock, trace := st.trace ++ [ev] }
      let stepResult := { a.result with EndTime := env.now a.clock }
      match a.err with
      | some e =>
        let stepResult := { stepResult with Status := WorkflowStatus.failed, Error := e }
        if step.Required then
          (st', [Goroutine.send root ("error in step " ++ root.ID ++ ": " ++ e)])
        else if st.writing then
          (st, [Goroutine.exec root (Frame.call step via :: stack)])
        else
          ({ st' with stepResults := mapSet st.stepResults step.ID stepResult, writing := true },
           [Goroutine.exec root (Frame.write step true :: stack)])
      | none =>
        let stepResult := { stepResult with Status := WorkflowStatus.completed }
        if st.writing then
          (st, [Goroutine.exec root (Frame.call step via :: stack)])
        else
          ({ st' with stepResults := mapSet st.stepResults step.ID stepResult, writing := true },
           [Goroutine.exec root (Frame.write step false :: stack)])

/-- One action of a goroutine: the shared state afterwards and the goroutines
that replace it (none when it ends, several when it spawns).

The map `completed` is written under `w.mu` (line 205) but read under the
local `mu` of `executeSteps` (line 123) or under no lock at all
(`canExecuteStep`, lines 130 and 211), so a read can fall inside a write.  The
assignment therefore takes two actions, the first of which sets `writing` and
the second of which stores the key and clears the flag; a read of the map made
while `writing` is set makes the runtime abort the program, as the check of
`hashWriting` in the map access of the Go runtime does. -/
def act (workflow : Workflow) (env : Env) (st : ExecState) :
    Goroutine → ExecState × List Goroutine
  | Goroutine.entry step =>
    if st.writing then ({ st with panicked := true }, [Goroutine.entry step])
    else if st.completed.contains step.ID then (st, [])
    else (st, [Goroutine.checked step])
  | Goroutine.checked step =>
    if st.writing && readsCompleted workflow step then
      ({ st with panicked := true }, [Goroutine.checked step])
    else if canExecuteStep step st.completed workflow then
      (st, [Goroutine.exec step [Frame.call step Admission.wrapper]])
    else
      (st, [Goroutine.entry step])
  | Goroutine.exec root [] =>
    (st, (root.Next.filterMap (findStep workflow)).map Goroutine.entry)
  | Goroutine.exec root (Frame.call step via :: stack) => actCall env st root step via stack
  | Goroutine.exec root (Frame.write step failed :: stack) =>
    ({ st with completed := step.ID :: st.completed, writing := false },
     [Goroutine.exec root
       ((if failed then Frame.onError step step.OnError else Frame.next step step.Next)
         :: stack)])
  | Goroutine.exec root (Frame.next _ [] :: stack) => (st, [Goroutine.exec root stack])
  | Goroutine.exec root (Frame.next step (nextStepID :: rest) :: stack) =>
    match findStep workflow nextStepID with
    | some nextStep =>
      if st.writing && readsCompleted workflow nextStep then
        ({ st with panicked := true },
         [Goroutine.exec root (Frame.next step (nextStepID :: rest) :: stack)])
      else if canExecuteStep nextStep st.completed workflow then
        (st, [Goroutine.exec root
          (Frame.call nextStep Admission.next :: Frame.next step rest :: stack)])
      else
        (st, [Goroutine.exec root (Frame.next step rest :: stack)])
    | none => (st, [Goroutine.exec root (Frame.next step rest :: stack)])
  | Goroutine.exec root (Frame.onError _ [] :: stack) => (st, [Goroutine.exec root stack])
  | Goroutine.exec root (Frame.onError step (errorStepID :: rest) :: stack) =>
    match findStep workflow errorStepID with
    | some errorStep =>
      (st, [Goroutine.exec root
        (Frame.call errorStep Admission.onError :: Frame.onError step rest :: stack)])
    | none => (st, [Goroutine.exec root (Frame.onError step rest :: stack)])
  | Goroutine.send root err =>
    if st.errChan.length < workflow.Steps.length then
      ({ st with errChan := st.errChan ++ [err] }, [])
    else
      (st, [Goroutine.send root err])

/-- The scheduler lets goroutine number `i` of the pool take one action. -/
def schedStep (workflow : Workflow) (env : Env) (st : ExecState) (i : Nat) : ExecState :=
  if st.panicked then st
  else
    match st.pool.get? i with
    | none => st
    | some g =>
      let r := act workflow env st g
      { r.1 with pool := st.pool.eraseIdx i ++ r.2 }

/-- The state of `executeSteps` once the initial goroutines are started. -/
def initState (workflow : Workflow) : ExecState :=
  { completed := [], stepResults := [], errChan := [], clock := 0, trace := [],
    panicked := false, writing := false,
    pool := (findInitialSteps workflow).map Goroutine.entry }

/-- The state reached from `st` under a schedule. -/
def runSched (workflow : Workflow) (env : Env) (sched : List Nat) (st : ExecState) : ExecState :=
  sched.foldl (schedStep workflow env) st

/-- The execution of a workflow under a schedule, from the start of `executeSteps`. -/
def execution (workflow : Workflow) (env : Env) (sched : List Nat) : ExecState :=
  runSched workflow env sched (initState workflow)

/-- The method `executeSteps`: `wg.Wait()` returns once no goroutine is left, and
the first error of `errChan` is returned.  `none`: the call has not returned
under this schedule. -/
def executeSteps (workflow : Workflow) (env : Env) (sched : List Nat) :
    Option (ExecState × Option String) :=
  let st := execution workflow env sched
  if st.pool.isEmpty && !st.panicked then some (st, st.errChan.head?) else none

/-- The method `ExecuteWorkflow`: the engine afterwards, the result and the
error.  `none`: the call has not returned under this schedule. -/
def ExecuteWorkflow (w : WorkflowEngine) (env : Env) (sched : List Nat) (workflowID : String) :
    Option (WorkflowEngine × Option WorkflowResult × Option String) :=
  match mapGet w.workflows workflowID with
  | none => some (w, none, some ("workflow " ++ workflowID ++ " not found"))
  | some workflow =>
    match executeSteps workflow env sched with
    | none => none
    | some (st, err) =>
      let result : WorkflowResult :=
        { WorkflowID := workflowID, Status := WorkflowStatus.running,
          StepResults := st.stepResults, StartTime := env.now 0,
          EndTime := env.now st.clock, Error := "" }
      let result :=
        match err with
        | some e => { result with Status := WorkflowStatus.failed, Error := e }
        | none => { result with Status := WorkflowStatus.completed }
      some ({ w with results := mapSet w.results workflowID result }, some result, err)


/-- Whether the next action of a goroutine reads the map `completed`: the test
of `completed[step.ID]`, and the calls of `canExecuteStep` that read it. -/
def Goroutine.reads (wf : Workflow) : Goroutine → Bool
  | Goroutine.entry _ => true
  | Goroutine.checked step => readsCompleted wf step
  | Goroutine.exec _ (Frame.next _ (id :: _) :: _) =>
    match findStep wf id with
    | some nextStep => readsCompleted wf nextStep
    | none => false
  | _ => false

/-- One action of goroutine `g`, the other goroutines being `rest`: the cases
of `act`, one constructor for each way an action can go.  Every action of
`act` is one of these (`act_trans`); `abort` stands for each of the reads of
`completed` that `act` lets fall inside a write. -/
inductive Trans (wf : Workflow) (env : Env) (st : ExecState) (rest : List Goroutine) :
    Goroutine → ExecState → Prop
  | abort (g : Goroutine) (hw : st.writing = true) (hr : g.reads wf = true) :
    Trans wf env st rest g { st with panicked := true, pool := rest ++ [g] }
  | entryDone (step : Step) (h : step.ID ∈ st.completed) :
    Trans wf env st rest (Goroutine.entry step) { st with pool := rest }
  | entryGo (step : Step) (h : step.ID ∉ st.completed) :
    Trans wf env st rest (Goroutine.entry step)
      { st with pool := rest ++ [Goroutine.checked step] }
  | checkedGo (step : Step) (h : canExecuteStep step st.completed wf = true) :
    Trans wf env st rest (Goroutine.checked step)
      { st with pool := rest ++ [Goroutine.exec step [Frame.call step Admission.wrapper]] }
  | checkedWait (step : Step) (h : canExecuteStep step st.completed wf = false) :
    Trans wf env st rest (Goroutine.checked step)
      { st with pool := rest ++ [Goroutine.entry step] }
  | spawn (root : Step) :
    Trans wf env st rest (Goroutine.exec root [])
      { st with pool := rest ++ (root.Next.filterMap (findStep wf)).map Goroutine.entry }
  | callCtx (root step : Step) (via : Admission) (stack : List Frame) (ce : String)
      (h : env.ctxErr st.clock = some ce) :
    Trans wf env st rest (Goroutine.exec root (Frame.call step via :: stack))
      { st with pool := rest ++ [Goroutine.send root ("error in step " ++ root.ID ++ ": " ++ ce)] }
  | callPanic (root step : Step) (via : Admission) (stack : List Frame)
      (h1 : env.ctxErr st.clock = none) (h2 : runStep env st.clock step = none) :
    Trans wf env st rest (Goroutine.exec root (Frame.call step via :: stack))
      { st with panicked := true,
                pool := rest ++ [Goroutine.exec root (Frame.call step via :: stack)] }
  | callRequired (root step : Step) (via : Admission) (stack : List Frame) (a : Attempted)
      (e : String) (h1 : env.ctxErr st.clock = none) (h2 : runStep env st.clock step = some a)
      (h3 : a.err = some e) (h4 : step.Required = true) :
    Trans wf env st rest (Goroutine.exec root (Frame.call step via :: stack))
      { st with clock := a.clock,
                trace := st.trace ++ [Event.mk step via (mapKeys st.stepResults) true],
                pool := rest ++ [Goroutine.send root ("error in step " ++ root.ID ++ ": " ++ e)] }
  | callBlocked (root step : Step) (via : Admission) (stack : List Frame)
      (hw : st.writing = true) :
    Trans wf env st rest (Goroutine.exec root (Frame.call step via :: stack))
      { st with pool := rest ++ [Goroutine.exec root (Frame.call step via :: stack)] }
  | callFailed (root step : Step) (via : Admission) (stack : List Frame) (a : Attempted)
      (e : String) (h1 : env.ctxErr st.clock = none) (h2 : runStep env st.clock step = some a)
      (h3 : a.err = some e) (h4 : step.Required = false) (hw : st.writing = false) :
    Trans wf env st rest (Goroutine.exec root (Frame.call step via :: stack))
      { st with clock := a.clock,
                trace := st.trace ++ [Event.mk step via (mapKeys st.stepResults) true],
                stepResults := mapSet st.stepResults step.ID
                  { a.result with
                    EndTime := env.now a.clock, Status := WorkflowStatus.failed, Error := e },
                writing := true,
                pool := rest ++ [Goroutine.exec root (Frame.write step true :: stack)] }
  | callOk (root step : Step) (via : Admission) (stack : List Frame) (a : Attempted)
      (h1 : env.ctxErr st.clock = none) (h2 : runStep env st.clock step = some a)
      (h3 : a.err = none) (hw : st.writing = false) :
    Trans wf env st rest (Goroutine.exec root (Frame.call step via :: stack))
      { st with clock := a.clock,
                trace := st.trace ++ [Event.mk step via (mapKeys st.stepResults) false],
                stepResults := mapSet st.stepResults step.ID
                  { a.result with
                    EndTime := env.now a.clock, Status := WorkflowStatus.completed },
                writing := true,
                pool := rest ++ [Goroutine.exec root (Frame.write step false :: stack)] }
  | writeOk (root step : Step) (stack : List Frame) :
    Trans wf env st rest (Goroutine.exec root (Frame.write step false :: stack))
      { st with completed := step.ID :: st.completed, writing := false,
                pool := rest ++ [Goroutine.exec root (Frame.next step step.Next :: stack)] }
  | writeFailed (root step : Step) (stack : List Frame) :
    Trans wf env st rest (Goroutine.exec root (Frame.write step true :: stack))
      { st with completed := step.ID :: st.completed, writing := false,
                pool := rest ++ [Goroutine.exec root (Frame.onError step step.OnError :: stack)] }
  | nextDone (root step : Step) (stack : List Frame) :
    Trans wf env st rest (Goroutine.exec root (Frame.next step [] :: stack))
      { st with pool := rest ++ [Goroutine.exec root stack] }
  | nextCall (root step : Step) (id : String) (ids : List String) (stack : List Frame)
      (nextStep : Step) (h1 : findStep wf id = some nextStep)
      (h2 : canExecuteStep nextStep st.completed wf = true) :
    Trans wf env st rest (Goroutine.exec root (Frame.next step (id :: ids) :: stack))
      { st with pool := rest ++ [Goroutine.exec root
          (Frame.call nextStep Admission.next :: Frame.next step ids :: stack)] }
  | nextSkip (root step : Step) (id : String) (ids : List String) (stack : List Frame)
      (h : findStep wf id = none ∨
        ∃ nextStep, findStep wf id = some nextStep ∧
          canExecuteStep nextStep st.completed wf = false) :
    Trans wf env st rest (Goroutine.exec root (Frame.next step (id :: ids) :: stack))
      { st with pool := rest ++ [Goroutine.exec root (Frame.next step ids :: stack)] }
  | errDone (root step : Step) (stack : List Frame) :
    Trans wf env st rest (Goroutine.exec root (Frame.onError step [] :: stack))
      { st with pool := rest ++ [Goroutine.exec root stack] }
  | errCall (root step : Step) (id : String) (ids : List String) (stack : List Frame)
      (errorStep : Step) (h : findStep wf id = some errorStep) :
    Trans wf env st rest (Goroutine.exec root (Frame.onError step (id :: ids) :: stack))
      { st with pool := rest ++ [Goroutine.exec root
          (Frame.call errorStep Admission.onError :: Frame.onError step ids :: stack)] }
  | errSkip (root step : Step) (id : String) (ids : List String) (stack : List Frame)
      (h : findStep wf id = none) :
    Trans wf env st rest (Goroutine.exec root (Frame.onError step (id :: ids) :: stack))
      { st with pool := rest ++ [Goroutine.exec root (Frame.onError step ids :: stack)] }
  | sendOk (root : Step) (err : String) (h : st.errChan.length < wf.Steps.length) :
    Trans wf env st rest (Goroutine.send root err)
      { st with errChan := st.errChan ++ [err], pool := rest }
  | sendBlocked (root : Step) (err : String) (h : ¬ st.errChan.length < wf.Steps.length) :
    Trans wf env st rest (Goroutine.send root err)
      { st with pool := rest ++ [Goroutine.send root err] }

/-! ## Invariants of the scheduler -/

/-- The id whose assignment to `completed` an activation is in, if any. -/
def Frame.writes : Frame → Option String
  | Frame.write t _ => some t.ID
  | _ => none

/-- The ids whose assignment to `completed` a goroutine has begun. -/
def Goroutine.writes : Goroutine → List String
  | Goroutine.exec _ stack => stack.filterMap Frame.writes
  | _ => []

/-- Whether a goroutine is inside the assignment to `completed`. -/
def Goroutine.isWriter : Goroutine → Bool
  | Goroutine.exec _ (Frame.write _ _ :: _) => true
  | _ => false

/-- The write invariant: a step whose assignment to `completed` has begun has
its step result stored, and while the map is flagged as being written some
goroutine is inside the assignment. -/
def WriteInv (st : ExecState) : Prop :=
  (∀ g ∈ st.pool, ∀ id ∈ g.writes, id ∈ mapKeys st.stepResults) ∧
  (st.writing = true → ∃ g ∈ st.pool, g.isWriter = true)

/-- The dependency invariant: every completed id has a step result, every
activation admitted by the wrapper or as a successor passed `canExecuteStep`,
and every such run of the past saw the results of all its predecessors. -/
def DepsInv (wf : Workflow) (st : ExecState) : Prop :=
  (∀ id ∈ st.completed, id ∈ mapKeys st.stepResults) ∧
  (∀ root stack, Goroutine.exec root stack ∈ st.pool → ∀ t via, Frame.call t via ∈ stack →
    via ≠ Admission.onError → canExecuteStep t st.completed wf = true) ∧
  (∀ e ∈ st.trace, e.via ≠ Admission.onError →
    ∀ p ∈ wf.Steps, e.step.ID ∈ p.Next → p.ID ∈ e.recorded)

/-- Whether a goroutine is at the send to `errChan`. -/
def Goroutine.isSend : Goroutine → Bool
  | Goroutine.send _ _ => true
  | _ => false

/-- Some run of a required step ended in an error. -/
def requiredFailure (trace : List Event) : Prop :=
  ∃ e ∈ trace, e.step.Required = true ∧ e.failed = true

/-- Some goroutine of the pool is at the send to `errChan`. -/
def sends (pool : List Goroutine) : Prop := ∃ g ∈ pool, g.isSend = true

/-- The error invariant: an error is in `errChan` or on its way there exactly
when a run of a required step has failed. -/
def ErrInv (st : ExecState) : Prop :=
  requiredFailure st.trace ↔ (st.errChan ≠ [] ∨ sends st.pool)

/-- The message `msg` is the error of a failed run of a required step, wrapped
by the goroutine of `root` (line 138: `error in step <id>: <error>`). -/
def FailedRun (env : Env) (trace : List Event) (root : Step) (msg : String) : Prop :=
  ∃ ev ∈ trace, ev.step.Required = true ∧ ev.failed = true ∧
    ∃ clock a e, runStep env clock ev.step = some a ∧ a.err = some e ∧
      msg = "error in step " ++ root.ID ++ ": " ++ e

/-- The message invariant: every error in `errChan` or on its way there is the
wrapped error of a failed run of a required step. -/
def ErrMsgInv (env : Env) (st : ExecState) : Prop :=
  (∀ msg ∈ st.errChan, ∃ root, FailedRun env st.trace root msg) ∧
  (∀ root msg, Goroutine.send root msg ∈ st.pool → FailedRun env st.trace root msg)

/-- The activations that occur when no step fails: they belong to steps of the
workflow and a successor loop visits ids of its own step. -/
def Frame.Good (wf : Workflow) : Frame → Prop
  | Frame.call t _ => t ∈ wf.Steps
  | Frame.write t failed => t ∈ wf.Steps ∧ failed = false
  | Frame.next t ids => t ∈ wf.Steps ∧ ∀ id ∈ ids, id ∈ t.Next
  | Frame.onError _ _ => False

/-- The goroutines that occur when no step fails. -/
def Goroutine.Good (wf : Workflow) : Goroutine → Prop
  | Goroutine.entry s => s ∈ wf.Steps
  | Goroutine.checked s => s ∈ wf.Steps
  | Goroutine.exec r stack => r ∈ wf.Steps ∧ ∀ f ∈ stack, f.Good wf
  | Goroutine.send _ _ => False

/-- An activation that is about to run the step `id` or still has to visit it. -/
def Frame.Handles : Frame → String → Prop
  | Frame.call t _, id => t.ID = id
  | Frame.write t _, id => t.ID = id ∨ id ∈ t.Next
  | Frame.next _ ids, id => id ∈ ids
  | Frame.onError _ _, _ => False

/-- A goroutine that will still look at the step `id`: it is about to test it,
it has an activation that handles it, or it will start a goroutine for it when
its `executeStep` returns. -/
def Goroutine.Handles : Goroutine → String → Prop
  | Goroutine.entry s, id => s.ID = id
  | Goroutine.checked s, id => s.ID = id
  | Goroutine.exec r stack, id => id ∈ r.Next ∨ ∃ f ∈ stack, f.Handles id
  | Goroutine.send _ _, _ => False

/-- The hypotheses of a run without failures: distinct step ids, no dangling
`Next` edge, every run of a step succeeds, the context is never cancelled. -/
structure Sound (wf : Workflow) (env : Env) : Prop where
  nodup : (wf.Steps.map (fun s => s.ID)).Nodup
  edges : ∀ s ∈ wf.Steps, ∀ id ∈ s.Next, ∃ t ∈ wf.Steps, t.ID = id
  ok : ∀ n, ∀ s ∈ wf.Steps, ∃ a, runStep env n s = some a ∧ a.err = none
  ctx : ∀ n, env.ctxErr n = none

/-- The invariant of a run without failures, as long as the program lives. -/
def RunInv (wf : Workflow) (st : ExecState) : Prop :=
  WriteInv st ∧ st.errChan = [] ∧
  (∀ g ∈ st.pool, g.Good wf) ∧
  (∀ k r, (k, r) ∈ st.stepResults →
    r.Status = WorkflowStatus.completed ∧ ∃ s ∈ wf.Steps, s.ID = k) ∧
  (mapKeys st.stepResults).Nodup ∧
  (∀ id ∈ st.completed, id ∈ mapKeys st.stepResults) ∧
  (∀ s ∈ wf.Steps, s.ID ∈ st.completed ∨ (∃ g ∈ st.pool, g.Handles s.ID) ∨
    ∃ p ∈ wf.Steps, s.ID ∈ p.Next ∧ p.ID ∉ st.completed)

/-! ## A measure for termination -/

/-- A bound on the length of every `Next` list of the workflow. -/
def maxNext (wf : Workflow) : Nat := (wf.Steps.map (fun s => s.Next.length)).sum

/-- A bound on one visit of the successor loop at a step of height `h`. -/
def stepBound (D : Nat) : Nat → Nat
  | 0 => 0
  | h + 1 => 4 + D * stepBound D h

/-- A bound on a goroutine started for a successor of a step of height `h`. -/
def spawnBound (D : Nat) : Nat → Nat
  | 0 => 0
  | h + 1 => 6 + D * (stepBound D h + spawnBound D h)

/-- The actions a call of `executeStep` can still take. -/
def callCost (D : Nat) (hgt : String → Nat) (s : Step) : Nat :=
  3 + s.Next.length * stepBound D (hgt s.ID)

/-- The actions that follow the return of the top call: the start of the
goroutines of the successors and what they do. -/
def spawnCost (D : Nat) (hgt : String → Nat) (s : Step) : Nat :=
  1 + s.Next.length * spawnBound D (hgt s.ID)

/-- The actions an activation can still take. -/
def Frame.cost (D : Nat) (hgt : String → Nat) : Frame → Nat
  | Frame.call t _ => callCost D hgt t
  | Frame.write t _ => 2 + t.Next.length * stepBound D (hgt t.ID)
  | Frame.next t ids => 1 + ids.length * stepBound D (hgt t.ID)
  | Frame.onError _ _ => 0

/-- The actions a goroutine can still take, futile polls apart. -/
def Goroutine.cost (D : Nat) (hgt : String → Nat) : Goroutine → Nat
  | Goroutine.entry s => 2 + callCost D hgt s + spawnCost D hgt s
  | Goroutine.checked s => 1 + callCost D hgt s + spawnCost D hgt s
  | Goroutine.exec r stack => (stack.map (Frame.cost D hgt)).sum + spawnCost D hgt r
  | Goroutine.send _ _ => 0

/-- The measure of a pool. -/
def poolCost (D : Nat) (hgt : String → Nat) (pool : List Goroutine) : Nat :=
  (pool.map (Goroutine.cost D hgt)).sum

/-- A poll that finds its step still blocked: the only action that does not
make progress while no assignment to `completed` is under way. -/
def Goroutine.Futile (wf : Workflow) (st : ExecState) (g : Goroutine) : Prop :=
  ∃ s, g = Goroutine.checked s ∧ canExecuteStep s st.completed wf = false

/-- A goroutine whose next action makes progress: it ends the assignment to
`completed` that is under way, or there is none and it is not a futile poll. -/
def Goroutine.Moves (wf : Workflow) (st : ExecState) (g : Goroutine) : Prop :=
  g.isWriter = true ∨ (st.writing = false ∧ ¬ g.Futile wf st)

/-! ## Error handlers -/

/-- An activation that is about to run the handler `H` or still has to visit it. -/
def Frame.Pending (H : String) : Frame → Prop
  | Frame.call t _ => t.ID = H
  | Frame.write t failed => failed = true ∧ H ∈ t.OnError
  | Frame.onError _ ids => H ∈ ids
  | Frame.next _ _ => False

/-- A goroutine with an activation that will still run the handler `H`. -/
def Goroutine.Pending (H : String) : Goroutine → Prop
  | Goroutine.exec _ stack => ∃ f ∈ stack, f.Pending H
  | _ => False

/-- An error is in `errChan` or on its way there. -/
def errored (st : ExecState) : Prop := st.errChan ≠ [] ∨ sends st.pool

/-- The handler invariant: a failed run of a step that is not required is
recorded, and each of its handlers that exists is recorded or still pending,
unless an error has been raised; a failed run of a required step raises an
error; every recorded status is `completed` or `failed`, and `completed` only
after a run that succeeded. -/
def HandlerInv (wf : Workflow) (st : ExecState) : Prop :=
  (∀ e ∈ st.trace, e.failed = true → e.step.Required = false →
    e.step.ID ∈ mapKeys st.stepResults ∧
    ∀ H ∈ e.step.OnError, (findStep wf H).isSome = true →
      H ∈ mapKeys st.stepResults ∨ (∃ g ∈ st.pool, g.Pending H) ∨ errored st) ∧
  (requiredFailure st.trace → errored st) ∧
  (∀ k r, (k, r) ∈ st.stepResults →
    (r.Status = WorkflowStatus.completed ∨ r.Status = WorkflowStatus.failed) ∧
    (r.Status = WorkflowStatus.completed →
      ∃ e ∈ st.trace, e.step.ID = k ∧ e.failed = false))

/-! ## The graph of the `Next` edges -/

/-- An edge of the `Next` graph: some step with the id `a` names `b` in `Next`. -/
def nextEdge (wf : Workflow) (a b : String) : Prop :=
  ∃ s ∈ wf.Steps, s.ID = a ∧ b ∈ s.Next

/-- The `Next` graph has no cycle: no id reaches itself along one or more edges. -/
def Acyclic (wf : Workflow) : Prop :=
  ∀ id, ¬ Relation.TransGen (nextEdge wf) id id

/-! ## Example workflows -/

/-- A step of type `echo` that returns its own id as message. -/
def echoStep (id : String) (next : List String) : Step :=
  { ID := id, Name := id, StepType := "echo", Config := [("message", id)], Next := next,
    OnError := [], Retry := none, Timeout := 0, Required := false }

/-- A step of type `soap`, a type `executeSingleStep` does not know: every run of it fails. -/
def soapStep (id : String) (next onError : List String) (required : Bool) : Step :=
  { ID := id, Name := id, StepType := "soap", Config := [], Next := next,
    OnError := onError, Retry := none, Timeout := 0, Required := required }

/-- A workflow with the id `wf` and these steps, as `RegisterWorkflow` stores it at time 7. -/
def workflowOf (steps : List Step) : Workflow :=
  { ID := "wf", Name := "example", Description := "", Steps := steps,
    Status := WorkflowStatus.pending, CreatedAt := 7, UpdatedAt := 7, Metadata := [] }

/-- An engine in which `workflow` is the one registered workflow. -/
def engineWith (workflow : Workflow) : WorkflowEngine :=
  (RegisterWorkflow NewWorkflowEngine 7 workflow).1

/-- The product of a delay and a multiplier in exact arithmetic, truncated
towards zero: the value of the `float64` computation whenever that is exact. -/
def exactScale (delay : Int) (m : ℚ) : Int :=
  ((delay : ℚ) * m).num.tdiv (((delay : ℚ) * m).den : Int)

/-- An environment whose context is never cancelled. -/
def quietEnv : Env :=
  { rest := fun _ _ => Outcome.err "connection refused",
    transform := fun _ _ => Outcome.err "template error",
    ctxErr := fun _ => none,
    now := fun n => n,
    scaleDelay := exactScale }

/-- The workflow of `TestWorkflowEngine`: `step1` alone and `step2 -> step3`. -/
def testWorkflow : Workflow :=
  workflowOf [echoStep "step1" [], echoStep "step2" ["step3"], echoStep "step3" []]

/-- The diamond `A -> B`, `A -> C`, `B -> C`. -/
def diamondWorkflow : Workflow :=
  workflowOf [echoStep "A" ["B", "C"], echoStep "B" ["C"], echoStep "C" []]

/-- The chain `A -> B` with a required `A` that fails. -/
def requiredWorkflow : Workflow :=
  workflowOf [soapStep "A" ["B"] [] true, echoStep "B" []]

/-- The workflow `A -> B` and `C`, with an `A` that fails and is not required. -/
def optionalWorkflow : Workflow :=
  workflowOf [soapStep "A" ["B"] [] false, echoStep "B" [], echoStep "C" []]

/-- A failing `A` with the handler `H`, which is also the successor of `P`. -/
def handlerWorkflow : Workflow :=
  workflowOf [soapStep "A" [] ["H"] false, echoStep "P" ["H"], echoStep "H" []]

/-- A required failing `A -> B -> H` with the handler `H`. -/
def guardedWorkflow : Workflow :=
  workflowOf [soapStep "A" ["B"] ["H"] true, echoStep "B" ["H"], echoStep "H" []]

/-- A failing `A` that is not required, with the handler `H`. -/
def recoverWorkflow : Workflow :=
  workflowOf [soapStep "A" [] ["H"] false, echoStep "H" []]

/-- The schedule that always moves the first goroutine of the pool, `n` times. -/
def roundRobin (n : Nat) : List Nat := List.replicate n 0

/-- A schedule for `optionalWorkflow`: the first goroutine moves five times,
then the second one once, then the first of the pool until the end. -/
def optionalSchedule : List Nat := roundRobin 5 ++ [1] ++ roundRobin 12

/-- A schedule for `recoverWorkflow`: the goroutine of `H` moves once, then that
of `A` until its `executeStep` has returned, then the first of the pool. -/
def recoverSchedule : List Nat := [0, 1, 1, 1, 1, 1, 1, 0, 0, 0, 0]

/-- A required `A` that fails, and `B` the successor of both `A` and `C`. -/
def blockedWorkflow : Workflow :=
  workflowOf [soapStep "A" ["B"] [] true, echoStep "C" ["B"], echoStep "B" []]

/-! ## Every execution of a small workflow -/

/-- The states one move of the scheduler leads to, one for each goroutine of the pool. -/
def successors (wf : Workflow) (env : Env) (st : ExecState) : List ExecState :=
  (List.range st.pool.length).map (schedStep wf env st)

/-- A search of the states that can be reached: `seen` are the states found so
far, `todo` those whose successors are still to be looked at. -/
def explore (wf : Workflow) (env : Env) : Nat → List ExecState → List ExecState → List ExecState
  | 0, seen, _ => seen
  | _ + 1, seen, [] => seen
  | fuel + 1, seen, st :: todo =>
    let fresh := (successors wf env st).eraseDups.filter (fun s => !(seen.contains s))
    explore wf env fuel (seen ++ fresh) (todo ++ fresh)

/-- The states found by the search from the initial state. -/
def reachable (wf : Workflow) (env : Env) (fuel : Nat) : List ExecState :=
  explore wf env fuel [initState wf] [initState wf]

/-- Whether a set of states holds the successors of each of its states. -/
def closed (wf : Workflow) (env : Env) (S : List ExecState) : Bool :=
  S.all (fun st => (successors wf env st).all (fun s => S.contains s))

/-! ## Attempts of the retry loop -/

/-- The value of `maxAttempts` in `executeWithRetry`: `MaxAttempts`, or 1 when
that is zero or negative. -/
def attemptLimit (r : RetryConfig) : Nat :=
  if r.MaxAttempts ≤ 0 then 1 else r.MaxAttempts.toNat

/-- The call of `executeSingleStep` made at time `n` returns an error. -/
def attemptFails (env : Env) (n : Nat) (step : Step) : Prop :=
  ∃ e, ∀ result, executeSingleStep env n step result = some (some e, result)

/-- The call of `executeSingleStep` made at time `n` returns nil, with some data. -/
def attemptSucceeds (env : Env) (n : Nat) (step : Step) : Prop :=
  ∃ data, ∀ result,
    executeSingleStep env n step result = some (none, { result with Data := some data })

/-- The number of calls of `executeSingleStep` in a run that started at time
`clock`: the logical clock ticks once for each call and once for each wait. -/
def attemptsMade (clock : Nat) (a : Attempted) : Nat :=
  a.clock - clock - a.waits.length

/-- A retry policy of three attempts with a doubling delay of 100, capped at 1000. -/
def doublingRetry : RetryConfig :=
  { MaxAttempts := 3, Delay := 100, MaxDelay := 1000, Multiplier := 2 }

/-- A retry policy of three attempts with the constant delay 500 and the cap 100. -/
def constantRetry : RetryConfig :=
  { MaxAttempts := 3, Delay := 500, MaxDelay := 100, Multiplier := 0 }

/-- A retry policy of three attempts with a doubling delay of 100 and no cap. -/
def uncappedRetry : RetryConfig :=
  { MaxAttempts := 3, Delay := 100, MaxDelay := 0, Multiplier := 2 }

/-- A step of the unknown type `soap` with a retry policy. -/
def soapRetryStep (r : RetryConfig) : Step :=
  { soapStep "A" [] [] false with Retry := some r }

/-- A required step of the unknown type `soap` with a retry policy. -/
def requiredRetryStep (r : RetryConfig) : Step :=
  { soapStep "A" [] [] true with Retry := some r }

/-- The workflow whose one step is required, always fails and is tried three times. -/
def retryWorkflow : Workflow :=
  workflowOf [requiredRetryStep doublingRetry]

/-- The cycle `A -> B -> A`. -/
def cyclicWorkflow : Workflow :=
  workflowOf [echoStep "A" ["B"], echoStep "B" ["A"]]

/-- A workflow whose step `A` names the undefined step `Z` in `Next`. -/
def danglingWorkflow : Workflow :=
  workflowOf [echoStep "A" ["Z"]]

/-- A workflow with the one echo step `A`, without a retry policy. -/
def singleWorkflow : Workflow :=
  workflowOf [echoStep "A" []]

/-- The step result `executeStep` starts from, for the step `A` at time 0. -/
def freshResult : StepResult :=
  { StepID := "A", Status := WorkflowStatus.running, StartTime := 0, EndTime := 0,
    Data := none, Error := "", Attempts := 0 }

/-- An environment whose `rest` executor times out before time 4 and answers afterwards. -/
def flakyEnv : Env :=
  { rest := fun n _ => if n < 4 then Outcome.err "timeout" else Outcome.ok "pong",
    transform := fun _ _ => Outcome.err "template error",
    ctxErr := fun _ => none,
    now := fun n => n,
    scaleDelay := exactScale }

/-- A step of type `rest` with a retry policy. -/
def restRetryStep (r : RetryConfig) : Step :=
  { ID := "A", Name := "A", StepType := "rest", Config := [], Next := [], OnError := [],
    Retry := some r, Timeout := 0, Required := false }


/-! ## Maps -/

theorem mapGet_mapSet_same {α : Type} (m : List (String × α)) (k : String) (v : α) :
    mapGet (mapSet m k v) k = some v := by
  induction m with
  | nil => simp [mapSet, mapGet]
  | cons p rest ih =>
    obtain ⟨k', v'⟩ := p
    by_cases h : k' = k
    · simp [mapSet, mapGet, h]
    · simp [mapSet, mapGet, h, ih]

theorem mapGet_mapSet_other {α : Type} (m : List (String × α)) (k k' : String) (v : α)
    (h : k' ≠ k) : mapGet (mapSet m k v) k' = mapGet m k' := by
  induction m with
  | nil => simp [mapSet, mapGet, Ne.symm h]
  | cons p rest ih =>
    obtain ⟨k₀, v₀⟩ := p
    by_cases h₀ : k₀ = k
    · subst h₀
      simp [mapSet, mapGet, Ne.symm h]
    · simp only [mapSet, h₀, if_false, mapGet, ih]

theorem mapKeys_mapSet_mem {α : Type} (m : List (String × α)) (k k' : String) (v : α) :
    k' ∈ mapKeys (mapSet m k v) ↔ k' = k ∨ k' ∈ mapKeys m := by
  induction m with
  | nil => simp [mapSet, mapKeys]
  | cons p rest ih =>
    obtain ⟨k₀, v₀⟩ := p
    by_cases h₀ : k₀ = k
    · subst h₀
      simp [mapSet, mapKeys]
    · have ih' : k' ∈ List.map Prod.fst (mapSet rest k v) ↔ k' = k ∨ k' ∈ List.map Prod.fst rest := ih
      simp only [mapSet, h₀, if_false, mapKeys, List.map_cons, List.mem_cons, ih']
      tauto

theorem mapGet_isSome_iff {α : Type} (m : List (String × α)) (k : String) :
    (mapGet m k).isSome = true ↔ k ∈ mapKeys m := by
  induction m with
  | nil => simp [mapGet, mapKeys]
  | cons p rest ih =>
    obtain ⟨k₀, v₀⟩ := p
    have ih' : (mapGet rest k).isSome = true ↔ k ∈ List.map Prod.fst rest := ih
    by_cases h₀ : k₀ = k
    · simp [mapGet, mapKeys, h₀]
    · simp only [mapGet, h₀, if_false, mapKeys, List.map_cons, List.mem_cons, ih']
      constructor
      · intro h; exact Or.inr h
      · rintro (h | h)
        · exact absurd h.symm h₀
        · exact h

theorem mapKeys_mapSet_nodup {α : Type} (m : List (String × α)) (k : String) (v : α)
    (h : (mapKeys m).Nodup) : (mapKeys (mapSet m k v)).Nodup := by
  induction m with
  | nil => simp [mapSet, mapKeys]
  | cons p rest ih =>
    obtain ⟨k₀, v₀⟩ := p
    have hr : (mapKeys rest).Nodup := (List.nodup_cons.mp h).2
    have hk : k₀ ∉ mapKeys rest := (List.nodup_cons.mp h).1
    by_cases h₀ : k₀ = k
    · subst h₀
      simpa [mapSet, mapKeys] using h
    · have : (mapKeys ((k₀, v₀) :: mapSet rest k v)).Nodup := by
        refine List.nodup_cons.mpr ⟨?_, ih hr⟩
        intro hmem
        rcases (mapKeys_mapSet_mem rest k k₀ v).mp hmem with h1 | h1
        · exact h₀ h1
        · exact hk h1
      simpa [mapSet, h₀] using this

theorem mapGet_some_mem {α : Type} (m : List (String × α)) (k : String) (v : α)
    (h : mapGet m k = some v) : (k, v) ∈ m := by
  induction m with
  | nil => simp [mapGet] at h
  | cons p rest ih =>
    obtain ⟨k₀, v₀⟩ := p
    by_cases h₀ : k₀ = k
    · simp [mapGet, h₀] at h
      simp [h₀, h]
    · simp only [mapGet, h₀, if_false] at h
      exact List.mem_cons_of_mem _ (ih h)

/-! ## The scheduler -/

theorem actCall_trans (wf : Workflow) (env : Env) (st : ExecState) (rest : List Goroutine)
    (root step : Step) (via : Admission) (stack : List Frame) :
    Trans wf env st rest (Goroutine.exec root (Frame.call step via :: stack))
      { (actCall env st root step via stack).1 with
        pool := rest ++ (actCall env st root step via stack).2 } := by
  unfold actCall
  cases hctx : env.ctxErr st.clock with
  | some ce => exact Trans.callCtx root step via stack ce hctx
  | none =>
    cases hrun : runStep env st.clock step with
    | none => exact Trans.callPanic root step via stack hctx hrun
    | some a =>
      cases herr : a.err with
      | none =>
        cases hw : st.writing with
        | true =>
          have := @Trans.callBlocked wf env st rest root step via stack hw
          simpa [herr, hw] using this
        | false =>
          have := @Trans.callOk wf env st rest root step via stack a hctx hrun herr hw
          simpa [herr, hw] using this
      | some e =>
        cases hreq : step.Required with
        | true =>
          have := @Trans.callRequired wf env st rest root step via stack a e hctx hrun
            herr hreq
          simpa [herr, hreq] using this
        | false =>
          cases hw : st.writing with
          | true =>
            have := @Trans.callBlocked wf env st rest root step via stack hw
            simpa [herr, hreq, hw] using this
          | false =>
            have := @Trans.callFailed wf env st rest root step via stack a e hctx hrun
              herr hreq hw
            simpa [herr, hreq, hw] using this

theorem act_trans (wf : Workflow) (env : Env) (st : ExecState) (rest : List Goroutine)
    (g : Goroutine) :
    Trans wf env st rest g
      { (act wf env st g).1 with pool := rest ++ (act wf env st g).2 } := by
  cases g with
  | entry step =>
    cases hw : st.writing with
    | true =>
      have := @Trans.abort wf env st rest (Goroutine.entry step) hw rfl
      simpa [act, hw] using this
    | false =>
      by_cases h : step.ID ∈ st.completed
      · have := @Trans.entryDone wf env st rest step h
        simpa [act, h, hw] using this
      · have := @Trans.entryGo wf env st rest step h
        simpa [act, h, hw] using this
  | checked step =>
    cases hr : (st.writing && readsCompleted wf step) with
    | true =>
      simp only [Bool.and_eq_true] at hr
      have := @Trans.abort wf env st rest (Goroutine.checked step) hr.1 hr.2
      simpa [act, hr.1, hr.2] using this
    | false =>
      cases h : canExecuteStep step st.completed wf with
      | true =>
        have := @Trans.checkedGo wf env st rest step h
        simpa [act, h, hr] using this
      | false =>
        have := @Trans.checkedWait wf env st rest step h
        simpa [act, h, hr] using this
  | send root err =>
    by_cases h : st.errChan.length < wf.Steps.length
    · have := @Trans.sendOk wf env st rest root err h
      simpa [act, h] using this
    · have := @Trans.sendBlocked wf env st rest root err h
      simpa [act, h] using this
  | exec root stack =>
    cases stack with
    | nil => exact Trans.spawn root
    | cons f stack =>
      cases f with
      | call step via => exact actCall_trans wf env st rest root step via stack
      | write step failed =>
        cases failed with
        | false =>
          have := @Trans.writeOk wf env st rest root step stack
          simpa [act] using this
        | true =>
          have := @Trans.writeFailed wf env st rest root step stack
          simpa [act] using this
      | next step ids =>
        cases ids with
        | nil => exact Trans.nextDone root step stack
        | cons id ids =>
          cases hf : findStep wf id with
          | none =>
            have := @Trans.nextSkip wf env st rest root step id ids stack (Or.inl hf)
            simpa [act, hf] using this
          | some nextStep =>
            cases hr : (st.writing && readsCompleted wf nextStep) with
            | true =>
              simp only [Bool.and_eq_true] at hr
              have := @Trans.abort wf env st rest
                (Goroutine.exec root (Frame.next step (id :: ids) :: stack)) hr.1
                (by simp [Goroutine.reads, hf, hr.2])
              simpa [act, hf, hr.1, hr.2] using this
            | false =>
              cases hc : canExecuteStep nextStep st.completed wf with
              | true =>
                have := @Trans.nextCall wf env st rest root step id ids stack nextStep
                  hf hc
                simpa [act, hf, hc, hr] using this
              | false =>
                have := @Trans.nextSkip wf env st rest root step id ids stack
                  (Or.inr ⟨nextStep, hf, hc⟩)
                simpa [act, hf, hc, hr] using this
      | onError step ids =>
        cases ids with
        | nil => exact Trans.errDone root step stack
        | cons id ids =>
          cases hf : findStep wf id with
          | none =>
            have := @Trans.errSkip wf env st rest root step id ids stack hf
            simpa [act, hf] using this
          | some errorStep =>
            have := @Trans.errCall wf env st rest root step id ids stack errorStep hf
            simpa [act, hf] using this

theorem perm_eraseIdx {α : Type} (l : List α) (i : Nat) (a : α) (h : l[i]? = some a) :
    l.Perm (a :: l.eraseIdx i) := by
  induction l generalizing i with
  | nil => simp at h
  | cons b l ih =>
    cases i with
    | zero =>
      simp at h
      subst h
      simp
    | succ i =>
      simp at h
      have := ih i h
      simp only [List.eraseIdx_cons_succ]
      exact (List.Perm.cons b this).trans (List.Perm.swap a b _)

/-- Every move of the scheduler is the identity or one action of one goroutine. -/
theorem schedStep_trans (wf : Workflow) (env : Env) (st : ExecState) (i : Nat) :
    schedStep wf env st i = st ∨
      ∃ g rest, st.panicked = false ∧ st.pool.Perm (g :: rest) ∧
        Trans wf env st rest g (schedStep wf env st i) := by
  unfold schedStep
  cases hp : st.panicked with
  | true => left; simp
  | false =>
    cases hg : st.pool.get? i with
    | none => left; simp
    | some g =>
      right
      refine ⟨g, st.pool.eraseIdx i, rfl, perm_eraseIdx _ _ _ (by simpa using hg), ?_⟩
      simpa using act_trans wf env st (st.pool.eraseIdx i) g

theorem runSched_invariant (wf : Workflow) (env : Env) (P : ExecState → Prop)
    (hstep : ∀ st g rest st', st.panicked = false → st.pool.Perm (g :: rest) →
      Trans wf env st rest g st' → P st → P st')
    (sched : List Nat) (st : ExecState) (h : P st) : P (runSched wf env sched st) := by
  induction sched generalizing st with
  | nil => exact h
  | cons i sched ih =>
    have : runSched wf env (i :: sched) st = runSched wf env sched (schedStep wf env st i) := rfl
    rw [this]
    apply ih
    rcases schedStep_trans wf env st i with h1 | ⟨g, rest, hp, hperm, ht⟩
    · rw [h1]; exact h
    · exact hstep st g rest _ hp hperm ht h

/-! ## Facts about `findStep` and `mapSet` -/

theorem findStep_some (wf : Workflow) (id : String) (u : Step) (h : findStep wf id = some u) :
    u ∈ wf.Steps ∧ u.ID = id := by
  unfold findStep at h
  refine ⟨List.mem_of_find?_eq_some h, ?_⟩
  have := List.find?_some h
  simpa using this

theorem findStep_of_mem (wf : Workflow) (s : Step) (h : s ∈ wf.Steps) :
    ∃ u, findStep wf s.ID = some u := by
  unfold findStep
  cases hf : wf.Steps.find? (fun t => decide (t.ID = s.ID)) with
  | some u => exact ⟨u, rfl⟩
  | none =>
    rw [List.find?_eq_none] at hf
    have := hf s h
    simp at this

theorem step_eq_of_id (wf : Workflow) (hn : (wf.Steps.map (fun s => s.ID)).Nodup) (s t : Step)
    (hs : s ∈ wf.Steps) (ht : t ∈ wf.Steps) (h : s.ID = t.ID) : s = t :=
  List.inj_on_of_nodup_map hn hs ht h

theorem mem_mapSet {α : Type} (m : List (String × α)) (k : String) (v : α) (p : String × α)
    (h : p ∈ mapSet m k v) : p = (k, v) ∨ p ∈ m := by
  induction m with
  | nil =>
    simp only [mapSet, List.mem_singleton] at h
    exact Or.inl h
  | cons q rest ih =>
    obtain ⟨k₀, v₀⟩ := q
    by_cases h₀ : k₀ = k
    · simp only [mapSet, h₀, if_true, List.mem_cons] at h
      rcases h with h | h
      · exact Or.inl h
      · exact Or.inr (List.mem_cons_of_mem _ h)
    · simp only [mapSet, h₀, if_false, List.mem_cons] at h
      rcases h with h | h
      · exact Or.inr (h ▸ List.mem_cons_self _ _)
      · rcases ih h with h | h
        · exact Or.inl h
        · exact Or.inr (List.mem_cons_of_mem _ h)

/-! ## The assignment to `completed` -/

theorem writeInv_of (st st' : ExecState) (g : Goroutine) (rest news : List Goroutine)
    (hperm : st.pool.Perm (g :: rest)) (h : WriteInv st) (hpool : st'.pool = rest ++ news)
    (hkeys : ∀ id ∈ mapKeys st.stepResults, id ∈ mapKeys st'.stepResults)
    (hnews : ∀ n ∈ news, ∀ id ∈ n.writes, id ∈ g.writes ∨ id ∈ mapKeys st'.stepResults)
    (hw : st'.writing = true →
      (st.writing = true ∧ g.isWriter = false) ∨ ∃ n ∈ news, n.isWriter = true) :
    WriteInv st' := by
  obtain ⟨h1, h2⟩ := h
  have hrest : ∀ x, x ∈ rest → x ∈ st.pool :=
    fun x hx => hperm.mem_iff.mpr (List.mem_cons_of_mem _ hx)
  have hg : g ∈ st.pool := hperm.mem_iff.mpr (List.mem_cons_self _ _)
  refine ⟨?_, ?_⟩
  · intro x hx id hid
    rw [hpool] at hx
    rcases List.mem_append.mp hx with hx | hx
    · exact hkeys id (h1 x (hrest x hx) id hid)
    · rcases hnews x hx id hid with h3 | h3
      · exact hkeys id (h1 g hg id h3)
      · exact h3
  · intro hwr
    rw [hpool]
    rcases hw hwr with ⟨h3, h4⟩ | ⟨n, hn, h3⟩
    · obtain ⟨x, hx, hxw⟩ := h2 h3
      rcases List.mem_cons.mp (hperm.mem_iff.mp hx) with rfl | hx
      · rw [h4] at hxw; cases hxw
      · exact ⟨x, List.mem_append_left _ hx, hxw⟩
    · exact ⟨n, List.mem_append_right _ hn, h3⟩

theorem writeInv_step (wf : Workflow) (env : Env) (st : ExecState) (g : Goroutine)
    (rest : List Goroutine) (st' : ExecState) (hperm : st.pool.Perm (g :: rest))
    (ht : Trans wf env st rest g st') (h : WriteInv st) : WriteInv st' := by
  cases ht with
  | abort g hw hr =>
    refine writeInv_of st _ g rest [g] hperm h rfl (fun _ hx => hx) ?_ ?_
    · intro n hn id hid
      simp only [List.mem_singleton] at hn
      subst hn
      exact Or.inl hid
    · intro _
      cases hgw : g.isWriter with
      | true => exact Or.inr ⟨g, List.mem_singleton_self _, hgw⟩
      | false => exact Or.inl ⟨hw, rfl⟩
  | entryDone step h1 =>
    refine writeInv_of st _ _ rest [] hperm h (by simp) (fun _ hx => hx) (by simp) ?_
    intro hw
    exact Or.inl ⟨hw, rfl⟩
  | sendOk root err h1 =>
    refine writeInv_of st _ _ rest [] hperm h (by simp) (fun _ hx => hx) (by simp) ?_
    intro hw
    exact Or.inl ⟨hw, rfl⟩
  | spawn root =>
    refine writeInv_of st _ _ rest _ hperm h rfl (fun _ hx => hx) ?_ ?_
    · intro n hn id hid
      simp only [List.mem_map] at hn
      obtain ⟨s, _, rfl⟩ := hn
      simp [Goroutine.writes] at hid
    · intro hw
      exact Or.inl ⟨hw, rfl⟩
  | callFailed root step via stack a e hc hr he hq hw =>
    refine writeInv_of st _ _ rest _ hperm h rfl ?_ ?_ ?_
    · intro id hid
      exact (mapKeys_mapSet_mem _ _ _ _).mpr (Or.inr hid)
    · intro n hn id hid
      simp only [List.mem_singleton] at hn
      subst hn
      simp only [Goroutine.writes, List.filterMap_cons, Frame.writes, List.mem_cons] at hid
      rcases hid with rfl | hid
      · exact Or.inr ((mapKeys_mapSet_mem _ _ _ _).mpr (Or.inl rfl))
      · exact Or.inl (by simpa [Goroutine.writes, Frame.writes] using hid)
    · intro _
      exact Or.inr ⟨_, List.mem_singleton_self _, rfl⟩
  | callOk root step via stack a hc hr he hw =>
    refine writeInv_of st _ _ rest _ hperm h rfl ?_ ?_ ?_
    · intro id hid
      exact (mapKeys_mapSet_mem _ _ _ _).mpr (Or.inr hid)
    · intro n hn id hid
      simp only [List.mem_singleton] at hn
      subst hn
      simp only [Goroutine.writes, List.filterMap_cons, Frame.writes, List.mem_cons] at hid
      rcases hid with rfl | hid
      · exact Or.inr ((mapKeys_mapSet_mem _ _ _ _).mpr (Or.inl rfl))
      · exact Or.inl (by simpa [Goroutine.writes, Frame.writes] using hid)
    · intro _
      exact Or.inr ⟨_, List.mem_singleton_self _, rfl⟩
  | writeOk root step stack =>
    refine writeInv_of st _ _ rest _ hperm h rfl (fun _ hx => hx) ?_ ?_
    · intro n hn id hid
      simp only [List.mem_singleton] at hn
      subst hn
      left
      simp only [Goroutine.writes, List.filterMap_cons, Frame.writes] at hid ⊢
      exact List.mem_cons_of_mem _ hid
    · intro hw
      cases hw
  | writeFailed root step stack =>
    refine writeInv_of st _ _ rest _ hperm h rfl (fun _ hx => hx) ?_ ?_
    · intro n hn id hid
      simp only [List.mem_singleton] at hn
      subst hn
      left
      simp only [Goroutine.writes, List.filterMap_cons, Frame.writes] at hid ⊢
      exact List.mem_cons_of_mem _ hid
    · intro hw
      cases hw
  | _ =>
    refine writeInv_of st _ _ rest _ hperm h rfl (fun _ hx => hx) ?_ ?_
    · intro n hn id hid
      simp only [List.mem_singleton] at hn
      subst hn
      left
      simp only [Goroutine.writes, List.filterMap_cons, Frame.writes, List.filterMap_nil,
        List.not_mem_nil] at hid ⊢ <;>
      exact hid
    · intro hw
      exact Or.inl ⟨hw, rfl⟩

theorem writeInv_init (wf : Workflow) : WriteInv (initState wf) := by
  refine ⟨?_, ?_⟩
  · intro g hg id hid
    simp only [initState, List.mem_map] at hg
    obtain ⟨s, _, rfl⟩ := hg
    simp [Goroutine.writes] at hid
  · intro hw
    simp [initState] at hw

theorem writeInv_execution (wf : Workflow) (env : Env) (sched : List Nat) :
    WriteInv (execution wf env sched) :=
  runSched_invariant wf env WriteInv
    (fun st g rest st' _ hperm ht h => writeInv_step wf env st g rest st' hperm ht h)
    sched (initState wf) (writeInv_init wf)

/-- Once the program has died no goroutine moves. -/
theorem runSched_panicked (wf : Workflow) (env : Env) (sched : List Nat) (st : ExecState)
    (h : st.panicked = true) : runSched wf env sched st = st := by
  induction sched with
  | nil => rfl
  | cons i sched ih =>
    have : runSched wf env (i :: sched) st = runSched wf env sched (schedStep wf env st i) := rfl
    rw [this]
    have h2 : schedStep wf env st i = st := by simp [schedStep, h]
    rw [h2, ih]

theorem runSched_append (wf : Workflow) (env : Env) (s1 s2 : List Nat) (st : ExecState) :
    runSched wf env (s1 ++ s2) st = runSched wf env s2 (runSched wf env s1 st) := by
  simp [runSched, List.foldl_append]
/-! ## Dependencies are honoured by the wrapper and by the successor loop -/

theorem canExecuteStep_iff (t : Step) (completed : List String) (wf : Workflow) :
    canExecuteStep t completed wf = true ↔
      ∀ p ∈ wf.Steps, t.ID ∈ p.Next → p.ID ∈ completed := by
  unfold canExecuteStep
  simp only [List.all_eq_true, Bool.not_eq_true', Bool.and_eq_false_imp, decide_eq_true_eq,
    Bool.not_eq_false', List.contains_eq_any_beq, List.any_eq_true, beq_iff_eq]
  constructor
  · intro h p hp hn
    obtain ⟨x, hx, hxe⟩ := h p hp t.ID hn rfl
    rw [← hxe] at hx
    exact hx
  · intro h p hp n hn hne
    subst hne
    exact ⟨p.ID, h p hp hn, rfl⟩

theorem canExecuteStep_false_iff (t : Step) (completed : List String) (wf : Workflow) :
    canExecuteStep t completed wf = false ↔
      ∃ p ∈ wf.Steps, t.ID ∈ p.Next ∧ p.ID ∉ completed := by
  rw [← Bool.not_eq_true, canExecuteStep_iff]
  push_neg
  rfl

theorem canExecuteStep_mono (t : Step) (completed : List String) (wf : Workflow) (x : String)
    (h : canExecuteStep t completed wf = true) : canExecuteStep t (x :: completed) wf = true := by
  rw [canExecuteStep_iff] at h ⊢
  intro p hp hn
  exact List.mem_cons_of_mem _ (h p hp hn)

theorem depsInv_step (wf : Workflow) (env : Env) (st : ExecState) (g : Goroutine)
    (rest : List Goroutine) (st' : ExecState) (hperm : st.pool.Perm (g :: rest))
    (ht : Trans wf env st rest g st') (hwi : WriteInv st) (h : DepsInv wf st) :
    DepsInv wf st' := by
  obtain ⟨h1, h2, h3⟩ := h
  have hrest : ∀ x, x ∈ rest → x ∈ st.pool :=
    fun x hx => hperm.mem_iff.mpr (List.mem_cons_of_mem _ hx)
  have hg : g ∈ st.pool := hperm.mem_iff.mpr (List.mem_cons_self _ _)
  -- the activations of the acting goroutine that stay on its stack
  have hkeep : ∀ root f stack, g = Goroutine.exec root (f :: stack) → ∀ t via,
      Frame.call t via ∈ stack → via ≠ Admission.onError →
      canExecuteStep t st.completed wf = true := by
    intro root f stack hgeq t via hm hv
    rw [hgeq] at hg
    exact h2 root (f :: stack) hg t via (List.mem_cons_of_mem _ hm) hv
  have htop : ∀ root t via stack, g = Goroutine.exec root (Frame.call t via :: stack) →
      via ≠ Admission.onError → canExecuteStep t st.completed wf = true := by
    intro root t via stack hgeq hv
    rw [hgeq] at hg
    exact h2 root _ hg t via (List.mem_cons_self _ _) hv
  cases ht with
  | abort g hw hr =>
    refine ⟨h1, ?_, h3⟩
    intro root stack hm
    rcases List.mem_append.mp hm with hm | hm
    · exact h2 root stack (hrest _ hm)
    · simp only [List.mem_singleton] at hm
      exact h2 root stack (hm ▸ hg)
  | callBlocked root step via stack hw =>
    refine ⟨h1, ?_, h3⟩
    intro root' stack' hm
    rcases List.mem_append.mp hm with hm | hm
    · exact h2 root' stack' (hrest _ hm)
    · simp only [List.mem_singleton, Goroutine.exec.injEq] at hm
      obtain ⟨rfl, rfl⟩ := hm
      exact h2 _ _ hg
  | writeOk root step stack =>
    have hkey : step.ID ∈ mapKeys st.stepResults :=
      hwi.1 _ hg step.ID (by simp [Goroutine.writes, Frame.writes])
    refine ⟨?_, ?_, h3⟩
    · intro id hid
      rcases List.mem_cons.mp hid with hid | hid
      · rw [hid]; exact hkey
      · exact h1 id hid
    · intro root' stack' hm t via' hf hv
      apply canExecuteStep_mono
      rcases List.mem_append.mp hm with hm | hm
      · exact h2 root' stack' (hrest _ hm) t via' hf hv
      · simp only [List.mem_singleton, Goroutine.exec.injEq] at hm
        obtain ⟨rfl, rfl⟩ := hm
        rcases List.mem_cons.mp hf with hf | hf
        · cases hf
        · exact hkeep root' _ stack rfl t via' hf hv
  | writeFailed root step stack =>
    have hkey : step.ID ∈ mapKeys st.stepResults :=
      hwi.1 _ hg step.ID (by simp [Goroutine.writes, Frame.writes])
    refine ⟨?_, ?_, h3⟩
    · intro id hid
      rcases List.mem_cons.mp hid with hid | hid
      · rw [hid]; exact hkey
      · exact h1 id hid
    · intro root' stack' hm t via' hf hv
      apply canExecuteStep_mono
      rcases List.mem_append.mp hm with hm | hm
      · exact h2 root' stack' (hrest _ hm) t via' hf hv
      · simp only [List.mem_singleton, Goroutine.exec.injEq] at hm
        obtain ⟨rfl, rfl⟩ := hm
        rcases List.mem_cons.mp hf with hf | hf
        · cases hf
        · exact hkeep root' _ stack rfl t via' hf hv
  | entryDone step h =>
    exact ⟨h1, fun root stack hm => h2 root stack (hrest _ hm), h3⟩
  | entryGo step h =>
    refine ⟨h1, ?_, h3⟩
    intro root stack hm
    rcases List.mem_append.mp hm with hm | hm
    · exact h2 root stack (hrest _ hm)
    · simp at hm
  | checkedGo step h =>
    refine ⟨h1, ?_, h3⟩
    intro root stack hm
    rcases List.mem_append.mp hm with hm | hm
    · exact h2 root stack (hrest _ hm)
    · simp only [List.mem_singleton, Goroutine.exec.injEq] at hm
      obtain ⟨rfl, rfl⟩ := hm
      intro t via hf _
      simp only [List.mem_singleton, Frame.call.injEq] at hf
      obtain ⟨rfl, _⟩ := hf
      exact h
  | checkedWait step h =>
    refine ⟨h1, ?_, h3⟩
    intro root stack hm
    rcases List.mem_append.mp hm with hm | hm
    · exact h2 root stack (hrest _ hm)
    · simp at hm
  | spawn root =>
    refine ⟨h1, ?_, h3⟩
    intro root' stack hm
    rcases List.mem_append.mp hm with hm | hm
    · exact h2 root' stack (hrest _ hm)
    · simp at hm
  | callCtx root step via stack ce h =>
    refine ⟨h1, ?_, h3⟩
    intro root' stack' hm
    rcases List.mem_append.mp hm with hm | hm
    · exact h2 root' stack' (hrest _ hm)
    · simp at hm
  | callPanic root step via stack hc hr =>
    refine ⟨h1, ?_, h3⟩
    intro root' stack' hm
    rcases List.mem_append.mp hm with hm | hm
    · exact h2 root' stack' (hrest _ hm)
    · simp only [List.mem_singleton, Goroutine.exec.injEq] at hm
      obtain ⟨rfl, rfl⟩ := hm
      exact h2 _ _ hg
  | callRequired root step via stack a e hc hr he hq =>
    refine ⟨h1, ?_, ?_⟩
    · intro root' stack' hm
      rcases List.mem_append.mp hm with hm | hm
      · exact h2 root' stack' (hrest _ hm)
      · simp at hm
    · intro ev hev hv p hp hn
      rcases List.mem_append.mp hev with hev | hev
      · exact h3 ev hev hv p hp hn
      · simp only [List.mem_singleton] at hev
        subst hev
        exact h1 _ ((canExecuteStep_iff _ _ _).mp (htop root step via stack rfl hv) p hp hn)
  | callFailed root step via stack a e hc hr he hq hw =>
    refine ⟨?_, ?_, ?_⟩
    · intro id hid
      rw [mapKeys_mapSet_mem]
      exact Or.inr (h1 id hid)
    · intro root' stack' hm t via' hf hv
      rcases List.mem_append.mp hm with hm | hm
      · exact h2 root' stack' (hrest _ hm) t via' hf hv
      · simp only [List.mem_singleton, Goroutine.exec.injEq] at hm
        obtain ⟨rfl, rfl⟩ := hm
        rcases List.mem_cons.mp hf with hf | hf
        · cases hf
        · exact hkeep root' _ stack rfl t via' hf hv
    · intro ev hev hv p hp hn
      rcases List.mem_append.mp hev with hev | hev
      · exact h3 ev hev hv p hp hn
      · simp only [List.mem_singleton] at hev
        subst hev
        exact h1 _ ((canExecuteStep_iff _ _ _).mp (htop root step via stack rfl hv) p hp hn)
  | callOk root step via stack a hc hr he hw =>
    refine ⟨?_, ?_, ?_⟩
    · intro id hid
      rw [mapKeys_mapSet_mem]
      exact Or.inr (h1 id hid)
    · intro root' stack' hm t via' hf hv
      rcases List.mem_append.mp hm with hm | hm
      · exact h2 root' stack' (hrest _ hm) t via' hf hv
      · simp only [List.mem_singleton, Goroutine.exec.injEq] at hm
        obtain ⟨rfl, rfl⟩ := hm
        rcases List.mem_cons.mp hf with hf | hf
        · cases hf
        · exact hkeep root' _ stack rfl t via' hf hv
    · intro ev hev hv p hp hn
      rcases List.mem_append.mp hev with hev | hev
      · exact h3 ev hev hv p hp hn
      · simp only [List.mem_singleton] at hev
        subst hev
        exact h1 _ ((canExecuteStep_iff _ _ _).mp (htop root step via stack rfl hv) p hp hn)
  | nextDone root step stack =>
    refine ⟨h1, ?_, h3⟩
    intro root' stack' hm t via' hf hv
    rcases List.mem_append.mp hm with hm | hm
    · exact h2 root' stack' (hrest _ hm) t via' hf hv
    · simp only [List.mem_singleton, Goroutine.exec.injEq] at hm
      obtain ⟨rfl, rfl⟩ := hm
      exact hkeep root' _ stack' rfl t via' hf hv
  | nextCall root step id ids stack nextStep hf hc =>
    refine ⟨h1, ?_, h3⟩
    intro root' stack' hm t via' hfr hv
    rcases List.mem_append.mp hm with hm | hm
    · exact h2 root' stack' (hrest _ hm) t via' hfr hv
    · simp only [List.mem_singleton, Goroutine.exec.injEq] at hm
      obtain ⟨rfl, rfl⟩ := hm
      rcases List.mem_cons.mp hfr with hfr | hfr
      · simp only [Frame.call.injEq] at hfr
        obtain ⟨rfl, _⟩ := hfr
        exact hc
      · rcases List.mem_cons.mp hfr with hfr | hfr
        · cases hfr
        · exact hkeep root' _ stack rfl t via' hfr hv
  | nextSkip root step id ids stack h =>
    refine ⟨h1, ?_, h3⟩
    intro root' stack' hm t via' hfr hv
    rcases List.mem_append.mp hm with hm | hm
    · exact h2 root' stack' (hrest _ hm) t via' hfr hv
    · simp only [List.mem_singleton, Goroutine.exec.injEq] at hm
      obtain ⟨rfl, rfl⟩ := hm
      rcases List.mem_cons.mp hfr with hfr | hfr
      · cases hfr
      · exact hkeep root' _ stack rfl t via' hfr hv
  | errDone root step stack =>
    refine ⟨h1, ?_, h3⟩
    intro root' stack' hm t via' hf hv
    rcases List.mem_append.mp hm with hm | hm
    · exact h2 root' stack' (hrest _ hm) t via' hf hv
    · simp only [List.mem_singleton, Goroutine.exec.injEq] at hm
      obtain ⟨rfl, rfl⟩ := hm
      exact hkeep root' _ stack' rfl t via' hf hv
  | errCall root step id ids stack errorStep hf =>
    refine ⟨h1, ?_, h3⟩
    intro root' stack' hm t via' hfr hv
    rcases List.mem_append.mp hm with hm | hm
    · exact h2 root' stack' (hrest _ hm) t via' hfr hv
    · simp only [List.mem_singleton, Goroutine.exec.injEq] at hm
      obtain ⟨rfl, rfl⟩ := hm
      rcases List.mem_cons.mp hfr with hfr | hfr
      · simp only [Frame.call.injEq] at hfr
        exact absurd hfr.2 hv
      · rcases List.mem_cons.mp hfr with hfr | hfr
        · cases hfr
        · exact hkeep root' _ stack rfl t via' hfr hv
  | errSkip root step id ids stack h =>
    refine ⟨h1, ?_, h3⟩
    intro root' stack' hm t via' hfr hv
    rcases List.mem_append.mp hm with hm | hm
    · exact h2 root' stack' (hrest _ hm) t via' hfr hv
    · simp only [List.mem_singleton, Goroutine.exec.injEq] at hm
      obtain ⟨rfl, rfl⟩ := hm
      rcases List.mem_cons.mp hfr with hfr | hfr
      · cases hfr
      · exact hkeep root' _ stack rfl t via' hfr hv
  | sendOk root err h =>
    exact ⟨h1, fun root' stack hm => h2 root' stack (hrest _ hm), h3⟩
  | sendBlocked root err h =>
    refine ⟨h1, ?_, h3⟩
    intro root' stack hm
    rcases List.mem_append.mp hm with hm | hm
    · exact h2 root' stack (hrest _ hm)
    · simp at hm

theorem depsInv_init (wf : Workflow) : DepsInv wf (initState wf) := by
  refine ⟨?_, ?_, ?_⟩
  · intro id hid
    simp [initState] at hid
  · intro root stack hm
    simp [initState] at hm
  · intro e he
    simp [initState] at he

theorem depsInv_execution (wf : Workflow) (env : Env) (sched : List Nat) :
    DepsInv wf (execution wf env sched) :=
  (runSched_invariant wf env (fun st => WriteInv st ∧ DepsInv wf st)
    (fun st g rest st' _ hperm ht h =>
      ⟨writeInv_step wf env st g rest st' hperm ht h.1,
        depsInv_step wf env st g rest st' hperm ht h.1 h.2⟩)
    sched (initState wf) ⟨writeInv_init wf, depsInv_init wf⟩).2

/-! ## Errors reach `errChan` exactly when a required step fails -/

theorem sends_perm (pool rest : List Goroutine) (g : Goroutine) (h : pool.Perm (g :: rest)) :
    sends pool ↔ (g.isSend = true ∨ sends rest) := by
  unfold sends
  constructor
  · rintro ⟨x, hx, hs⟩
    rcases List.mem_cons.mp (h.mem_iff.mp hx) with rfl | hx
    · exact Or.inl hs
    · exact Or.inr ⟨x, hx, hs⟩
  · rintro (hs | ⟨x, hx, hs⟩)
    · exact ⟨g, h.mem_iff.mpr (List.mem_cons_self _ _), hs⟩
    · exact ⟨x, h.mem_iff.mpr (List.mem_cons_of_mem _ hx), hs⟩

theorem sends_append (a b : List Goroutine) : sends (a ++ b) ↔ (sends a ∨ sends b) := by
  unfold sends
  constructor
  · rintro ⟨x, hx, hs⟩
    rcases List.mem_append.mp hx with hx | hx
    · exact Or.inl ⟨x, hx, hs⟩
    · exact Or.inr ⟨x, hx, hs⟩
  · rintro (⟨x, hx, hs⟩ | ⟨x, hx, hs⟩)
    · exact ⟨x, List.mem_append_left _ hx, hs⟩
    · exact ⟨x, List.mem_append_right _ hx, hs⟩

theorem sends_singleton (g : Goroutine) : sends [g] ↔ g.isSend = true := by
  unfold sends
  simp

theorem sends_nil : sends [] ↔ False := by
  unfold sends
  simp

theorem sends_entries (l : List Step) : sends (l.map Goroutine.entry) ↔ False := by
  unfold sends
  simp [Goroutine.isSend]

theorem isSend_entry (s : Step) : (Goroutine.entry s).isSend = false := rfl

theorem isSend_checked (s : Step) : (Goroutine.checked s).isSend = false := rfl

theorem isSend_exec (s : Step) (stack : List Frame) : (Goroutine.exec s stack).isSend = false :=
  rfl

theorem isSend_send (s : Step) (e : String) : (Goroutine.send s e).isSend = true := rfl

theorem requiredFailure_append (trace : List Event) (e : Event) :
    requiredFailure (trace ++ [e]) ↔
      (requiredFailure trace ∨ (e.step.Required = true ∧ e.failed = true)) := by
  unfold requiredFailure
  constructor
  · rintro ⟨x, hx, hr⟩
    rcases List.mem_append.mp hx with hx | hx
    · exact Or.inl ⟨x, hx, hr⟩
    · simp only [List.mem_singleton] at hx
      subst hx
      exact Or.inr hr
  · rintro (⟨x, hx, hr⟩ | hr)
    · exact ⟨x, List.mem_append_left _ hx, hr⟩
    · exact ⟨e, List.mem_append_right _ (List.mem_singleton.mpr rfl), hr⟩

theorem errInv_step (wf : Workflow) (env : Env) (hctx : ∀ n, env.ctxErr n = none)
    (st : ExecState) (g : Goroutine) (rest : List Goroutine) (st' : ExecState)
    (hperm : st.pool.Perm (g :: rest)) (ht : Trans wf env st rest g st') (h : ErrInv st) :
    ErrInv st' := by
  unfold ErrInv at h ⊢
  rw [sends_perm _ _ _ hperm] at h
  cases ht with
  | callCtx root step via stack ce hc => rw [hctx] at hc; cases hc
  | sendOk root err hlen =>
    simp only [isSend_send, true_or, or_true, iff_true] at h
    simp [h]
  | callRequired root step via stack a e hc hr he hq =>
    simp only [requiredFailure_append, sends_append, sends_singleton, isSend_send, hq, and_self,
      or_true]
  | abort g hw hr =>
    simp only [sends_append, sends_singleton] at h ⊢
    rw [h]
    constructor
    · rintro (h1 | h1 | h1)
      · exact Or.inl h1
      · exact Or.inr (Or.inr h1)
      · exact Or.inr (Or.inl h1)
    · rintro (h1 | h1 | h1)
      · exact Or.inl h1
      · exact Or.inr (Or.inr h1)
      · exact Or.inr (Or.inl h1)
  | callFailed root step via stack a e hc hr he hq hw =>
    simp only [requiredFailure_append, sends_append, sends_singleton, isSend_exec, hq,
      Bool.false_eq_true, false_and, or_false, false_or] at h ⊢
    exact h
  | callOk root step via stack a hc hr he hw =>
    simp only [requiredFailure_append, sends_append, sends_singleton, isSend_exec,
      Bool.false_eq_true, and_false, or_false, false_or] at h ⊢
    exact h
  | _ =>
    simp only [sends_append, sends_singleton, sends_entries, isSend_entry,
      isSend_checked, isSend_exec, isSend_send, Bool.false_eq_true, false_or, or_false,
      or_true, true_or] at h ⊢
    exact h

theorem errInv_init (wf : Workflow) : ErrInv (initState wf) := by
  unfold ErrInv requiredFailure initState
  simp [sends_entries]

theorem errInv_execution (wf : Workflow) (env : Env) (hctx : ∀ n, env.ctxErr n = none)
    (sched : List Nat) : ErrInv (execution wf env sched) :=
  runSched_invariant wf env ErrInv
    (fun st g rest st' _ hperm ht h => errInv_step wf env hctx st g rest st' hperm ht h)
    sched (initState wf) (errInv_init wf)


/-! ## The errors in `errChan` are the errors of the failed required steps -/

theorem failedRun_mono (env : Env) (t1 t2 : List Event) (root : Step) (msg : String)
    (hsub : ∀ ev ∈ t1, ev ∈ t2) (h : FailedRun env t1 root msg) : FailedRun env t2 root msg := by
  obtain ⟨ev, hev, h1⟩ := h
  exact ⟨ev, hsub ev hev, h1⟩

theorem errMsgInv_of (env : Env) (st st' : ExecState) (g : Goroutine)
    (rest news : List Goroutine) (hperm : st.pool.Perm (g :: rest)) (h : ErrMsgInv env st)
    (hpool : st'.pool = rest ++ news) (htrace : ∀ ev ∈ st.trace, ev ∈ st'.trace)
    (hchan : ∀ msg ∈ st'.errChan, msg ∈ st.errChan ∨ ∃ root, g = Goroutine.send root msg)
    (hnews : ∀ root msg, Goroutine.send root msg ∈ news →
      g = Goroutine.send root msg ∨ FailedRun env st'.trace root msg) :
    ErrMsgInv env st' := by
  obtain ⟨h1, h2⟩ := h
  have hrest : ∀ x, x ∈ rest → x ∈ st.pool :=
    fun x hx => hperm.mem_iff.mpr (List.mem_cons_of_mem _ hx)
  have hg : g ∈ st.pool := hperm.mem_iff.mpr (List.mem_cons_self _ _)
  refine ⟨?_, ?_⟩
  · intro msg hmsg
    rcases hchan msg hmsg with h3 | ⟨root, h3⟩
    · obtain ⟨root, h4⟩ := h1 msg h3
      exact ⟨root, failedRun_mono env _ _ root msg htrace h4⟩
    · exact ⟨root, failedRun_mono env _ _ root msg htrace (h2 root msg (h3 ▸ hg))⟩
  · intro root msg hm
    rw [hpool] at hm
    rcases List.mem_append.mp hm with hm | hm
    · exact failedRun_mono env _ _ root msg htrace (h2 root msg (hrest _ hm))
    · rcases hnews root msg hm with h3 | h3
      · exact failedRun_mono env _ _ root msg htrace (h2 root msg (h3 ▸ hg))
      · exact h3

theorem errMsgInv_step (wf : Workflow) (env : Env) (hctx : ∀ n, env.ctxErr n = none)
    (st : ExecState) (g : Goroutine) (rest : List Goroutine) (st' : ExecState)
    (hperm : st.pool.Perm (g :: rest)) (ht : Trans wf env st rest g st')
    (h : ErrMsgInv env st) : ErrMsgInv env st' := by
  cases ht with
  | callCtx root step via stack ce hc => rw [hctx] at hc; cases hc
  | abort g hw hr =>
    refine errMsgInv_of env st _ g rest [g] hperm h rfl (fun _ hx => hx)
      (fun _ hx => Or.inl hx) ?_
    intro root msg hm
    simp only [List.mem_singleton] at hm
    exact Or.inl hm.symm
  | entryDone step h1 =>
    exact errMsgInv_of env st _ _ rest [] hperm h (by simp) (fun _ hx => hx)
      (fun _ hx => Or.inl hx) (by simp)
  | sendOk root err hlen =>
    refine errMsgInv_of env st _ _ rest [] hperm h (by simp) (fun _ hx => hx) ?_ (by simp)
    intro msg hmsg
    rcases List.mem_append.mp hmsg with hmsg | hmsg
    · exact Or.inl hmsg
    · simp only [List.mem_singleton] at hmsg
      exact Or.inr ⟨root, by rw [hmsg]⟩
  | sendBlocked root err hlen =>
    refine errMsgInv_of env st _ _ rest _ hperm h rfl (fun _ hx => hx)
      (fun _ hx => Or.inl hx) ?_
    intro root' msg hm
    simp only [List.mem_singleton] at hm
    exact Or.inl hm.symm
  | spawn root =>
    refine errMsgInv_of env st _ _ rest _ hperm h rfl (fun _ hx => hx)
      (fun _ hx => Or.inl hx) ?_
    intro root' msg hm
    simp at hm
  | callRequired root step via stack a e hc hr he hq =>
    refine errMsgInv_of env st _ _ rest _ hperm h rfl
      (fun _ hx => List.mem_append_left _ hx) (fun _ hx => Or.inl hx) ?_
    intro root' msg hm
    simp only [List.mem_singleton, Goroutine.send.injEq] at hm
    obtain ⟨rfl, rfl⟩ := hm
    right
    exact ⟨_, List.mem_append_right _ (List.mem_singleton_self _), hq, rfl,
      st.clock, a, e, hr, he, rfl⟩
  | callFailed root step via stack a e hc hr he hq hw =>
    refine errMsgInv_of env st _ _ rest _ hperm h rfl
      (fun _ hx => List.mem_append_left _ hx) (fun _ hx => Or.inl hx) ?_
    intro root' msg hm
    simp at hm
  | callOk root step via stack a hc hr he hw =>
    refine errMsgInv_of env st _ _ rest _ hperm h rfl
      (fun _ hx => List.mem_append_left _ hx) (fun _ hx => Or.inl hx) ?_
    intro root' msg hm
    simp at hm
  | _ =>
    refine errMsgInv_of env st _ _ rest _ hperm h rfl (fun _ hx => hx)
      (fun _ hx => Or.inl hx) ?_
    intro root' msg hm
    simp at hm

theorem errMsgInv_init (wf : Workflow) (env : Env) : ErrMsgInv env (initState wf) := by
  refine ⟨?_, ?_⟩
  · intro msg hmsg
    simp [initState] at hmsg
  · intro root msg hm
    simp [initState] at hm

theorem errMsgInv_execution (wf : Workflow) (env : Env) (hctx : ∀ n, env.ctxErr n = none)
    (sched : List Nat) : ErrMsgInv env (execution wf env sched) :=
  runSched_invariant wf env (ErrMsgInv env)
    (fun st g rest st' _ hperm ht h => errMsgInv_step wf env hctx st g rest st' hperm ht h)
    sched (initState wf) (errMsgInv_init wf env)
/-! ## A run without failures: the invariant -/

/-- A transition that only replaces the acting goroutine keeps the invariant
when the new goroutines are good and handle what the old one handled. -/
theorem runInv_pool (wf : Workflow) (st : ExecState) (g : Goroutine)
    (rest news : List Goroutine) (hperm : st.pool.Perm (g :: rest)) (h : RunInv wf st)
    (hwi : WriteInv { st with pool := rest ++ news })
    (hgood : g.Good wf → ∀ x ∈ news, x.Good wf)
    (hcover : g.Good wf → ∀ s ∈ wf.Steps, g.Handles s.ID → s.ID ∈ st.completed ∨
      (∃ x ∈ news, x.Handles s.ID) ∨ ∃ p ∈ wf.Steps, s.ID ∈ p.Next ∧ p.ID ∉ st.completed) :
    RunInv wf { st with pool := rest ++ news } := by
  obtain ⟨h1, h2, h3, h4, h5, h6, h7⟩ := h
  have hg : g ∈ st.pool := hperm.mem_iff.mpr (List.mem_cons_self _ _)
  have hrest : ∀ x, x ∈ rest → x ∈ st.pool :=
    fun x hx => hperm.mem_iff.mpr (List.mem_cons_of_mem _ hx)
  refine ⟨hwi, h2, ?_, h4, h5, h6, ?_⟩
  · intro x hx
    rcases List.mem_append.mp hx with hx | hx
    · exact h3 x (hrest x hx)
    · exact hgood (h3 g hg) x hx
  · intro s hs
    rcases h7 s hs with hc | ⟨x, hx, hh⟩ | hp
    · exact Or.inl hc
    · rcases List.mem_cons.mp (hperm.mem_iff.mp hx) with rfl | hx
      · rcases hcover (h3 _ hg) s hs hh with hc | ⟨y, hy, hh'⟩ | hp
        · exact Or.inl hc
        · exact Or.inr (Or.inl ⟨y, List.mem_append_right _ hy, hh'⟩)
        · exact Or.inr (Or.inr hp)
      · exact Or.inr (Or.inl ⟨x, List.mem_append_left _ hx, hh⟩)
    · exact Or.inr (Or.inr hp)

theorem runInv_step (wf : Workflow) (env : Env) (hs : Sound wf env)
    (st : ExecState) (g : Goroutine) (rest : List Goroutine) (st' : ExecState)
    (hperm : st.pool.Perm (g :: rest)) (ht : Trans wf env st rest g st') (h : RunInv wf st) :
    st'.panicked = true ∨ RunInv wf st' := by
  have hg : g ∈ st.pool := hperm.mem_iff.mpr (List.mem_cons_self _ _)
  have hgood : g.Good wf := h.2.2.1 g hg
  have hwi := writeInv_step wf env st g rest st' hperm ht h.1
  cases ht with
  | abort g hw hr => exact Or.inl rfl
  | callBlocked root step via stack hw =>
    right
    refine runInv_pool wf st _ rest _ hperm h hwi ?_ ?_
    · intro hgd x hx
      simp only [List.mem_singleton] at hx
      subst hx
      exact hgd
    · intro _ s _ hh
      exact Or.inr (Or.inl ⟨_, List.mem_singleton.mpr rfl, hh⟩)
  | writeFailed root step stack =>
    have := (hgood.2 _ (List.mem_cons_self _ _)).2
    cases this
  | writeOk root step stack =>
    right
    obtain ⟨h1, h2, h3, h4, h5, h6, h7⟩ := h
    have hrest : ∀ x, x ∈ rest → x ∈ st.pool :=
      fun x hx => hperm.mem_iff.mpr (List.mem_cons_of_mem _ hx)
    have hstep : step ∈ wf.Steps := (hgood.2 _ (List.mem_cons_self _ _)).1
    have hkey : step.ID ∈ mapKeys st.stepResults :=
      h1.1 _ hg step.ID (by simp [Goroutine.writes, Frame.writes])
    refine ⟨hwi, h2, ?_, h4, h5, ?_, ?_⟩
    · intro x hx
      rcases List.mem_append.mp hx with hx | hx
      · exact h3 x (hrest x hx)
      · simp only [List.mem_singleton] at hx
        subst hx
        refine ⟨hgood.1, ?_⟩
        intro f hf
        rcases List.mem_cons.mp hf with rfl | hf
        · exact ⟨hstep, fun id hid => hid⟩
        · exact hgood.2 f (List.mem_cons_of_mem _ hf)
    · intro id hid
      rcases List.mem_cons.mp hid with hid | hid
      · rw [hid]; exact hkey
      · exact h6 id hid
    · intro s hsm
      rcases h7 s hsm with hc' | ⟨x, hx, hh⟩ | ⟨p, hp, hn, hpc⟩
      · exact Or.inl (List.mem_cons_of_mem _ hc')
      · rcases List.mem_cons.mp (hperm.mem_iff.mp hx) with rfl | hx
        · rcases hh with hh | ⟨f, hf, hh⟩
          · exact Or.inr (Or.inl ⟨_, List.mem_append_right _ (List.mem_singleton.mpr rfl),
              Or.inl hh⟩)
          · rcases List.mem_cons.mp hf with rfl | hf
            · simp only [Frame.Handles] at hh
              rcases hh with hh | hh
              · exact Or.inl (hh ▸ List.mem_cons_self _ _)
              · exact Or.inr (Or.inl ⟨_,
                  List.mem_append_right _ (List.mem_singleton.mpr rfl),
                  Or.inr ⟨_, List.mem_cons_self _ _, hh⟩⟩)
            · exact Or.inr (Or.inl ⟨_, List.mem_append_right _ (List.mem_singleton.mpr rfl),
                Or.inr ⟨f, List.mem_cons_of_mem _ hf, hh⟩⟩)
        · exact Or.inr (Or.inl ⟨x, List.mem_append_left _ hx, hh⟩)
      · by_cases hpe : p.ID = step.ID
        · have : p = step := step_eq_of_id wf hs.nodup p step hp hstep hpe
          subst this
          exact Or.inr (Or.inl ⟨_, List.mem_append_right _ (List.mem_singleton.mpr rfl),
            Or.inr ⟨_, List.mem_cons_self _ _, hn⟩⟩)
        · refine Or.inr (Or.inr ⟨p, hp, hn, ?_⟩)
          intro hmem
          rcases List.mem_cons.mp hmem with hmem | hmem
          · exact hpe hmem
          · exact hpc hmem
  | entryDone step hc =>
    have := runInv_pool wf st _ rest [] hperm h (by simpa using hwi)
      (fun _ x hx => by simp at hx)
      (fun _ s _ hh => Or.inl (by
        simp only [Goroutine.Handles] at hh
        rw [← hh]; exact hc))
    exact Or.inr (by simpa using this)
  | entryGo step hc =>
    right
    refine runInv_pool wf st _ rest _ hperm h hwi ?_ ?_
    · intro hgd x hx
      simp only [List.mem_singleton] at hx
      subst hx
      exact hgd
    · intro _ s _ hh
      exact Or.inr (Or.inl ⟨_, List.mem_singleton.mpr rfl, hh⟩)
  | checkedGo step hc =>
    right
    refine runInv_pool wf st _ rest _ hperm h hwi ?_ ?_
    · intro hgd x hx
      simp only [List.mem_singleton] at hx
      subst hx
      refine ⟨hgd, ?_⟩
      intro f hf
      simp only [List.mem_singleton] at hf
      subst hf
      exact hgd
    · intro _ s _ hh
      refine Or.inr (Or.inl ⟨_, List.mem_singleton.mpr rfl, Or.inr ⟨_, List.mem_singleton.mpr rfl, ?_⟩⟩)
      exact hh
  | checkedWait step hc =>
    right
    refine runInv_pool wf st _ rest _ hperm h hwi ?_ ?_
    · intro hgd x hx
      simp only [List.mem_singleton] at hx
      subst hx
      exact hgd
    · intro _ s _ hh
      exact Or.inr (Or.inl ⟨_, List.mem_singleton.mpr rfl, hh⟩)
  | spawn root =>
    right
    refine runInv_pool wf st _ rest _ hperm h hwi ?_ ?_
    · intro _ x hx
      simp only [List.mem_map, List.mem_filterMap] at hx
      obtain ⟨u, ⟨id, _, hf⟩, rfl⟩ := hx
      exact (findStep_some wf id u hf).1
    · intro _ s hsm hh
      simp only [Goroutine.Handles, List.not_mem_nil, false_and, exists_false, or_false] at hh
      obtain ⟨u, hu⟩ := findStep_of_mem wf s hsm
      refine Or.inr (Or.inl ⟨Goroutine.entry u, ?_, (findStep_some wf _ u hu).2⟩)
      simp only [List.mem_map, List.mem_filterMap]
      exact ⟨u, ⟨s.ID, hh, hu⟩, rfl⟩
  | callCtx root step via stack ce hc => rw [hs.ctx] at hc; cases hc
  | callPanic root step via stack hc hr =>
    obtain ⟨a, ha, _⟩ := hs.ok st.clock step (hgood.2 _ (List.mem_cons_self _ _))
    rw [ha] at hr; cases hr
  | callRequired root step via stack a e hc hr he hq =>
    obtain ⟨a', ha, hn⟩ := hs.ok st.clock step (hgood.2 _ (List.mem_cons_self _ _))
    rw [ha] at hr; cases hr
    rw [hn] at he; cases he
  | callFailed root step via stack a e hc hr he hq hw =>
    obtain ⟨a', ha, hn⟩ := hs.ok st.clock step (hgood.2 _ (List.mem_cons_self _ _))
    rw [ha] at hr; cases hr
    rw [hn] at he; cases he
  | callOk root step via stack a hc hr he hw =>
    right
    obtain ⟨h1, h2, h3, h4, h5, h6, h7⟩ := h
    have hrest : ∀ x, x ∈ rest → x ∈ st.pool :=
      fun x hx => hperm.mem_iff.mpr (List.mem_cons_of_mem _ hx)
    have hstep : step ∈ wf.Steps := hgood.2 _ (List.mem_cons_self _ _)
    refine ⟨hwi, h2, ?_, ?_, mapKeys_mapSet_nodup _ _ _ h5, ?_, ?_⟩
    · intro x hx
      rcases List.mem_append.mp hx with hx | hx
      · exact h3 x (hrest x hx)
      · simp only [List.mem_singleton] at hx
        subst hx
        refine ⟨hgood.1, ?_⟩
        intro f hf
        rcases List.mem_cons.mp hf with rfl | hf
        · exact ⟨hstep, rfl⟩
        · exact hgood.2 f (List.mem_cons_of_mem _ hf)
    · intro k r hkr
      rcases mem_mapSet _ _ _ _ hkr with hkr | hkr
      · simp only [Prod.mk.injEq] at hkr
        obtain ⟨rfl, rfl⟩ := hkr
        exact ⟨rfl, step, hstep, rfl⟩
      · exact h4 k r hkr
    · intro id hid
      rw [mapKeys_mapSet_mem]
      exact Or.inr (h6 id hid)
    · intro s hsm
      rcases h7 s hsm with hc' | ⟨x, hx, hh⟩ | ⟨p, hp, hn, hpc⟩
      · exact Or.inl hc'
      · rcases List.mem_cons.mp (hperm.mem_iff.mp hx) with rfl | hx
        · rcases hh with hh | ⟨f, hf, hh⟩
          · exact Or.inr (Or.inl ⟨_, List.mem_append_right _ (List.mem_singleton.mpr rfl),
              Or.inl hh⟩)
          · rcases List.mem_cons.mp hf with rfl | hf
            · simp only [Frame.Handles] at hh
              exact Or.inr (Or.inl ⟨_,
                List.mem_append_right _ (List.mem_singleton.mpr rfl),
                Or.inr ⟨_, List.mem_cons_self _ _, Or.inl hh⟩⟩)
            · exact Or.inr (Or.inl ⟨_, List.mem_append_right _ (List.mem_singleton.mpr rfl),
                Or.inr ⟨f, List.mem_cons_of_mem _ hf, hh⟩⟩)
        · exact Or.inr (Or.inl ⟨x, List.mem_append_left _ hx, hh⟩)
      · exact Or.inr (Or.inr ⟨p, hp, hn, hpc⟩)
  | nextDone root step stack =>
    right
    refine runInv_pool wf st _ rest _ hperm h hwi ?_ ?_
    · intro hgd x hx
      simp only [List.mem_singleton] at hx
      subst hx
      exact ⟨hgd.1, fun f hf => hgd.2 f (List.mem_cons_of_mem _ hf)⟩
    · intro _ s _ hh
      refine Or.inr (Or.inl ⟨_, List.mem_singleton.mpr rfl, ?_⟩)
      rcases hh with hh | ⟨f, hf, hh⟩
      · exact Or.inl hh
      · rcases List.mem_cons.mp hf with rfl | hf
        · simp [Frame.Handles] at hh
        · exact Or.inr ⟨f, hf, hh⟩
  | nextCall root step id ids stack nextStep hf hc =>
    right
    refine runInv_pool wf st _ rest _ hperm h hwi ?_ ?_
    · intro hgd x hx
      simp only [List.mem_singleton] at hx
      subst hx
      refine ⟨hgd.1, ?_⟩
      intro f hfm
      rcases List.mem_cons.mp hfm with rfl | hfm
      · exact (findStep_some wf id nextStep hf).1
      · rcases List.mem_cons.mp hfm with rfl | hfm
        · have := hgd.2 _ (List.mem_cons_self _ _)
          exact ⟨this.1, fun i hi => this.2 i (List.mem_cons_of_mem _ hi)⟩
        · exact hgd.2 f (List.mem_cons_of_mem _ hfm)
    · intro _ s _ hh
      refine Or.inr (Or.inl ⟨_, List.mem_singleton.mpr rfl, ?_⟩)
      rcases hh with hh | ⟨f, hfm, hh⟩
      · exact Or.inl hh
      · rcases List.mem_cons.mp hfm with rfl | hfm
        · simp only [Frame.Handles, List.mem_cons] at hh
          rcases hh with hh | hh
          · refine Or.inr ⟨_, List.mem_cons_self _ _, ?_⟩
            simp only [Frame.Handles]
            rw [hh]
            exact (findStep_some wf id nextStep hf).2
          · exact Or.inr ⟨Frame.next step ids, List.mem_cons_of_mem _ (List.mem_cons_self _ _), hh⟩
        · exact Or.inr ⟨f, List.mem_cons_of_mem _ (List.mem_cons_of_mem _ hfm), hh⟩
  | nextSkip root step id ids stack hsk =>
    right
    refine runInv_pool wf st _ rest _ hperm h hwi ?_ ?_
    · intro hgd x hx
      simp only [List.mem_singleton] at hx
      subst hx
      refine ⟨hgd.1, ?_⟩
      intro f hfm
      rcases List.mem_cons.mp hfm with rfl | hfm
      · have := hgd.2 _ (List.mem_cons_self _ _)
        exact ⟨this.1, fun i hi => this.2 i (List.mem_cons_of_mem _ hi)⟩
      · exact hgd.2 f (List.mem_cons_of_mem _ hfm)
    · intro _ s hsm hh
      rcases hh with hh | ⟨f, hfm, hh⟩
      · exact Or.inr (Or.inl ⟨_, List.mem_singleton.mpr rfl, Or.inl hh⟩)
      · rcases List.mem_cons.mp hfm with rfl | hfm
        · simp only [Frame.Handles, List.mem_cons] at hh
          rcases hh with hh | hh
          · obtain ⟨u, hu⟩ := findStep_of_mem wf s hsm
            rw [hh] at hu
            rcases hsk with hnone | ⟨u', hu', hcan⟩
            · rw [hnone] at hu; cases hu
            · obtain ⟨p, hp, hn, hpc⟩ := (canExecuteStep_false_iff _ _ _).mp hcan
              rw [(findStep_some wf id u' hu').2, ← hh] at hn
              exact Or.inr (Or.inr ⟨p, hp, hn, hpc⟩)
          · exact Or.inr (Or.inl ⟨_, List.mem_singleton.mpr rfl,
              Or.inr ⟨Frame.next step ids, List.mem_cons_self _ _, hh⟩⟩)
        · exact Or.inr (Or.inl ⟨_, List.mem_singleton.mpr rfl,
            Or.inr ⟨f, List.mem_cons_of_mem _ hfm, hh⟩⟩)
  | errDone root step stack => exact (hgood.2 _ (List.mem_cons_self _ _)).elim
  | errCall root step id ids stack errorStep hf => exact (hgood.2 _ (List.mem_cons_self _ _)).elim
  | errSkip root step id ids stack hf => exact (hgood.2 _ (List.mem_cons_self _ _)).elim
  | sendOk root err hlen => exact hgood.elim
  | sendBlocked root err hlen => exact hgood.elim

/-! ## A run without failures: the end state and termination -/

theorem runInv_init (wf : Workflow) : RunInv wf (initState wf) := by
  refine ⟨writeInv_init wf, rfl, ?_, ?_, ?_, ?_, ?_⟩
  · intro g hg
    simp only [initState, findInitialSteps, List.mem_map, List.mem_filter] at hg
    obtain ⟨s, ⟨hs, _⟩, rfl⟩ := hg
    exact hs
  · intro k r hkr
    simp [initState] at hkr
  · simp [initState, mapKeys]
  · intro id hid
    simp [initState] at hid
  · intro s hs
    by_cases hn : s.ID ∈ wf.Steps.flatMap (fun t => t.Next)
    · obtain ⟨p, hp, hpn⟩ := List.mem_flatMap.mp hn
      refine Or.inr (Or.inr ⟨p, hp, hpn, ?_⟩)
      simp [initState]
    · refine Or.inr (Or.inl ⟨Goroutine.entry s, ?_, rfl⟩)
      simp only [initState, findInitialSteps, List.mem_map, List.mem_filter]
      refine ⟨s, ⟨hs, ?_⟩, rfl⟩
      simpa using hn

theorem runInv_execution (wf : Workflow) (env : Env) (hs : Sound wf env) (sched : List Nat) :
    (execution wf env sched).panicked = true ∨ RunInv wf (execution wf env sched) :=
  runSched_invariant wf env (fun st => st.panicked = true ∨ RunInv wf st)
    (fun st g rest st' hp hperm ht h => by
      rcases h with h | h
      · rw [hp] at h; cases h
      · exact runInv_step wf env hs st g rest st' hperm ht h)
    sched (initState wf) (Or.inr (runInv_init wf))

/-- Below every step that is not completed there is one whose predecessors are. -/
theorem exists_ready (wf : Workflow) (rank : String → Nat)
    (hrank : ∀ s ∈ wf.Steps, ∀ id ∈ s.Next, rank s.ID < rank id) (completed : List String) :
    ∀ n, ∀ s ∈ wf.Steps, rank s.ID = n → s.ID ∉ completed →
      ∃ m ∈ wf.Steps, m.ID ∉ completed ∧ ∀ p ∈ wf.Steps, m.ID ∈ p.Next → p.ID ∈ completed := by
  intro n
  induction n using Nat.strong_induction_on with
  | _ n ih =>
    intro s hs hn hc
    by_cases hall : ∀ p ∈ wf.Steps, s.ID ∈ p.Next → p.ID ∈ completed
    · exact ⟨s, hs, hc, hall⟩
    · push_neg at hall
      obtain ⟨p, hp, hpn, hpc⟩ := hall
      exact ih (rank p.ID) (hn ▸ hrank p hp s.ID hpn) p hp rfl hpc

/-- The end state: once no goroutine is left, every step is completed. -/
theorem runInv_done (wf : Workflow) (rank : String → Nat)
    (hrank : ∀ s ∈ wf.Steps, ∀ id ∈ s.Next, rank s.ID < rank id) (st : ExecState)
    (h : RunInv wf st) (hpool : st.pool = []) : ∀ s ∈ wf.Steps, s.ID ∈ st.completed := by
  intro s hs
  by_contra hc
  obtain ⟨m, hm, hmc, hmp⟩ := exists_ready wf rank hrank st.completed _ s hs rfl hc
  rcases h.2.2.2.2.2.2 m hm with h1 | ⟨g, hg, _⟩ | ⟨p, hp, hpn, hpc⟩
  · exact hmc h1
  · rw [hpool] at hg
    cases hg
  · exact hpc (hmp p hp hpn)

/-- While goroutines are left and no assignment to `completed` is under way,
one of them is not a futile poll. -/
theorem exists_progress (wf : Workflow) (hn : (wf.Steps.map (fun s => s.ID)).Nodup)
    (rank : String → Nat) (hrank : ∀ s ∈ wf.Steps, ∀ id ∈ s.Next, rank s.ID < rank id)
    (st : ExecState) (h : RunInv wf st) (hpool : st.pool ≠ []) :
    ∃ g ∈ st.pool, ¬ g.Futile wf st := by
  by_contra hall
  push_neg at hall
  obtain ⟨g₀, hg₀⟩ := List.exists_mem_of_ne_nil _ hpool
  obtain ⟨s₀, _, hcan⟩ := hall g₀ hg₀
  obtain ⟨p, hp, _, hpc⟩ := (canExecuteStep_false_iff _ _ _).mp hcan
  obtain ⟨m, hm, hmc, hmp⟩ := exists_ready wf rank hrank st.completed _ p hp rfl hpc
  rcases h.2.2.2.2.2.2 m hm with h1 | ⟨g, hg, hh⟩ | ⟨q, hq, hqn, hqc⟩
  · exact hmc h1
  · obtain ⟨s, rfl, hcs⟩ := hall g hg
    have hsm : s ∈ wf.Steps := h.2.2.1 _ hg
    have hsid : s.ID = m.ID := hh
    have : s = m := step_eq_of_id wf hn s m hsm hm hsid
    subst this
    rw [(canExecuteStep_iff _ _ _).mpr hmp] at hcs
    cases hcs
  · exact hqc (hmp q hq hqn)

/-- While goroutines are left, the next action of one of them makes progress. -/
theorem exists_moves (wf : Workflow) (hn : (wf.Steps.map (fun s => s.ID)).Nodup)
    (rank : String → Nat) (hrank : ∀ s ∈ wf.Steps, ∀ id ∈ s.Next, rank s.ID < rank id)
    (st : ExecState) (h : RunInv wf st) (hpool : st.pool ≠ []) :
    ∃ g ∈ st.pool, g.Moves wf st := by
  cases hw : st.writing with
  | true =>
    obtain ⟨g, hg, hgw⟩ := h.1.2 hw
    exact ⟨g, hg, Or.inl hgw⟩
  | false =>
    obtain ⟨g, hg, hfut⟩ := exists_progress wf hn rank hrank st h hpool
    exact ⟨g, hg, Or.inr ⟨hw, hfut⟩⟩

theorem reads_of_isWriter (wf : Workflow) (g : Goroutine) (h : g.isWriter = true) :
    g.reads wf = false := by
  cases g with
  | exec root stack =>
    cases stack with
    | nil => rfl
    | cons f stack =>
      cases f with
      | write t failed => rfl
      | call t via => simp [Goroutine.isWriter] at h
      | next t ids => simp [Goroutine.isWriter] at h
      | onError t ids => simp [Goroutine.isWriter] at h
  | entry s => simp [Goroutine.isWriter] at h
  | checked s => simp [Goroutine.isWriter] at h
  | send s e => simp [Goroutine.isWriter] at h

theorem length_le_maxNext (wf : Workflow) (s : Step) (hs : s ∈ wf.Steps) :
    s.Next.length ≤ maxNext wf := by
  unfold maxNext
  exact List.single_le_sum (fun _ _ => Nat.zero_le _) _ (List.mem_map_of_mem _ hs)

theorem stepBound_succ_le (D h : Nat) : stepBound D h ≤ stepBound D (h + 1) := by
  induction h with
  | zero => simp [stepBound]
  | succ h ih =>
    have := Nat.mul_le_mul_left D ih
    simp only [stepBound] at this ⊢
    omega

theorem stepBound_mono (D : Nat) {a b : Nat} (h : a ≤ b) : stepBound D a ≤ stepBound D b :=
  monotone_nat_of_le_succ (stepBound_succ_le D) h

theorem spawnBound_succ_le (D h : Nat) : spawnBound D h ≤ spawnBound D (h + 1) := by
  induction h with
  | zero => simp [spawnBound]
  | succ h ih =>
    have h1 := stepBound_succ_le D h
    have := Nat.mul_le_mul_left D (Nat.add_le_add h1 ih)
    simp only [spawnBound] at this ⊢
    omega

theorem spawnBound_mono (D : Nat) {a b : Nat} (h : a ≤ b) : spawnBound D a ≤ spawnBound D b :=
  monotone_nat_of_le_succ (spawnBound_succ_le D) h

theorem stepBound_gt (D n a b : Nat) (hn : n ≤ D) (hab : a < b) :
    4 + n * stepBound D a ≤ stepBound D b := by
  have h1 : stepBound D (a + 1) ≤ stepBound D b := stepBound_mono D hab
  have h2 := Nat.mul_le_mul_right (stepBound D a) hn
  simp only [stepBound] at h1
  omega

theorem spawnBound_gt (D n a b : Nat) (hn : n ≤ D) (hab : a < b) :
    6 + n * (stepBound D a + spawnBound D a) ≤ spawnBound D b := by
  have h1 : spawnBound D (a + 1) ≤ spawnBound D b := spawnBound_mono D hab
  have h2 := Nat.mul_le_mul_right (stepBound D a + spawnBound D a) hn
  simp only [spawnBound] at h1
  omega

theorem entry_cost_le (wf : Workflow) (hgt : String → Nat) (u : Step) (hu : u ∈ wf.Steps)
    (b : Nat) (hb : hgt u.ID < b) :
    (Goroutine.entry u).cost (maxNext wf) hgt ≤ spawnBound (maxNext wf) b := by
  have := spawnBound_gt (maxNext wf) u.Next.length (hgt u.ID) b (length_le_maxNext wf u hu) hb
  simp only [Goroutine.cost, callCost, spawnCost]
  rw [Nat.mul_add] at this
  omega

theorem spawned_cost_le (wf : Workflow) (hgt : String → Nat) (b : Nat) (ids : List String)
    (h : ∀ id ∈ ids, hgt id < b) :
    poolCost (maxNext wf) hgt ((ids.filterMap (findStep wf)).map Goroutine.entry) ≤
      ids.length * spawnBound (maxNext wf) b := by
  induction ids with
  | nil => simp [poolCost]
  | cons id ids ih =>
    have ih' := ih (fun i hi => h i (List.mem_cons_of_mem _ hi))
    have hid := h id (List.mem_cons_self _ _)
    rw [List.length_cons, Nat.succ_mul]
    cases hf : findStep wf id with
    | none =>
      rw [List.filterMap_cons_none hf]
      omega
    | some u =>
      rw [List.filterMap_cons_some hf]
      have hu := findStep_some wf id u hf
      have := entry_cost_le wf hgt u hu.1 b (hu.2 ▸ hid)
      simp only [poolCost, List.map_cons, List.sum_cons] at ih' ⊢
      omega

theorem poolCost_perm (D : Nat) (hgt : String → Nat) (pool rest : List Goroutine)
    (g : Goroutine) (h : pool.Perm (g :: rest)) :
    poolCost D hgt pool = g.cost D hgt + poolCost D hgt rest := by
  unfold poolCost
  rw [(h.map _).sum_eq]
  simp

theorem poolCost_append (D : Nat) (hgt : String → Nat) (a b : List Goroutine) :
    poolCost D hgt (a ++ b) = poolCost D hgt a + poolCost D hgt b := by
  unfold poolCost
  simp

/-- An action that makes progress decreases the measure and does not end the program. -/
theorem cost_step (wf : Workflow) (env : Env) (hs : Sound wf env) (hgt : String → Nat)
    (hh : ∀ s ∈ wf.Steps, ∀ id ∈ s.Next, hgt id < hgt s.ID)
    (st : ExecState) (g : Goroutine) (rest : List Goroutine) (st' : ExecState)
    (hperm : st.pool.Perm (g :: rest)) (ht : Trans wf env st rest g st') (h : RunInv wf st)
    (hmoves : g.Moves wf st) :
    st'.panicked = st.panicked ∧
      poolCost (maxNext wf) hgt st'.pool < poolCost (maxNext wf) hgt st.pool := by
  have hg : g ∈ st.pool := hperm.mem_iff.mpr (List.mem_cons_self _ _)
  have hgood : g.Good wf := h.2.2.1 g hg
  have hidle : g.isWriter = false → st.writing = false ∧ ¬ g.Futile wf st := by
    intro hnw
    rcases hmoves with hm | hm
    · rw [hnw] at hm; cases hm
    · exact hm
  rw [poolCost_perm _ _ _ _ _ hperm]
  cases ht with
  | abort g hw hr =>
    rcases hmoves with hm | hm
    · rw [reads_of_isWriter wf g hm] at hr; cases hr
    · rw [hm.1] at hw; cases hw
  | callBlocked root step via stack hw =>
    have := (hidle rfl).1
    rw [this] at hw; cases hw
  | writeFailed root step stack =>
    have := (hgood.2 _ (List.mem_cons_self _ _)).2
    cases this
  | writeOk root step stack =>
    refine ⟨rfl, ?_⟩
    simp only [poolCost_append]
    simp only [poolCost, Goroutine.cost, Frame.cost, List.map_cons,
      List.map_nil, List.sum_cons, List.sum_nil]
    omega
  | entryDone step hc =>
    refine ⟨rfl, ?_⟩
    simp only [Goroutine.cost]
    omega
  | entryGo step hc =>
    refine ⟨rfl, ?_⟩
    simp only [poolCost_append]
    simp only [poolCost, Goroutine.cost, List.map_cons, List.map_nil,
      List.sum_cons, List.sum_nil]
    omega
  | checkedGo step hc =>
    refine ⟨rfl, ?_⟩
    simp only [poolCost_append]
    simp only [poolCost, Goroutine.cost, Frame.cost, List.map_cons,
      List.map_nil, List.sum_cons, List.sum_nil]
    omega
  | checkedWait step hc => exact ((hidle rfl).2 ⟨step, rfl, hc⟩).elim
  | spawn root =>
    have := spawned_cost_le wf hgt (hgt root.ID) root.Next (hh root hgood.1)
    refine ⟨rfl, ?_⟩
    simp only [poolCost_append]
    simp only [Goroutine.cost, spawnCost, List.map_nil, List.sum_nil]
    omega
  | callCtx root step via stack ce hc => rw [hs.ctx] at hc; cases hc
  | callPanic root step via stack hc hr =>
    obtain ⟨a, ha, _⟩ := hs.ok st.clock step (hgood.2 _ (List.mem_cons_self _ _))
    rw [ha] at hr; cases hr
  | callRequired root step via stack a e hc hr he hq =>
    obtain ⟨a', ha, hn⟩ := hs.ok st.clock step (hgood.2 _ (List.mem_cons_self _ _))
    rw [ha] at hr; cases hr
    rw [hn] at he; cases he
  | callFailed root step via stack a e hc hr he hq hw =>
    obtain ⟨a', ha, hn⟩ := hs.ok st.clock step (hgood.2 _ (List.mem_cons_self _ _))
    rw [ha] at hr; cases hr
    rw [hn] at he; cases he
  | callOk root step via stack a hc hr he hw =>
    refine ⟨rfl, ?_⟩
    simp only [poolCost_append]
    simp only [poolCost, Goroutine.cost, Frame.cost, callCost, List.map_cons,
      List.map_nil, List.sum_cons, List.sum_nil]
    omega
  | nextDone root step stack =>
    refine ⟨rfl, ?_⟩
    simp only [poolCost_append]
    simp only [poolCost, Goroutine.cost, Frame.cost, List.map_cons,
      List.map_nil, List.sum_cons, List.sum_nil]
    omega
  | nextCall root step id ids stack nextStep hf hc =>
    have hfr := hgood.2 _ (List.mem_cons_self _ _)
    have hu := findStep_some wf id nextStep hf
    have hlt : hgt nextStep.ID < hgt step.ID :=
      hu.2 ▸ hh step hfr.1 id (hfr.2 id (List.mem_cons_self _ _))
    have := stepBound_gt (maxNext wf) nextStep.Next.length _ _
      (length_le_maxNext wf nextStep hu.1) hlt
    refine ⟨rfl, ?_⟩
    simp only [poolCost_append]
    simp only [poolCost, Goroutine.cost, Frame.cost, callCost, List.map_cons,
      List.map_nil, List.sum_cons, List.sum_nil, List.length_cons, Nat.succ_mul]
    omega
  | nextSkip root step id ids stack hsk =>
    have hfr := hgood.2 _ (List.mem_cons_self _ _)
    have hlt : hgt id < hgt step.ID := hh step hfr.1 id (hfr.2 id (List.mem_cons_self _ _))
    have := stepBound_gt (maxNext wf) 0 _ _ (Nat.zero_le _) hlt
    refine ⟨rfl, ?_⟩
    simp only [poolCost_append]
    simp only [poolCost, Goroutine.cost, Frame.cost, List.map_cons,
      List.map_nil, List.sum_cons, List.sum_nil, List.length_cons, Nat.succ_mul]
    omega
  | errDone root step stack => exact (hgood.2 _ (List.mem_cons_self _ _)).elim
  | errCall root step id ids stack errorStep hf => exact (hgood.2 _ (List.mem_cons_self _ _)).elim
  | errSkip root step id ids stack hf => exact (hgood.2 _ (List.mem_cons_self _ _)).elim
  | sendOk root err hlen => exact hgood.elim
  | sendBlocked root err hlen => exact hgood.elim

/-! ## A run without failures: a schedule that ends, and what every ended run returns -/

theorem schedStep_act (wf : Workflow) (env : Env) (st : ExecState) (i : Nat) (g : Goroutine)
    (hp : st.panicked = false) (hg : st.pool[i]? = some g) :
    st.pool.Perm (g :: st.pool.eraseIdx i) ∧
      Trans wf env st (st.pool.eraseIdx i) g (schedStep wf env st i) := by
  refine ⟨perm_eraseIdx _ _ _ hg, ?_⟩
  have : schedStep wf env st i =
      { (act wf env st g).1 with pool := st.pool.eraseIdx i ++ (act wf env st g).2 } := by
    unfold schedStep
    simp [hp, hg]
  rw [this]
  exact act_trans wf env st (st.pool.eraseIdx i) g

theorem exists_schedule (wf : Workflow) (env : Env) (hs : Sound wf env) (rank : String → Nat)
    (hrank : ∀ s ∈ wf.Steps, ∀ id ∈ s.Next, rank s.ID < rank id) (hgt : String → Nat)
    (hh : ∀ s ∈ wf.Steps, ∀ id ∈ s.Next, hgt id < hgt s.ID) :
    ∀ n st, st.panicked = false → RunInv wf st → poolCost (maxNext wf) hgt st.pool ≤ n →
      ∃ sched, (runSched wf env sched st).pool = [] ∧
        (runSched wf env sched st).panicked = false := by
  intro n
  induction n using Nat.strong_induction_on with
  | _ n ih =>
    intro st hp hinv hcost
    by_cases hpool : st.pool = []
    · exact ⟨[], hpool, hp⟩
    · obtain ⟨g, hg, hmoves⟩ := exists_moves wf hs.nodup rank hrank st hinv hpool
      obtain ⟨i, hi⟩ := List.mem_iff_getElem?.mp hg
      obtain ⟨hperm, ht⟩ := schedStep_act wf env st i g hp hi
      obtain ⟨hp', hlt⟩ := cost_step wf env hs hgt hh st g _ _ hperm ht hinv hmoves
      rw [hp] at hp'
      have hinv' : RunInv wf (schedStep wf env st i) := by
        rcases runInv_step wf env hs st g _ _ hperm ht hinv with h1 | h1
        · rw [hp'] at h1; cases h1
        · exact h1
      obtain ⟨sched, hsched⟩ := ih _ (Nat.lt_of_lt_of_le hlt hcost) _ hp' hinv' (Nat.le_refl _)
      exact ⟨i :: sched, hsched⟩

/-- A numbering that grows along the edges gives heights that shrink along them. -/
theorem exists_height (wf : Workflow)
    (hedges : ∀ s ∈ wf.Steps, ∀ id ∈ s.Next, ∃ t ∈ wf.Steps, t.ID = id) (rank : String → Nat)
    (hrank : ∀ s ∈ wf.Steps, ∀ id ∈ s.Next, rank s.ID < rank id) :
    ∃ hgt : String → Nat, ∀ s ∈ wf.Steps, ∀ id ∈ s.Next, hgt id < hgt s.ID := by
  refine ⟨fun id => (wf.Steps.map (fun s => rank s.ID)).sum - rank id, ?_⟩
  intro s hs id hid
  obtain ⟨t, ht, rfl⟩ := hedges s hs id hid
  have h1 : rank t.ID ≤ (wf.Steps.map (fun s => rank s.ID)).sum :=
    List.single_le_sum (fun _ _ => Nat.zero_le _) _
      (List.mem_map_of_mem (fun s => rank s.ID) ht)
  have h2 := hrank s hs t.ID hid
  show (wf.Steps.map (fun s => rank s.ID)).sum - rank t.ID <
    (wf.Steps.map (fun s => rank s.ID)).sum - rank s.ID
  omega

theorem execution_append (wf : Workflow) (env : Env) (sched more : List Nat) :
    execution wf env (sched ++ more) = runSched wf env more (execution wf env sched) := by
  unfold execution runSched
  rw [List.foldl_append]

/-- Without failures every execution in which the program lives can be
continued to the end of `executeSteps`. -/
theorem execution_ends (wf : Workflow) (env : Env) (hs : Sound wf env) (rank : String → Nat)
    (hrank : ∀ s ∈ wf.Steps, ∀ id ∈ s.Next, rank s.ID < rank id) (sched : List Nat)
    (hp : (execution wf env sched).panicked = false) :
    ∃ more, (execution wf env (sched ++ more)).pool = [] ∧
      (execution wf env (sched ++ more)).panicked = false := by
  obtain ⟨hgt, hh⟩ := exists_height wf hs.edges rank hrank
  have hinv : RunInv wf (execution wf env sched) := by
    rcases runInv_execution wf env hs sched with h1 | h1
    · rw [hp] at h1; cases h1
    · exact h1
  obtain ⟨more, hmore⟩ := exists_schedule wf env hs rank hrank hgt hh _
    (execution wf env sched) hp hinv (Nat.le_refl _)
  exact ⟨more, by rw [execution_append]; exact hmore⟩

/-- Without failures every ended run has recorded each step once, as completed. -/
theorem execution_result (wf : Workflow) (env : Env) (hs : Sound wf env) (rank : String → Nat)
    (hrank : ∀ s ∈ wf.Steps, ∀ id ∈ s.Next, rank s.ID < rank id) (sched : List Nat)
    (hend : (execution wf env sched).pool = [])
    (hp : (execution wf env sched).panicked = false) :
    (execution wf env sched).errChan = [] ∧
      (execution wf env sched).stepResults.length = wf.Steps.length ∧
      ∀ s ∈ wf.Steps, ∃ sr, mapGet (execution wf env sched).stepResults s.ID = some sr ∧
        sr.Status = WorkflowStatus.completed := by
  have hinv : RunInv wf (execution wf env sched) := by
    rcases runInv_execution wf env hs sched with h1 | h1
    · rw [hp] at h1; cases h1
    · exact h1
  have hdone := runInv_done wf rank hrank _ hinv hend
  obtain ⟨_, h2, _, h4, h5, h6, _⟩ := hinv
  refine ⟨h2, ?_, ?_⟩
  · have hperm : (mapKeys (execution wf env sched).stepResults).Perm
        (wf.Steps.map (fun s => s.ID)) := by
      rw [List.perm_ext_iff_of_nodup h5 hs.nodup]
      intro k
      constructor
      · intro hk
        obtain ⟨⟨k', r⟩, hkr, rfl⟩ := List.mem_map.mp hk
        obtain ⟨_, s, hsm, hid⟩ := h4 k' r hkr
        exact List.mem_map.mpr ⟨s, hsm, hid⟩
      · intro hk
        obtain ⟨s, hsm, rfl⟩ := List.mem_map.mp hk
        exact h6 _ (hdone s hsm)
    have := hperm.length_eq
    simpa [mapKeys] using this
  · intro s hsm
    have hk : s.ID ∈ mapKeys (execution wf env sched).stepResults := h6 _ (hdone s hsm)
    rw [← mapGet_isSome_iff] at hk
    obtain ⟨sr, hsr⟩ := Option.isSome_iff_exists.mp hk
    exact ⟨sr, hsr, (h4 _ _ (mapGet_some_mem _ _ _ hsr)).1⟩
/-! ## `ExecuteWorkflow` in terms of the execution -/

/-- What a returned call of `ExecuteWorkflow` on a registered workflow says of the execution. -/
theorem ExecuteWorkflow_returned (w : WorkflowEngine) (env : Env) (sched : List Nat)
    (id : String) (wf : Workflow) (hreg : mapGet w.workflows id = some wf)
    (w' : WorkflowEngine) (res : Option WorkflowResult) (err : Option String)
    (h : ExecuteWorkflow w env sched id = some (w', res, err)) :
    (execution wf env sched).pool = [] ∧ (execution wf env sched).panicked = false ∧
      err = (execution wf env sched).errChan.head? ∧
      ∃ r, res = some r ∧ r.StepResults = (execution wf env sched).stepResults ∧
        (∀ e, err = some e → r.Status = WorkflowStatus.failed ∧ r.Error = e) ∧
        (err = none → r.Status = WorkflowStatus.completed) := by
  unfold ExecuteWorkflow at h
  rw [hreg] at h
  simp only [executeSteps] at h
  by_cases hend : ((execution wf env sched).pool.isEmpty && !(execution wf env sched).panicked) = true
  · rw [if_pos hend] at h
    simp only [Option.some.injEq, Prod.mk.injEq] at h
    obtain ⟨_, hres, herr⟩ := h
    simp only [Bool.and_eq_true, List.isEmpty_iff, Bool.not_eq_true'] at hend
    refine ⟨hend.1, hend.2, herr.symm, ?_⟩
    cases hh : (execution wf env sched).errChan.head? with
    | none =>
      rw [hh] at hres herr
      refine ⟨_, hres.symm, rfl, ?_, fun _ => rfl⟩
      intro e he
      rw [← herr] at he
      cases he
    | some e₀ =>
      rw [hh] at hres herr
      refine ⟨_, hres.symm, rfl, ?_, ?_⟩
      · intro e he
        rw [← herr] at he
        cases he
        exact ⟨rfl, rfl⟩
      · intro he
        rw [← herr] at he
        cases he
  · rw [if_neg hend] at h
    cases h

/-- An ended execution makes `ExecuteWorkflow` return. -/
theorem ExecuteWorkflow_returns (w : WorkflowEngine) (env : Env) (sched : List Nat)
    (id : String) (wf : Workflow) (hreg : mapGet w.workflows id = some wf)
    (hend : (execution wf env sched).pool = [])
    (hpanic : (execution wf env sched).panicked = false) :
    ∃ w' r, ExecuteWorkflow w env sched id =
      some (w', some r, (execution wf env sched).errChan.head?) := by
  unfold ExecuteWorkflow
  rw [hreg]
  simp only [executeSteps]
  rw [if_pos (by simp [hend, hpanic])]
  exact ⟨_, _, rfl⟩


/-- While a goroutine is left, or once the program has died, `ExecuteWorkflow`
does not return. -/
theorem ExecuteWorkflow_not_returned (w : WorkflowEngine) (env : Env) (sched : List Nat)
    (id : String) (wf : Workflow) (hreg : mapGet w.workflows id = some wf)
    (h : ((execution wf env sched).pool.isEmpty && !(execution wf env sched).panicked) = false) :
    ExecuteWorkflow w env sched id = none := by
  unfold ExecuteWorkflow
  rw [hreg]
  simp only [executeSteps]
  rw [if_neg (by simp [h])]
/-! ## Error handlers of steps that are not required -/

theorem errored_step (wf : Workflow) (env : Env) (st : ExecState) (g : Goroutine)
    (rest : List Goroutine) (st' : ExecState) (hperm : st.pool.Perm (g :: rest))
    (ht : Trans wf env st rest g st') (h : errored st) : errored st' := by
  unfold errored at h ⊢
  rw [sends_perm _ _ _ hperm] at h
  cases ht with
  | sendOk root err hlen => left; simp
  | entryDone step hc =>
    simp only [isSend_entry, Bool.false_eq_true, false_or] at h
    exact h
  | abort g hw hr =>
    simp only [sends_append, sends_singleton] at h ⊢
    rcases h with h | h | h
    · exact Or.inl h
    · exact Or.inr (Or.inr h)
    · exact Or.inr (Or.inl h)
  | _ =>
    simp only [sends_append, sends_singleton, sends_entries, isSend_entry,
      isSend_checked, isSend_exec, isSend_send, Bool.false_eq_true, false_or, or_false,
      or_true, true_or] at h ⊢
    try exact h

/-- What is pending in a goroutine that did not act is pending afterwards; so is
what is pending below the top activation of the acting one. -/
theorem handlerInv_pool (wf : Workflow) (st : ExecState) (g : Goroutine)
    (rest news : List Goroutine) (hperm : st.pool.Perm (g :: rest)) (h : HandlerInv wf st)
    (herr : errored st → errored { st with pool := rest ++ news })
    (hpend : ∀ H, (findStep wf H).isSome = true → g.Pending H →
      (∃ x ∈ news, x.Pending H) ∨ errored { st with pool := rest ++ news }) :
    HandlerInv wf { st with pool := rest ++ news } := by
  obtain ⟨h1, h2, h3⟩ := h
  refine ⟨?_, fun hr => herr (h2 hr), h3⟩
  intro e he hf hq
  refine ⟨(h1 e he hf hq).1, ?_⟩
  intro H hH hfound
  rcases (h1 e he hf hq).2 H hH hfound with hk | ⟨x, hx, hp⟩ | hr
  · exact Or.inl hk
  · rcases List.mem_cons.mp (hperm.mem_iff.mp hx) with rfl | hx
    · rcases hpend H hfound hp with ⟨y, hy, hyp⟩ | hr
      · exact Or.inr (Or.inl ⟨y, List.mem_append_right _ hy, hyp⟩)
      · exact Or.inr (Or.inr hr)
    · exact Or.inr (Or.inl ⟨x, List.mem_append_left _ hx, hp⟩)
  · exact Or.inr (Or.inr (herr hr))

theorem handlerInv_step (wf : Workflow) (env : Env)
    (st : ExecState) (g : Goroutine) (rest : List Goroutine) (st' : ExecState)
    (hperm : st.pool.Perm (g :: rest)) (ht : Trans wf env st rest g st')
    (h : HandlerInv wf st) : HandlerInv wf st' := by
  have herr := errored_step wf env st g rest st' hperm ht
  cases ht with
  | entryDone step hc =>
    have := handlerInv_pool wf st _ rest [] hperm h (by simpa using herr)
      (fun H _ hp => by simp [Goroutine.Pending] at hp)
    simpa using this
  | entryGo step hc =>
    exact handlerInv_pool wf st _ rest _ hperm h herr
      (fun H _ hp => by simp [Goroutine.Pending] at hp)
  | checkedGo step hc =>
    exact handlerInv_pool wf st _ rest _ hperm h herr
      (fun H _ hp => by simp [Goroutine.Pending] at hp)
  | checkedWait step hc =>
    exact handlerInv_pool wf st _ rest _ hperm h herr
      (fun H _ hp => by simp [Goroutine.Pending] at hp)
  | spawn root =>
    exact handlerInv_pool wf st _ rest _ hperm h herr
      (fun H _ hp => by simp [Goroutine.Pending] at hp)
  | callCtx root step via stack ce hc =>
    refine handlerInv_pool wf st _ rest _ hperm h herr (fun H _ _ => Or.inr ?_)
    right
    simp only [sends_append, sends_singleton, isSend_send, or_true]
  | callPanic root step via stack hc hr =>
    obtain ⟨h1, h2, h3⟩ := h
    have herr' : errored st → errored { st with pool :=
        rest ++ [Goroutine.exec root (Frame.call step via :: stack)] } := by
      intro he
      have := herr he
      unfold errored at this ⊢
      exact this
    have := handlerInv_pool wf st _ rest [Goroutine.exec root (Frame.call step via :: stack)]
      hperm ⟨h1, h2, h3⟩ herr' (fun H _ hp => Or.inl ⟨_, List.mem_singleton.mpr rfl, hp⟩)
    obtain ⟨k1, k2, k3⟩ := this
    exact ⟨k1, k2, k3⟩
  | abort g hw hr =>
    obtain ⟨h1, h2, h3⟩ := h
    have herr' : errored st → errored { st with pool := rest ++ [g] } := by
      intro he
      have := herr he
      unfold errored at this ⊢
      exact this
    have := handlerInv_pool wf st _ rest [g]
      hperm ⟨h1, h2, h3⟩ herr' (fun H _ hp => Or.inl ⟨_, List.mem_singleton.mpr rfl, hp⟩)
    obtain ⟨k1, k2, k3⟩ := this
    exact ⟨k1, k2, k3⟩
  | callBlocked root step via stack hw =>
    exact handlerInv_pool wf st _ rest _ hperm h herr
      (fun H _ hp => Or.inl ⟨_, List.mem_singleton.mpr rfl, hp⟩)
  | writeOk root step stack =>
    obtain ⟨h1, h2, h3⟩ := h
    have herr' : errored st → errored { st with pool :=
        rest ++ [Goroutine.exec root (Frame.next step step.Next :: stack)] } := by
      intro he
      have := herr he
      unfold errored at this ⊢
      exact this
    have := handlerInv_pool wf st _ rest
      [Goroutine.exec root (Frame.next step step.Next :: stack)]
      hperm ⟨h1, h2, h3⟩ herr' (fun H _ hp => Or.inl (by
        obtain ⟨f, hfm, hfp⟩ := hp
        rcases List.mem_cons.mp hfm with rfl | hfm
        · simp [Frame.Pending] at hfp
        · exact ⟨_, List.mem_singleton.mpr rfl, f, List.mem_cons_of_mem _ hfm, hfp⟩))
    obtain ⟨k1, k2, k3⟩ := this
    exact ⟨k1, k2, k3⟩
  | writeFailed root step stack =>
    obtain ⟨h1, h2, h3⟩ := h
    have herr' : errored st → errored { st with pool :=
        rest ++ [Goroutine.exec root (Frame.onError step step.OnError :: stack)] } := by
      intro he
      have := herr he
      unfold errored at this ⊢
      exact this
    have := handlerInv_pool wf st _ rest
      [Goroutine.exec root (Frame.onError step step.OnError :: stack)]
      hperm ⟨h1, h2, h3⟩ herr' (fun H _ hp => Or.inl (by
        obtain ⟨f, hfm, hfp⟩ := hp
        rcases List.mem_cons.mp hfm with rfl | hfm
        · exact ⟨_, List.mem_singleton.mpr rfl, _, List.mem_cons_self _ _, hfp.2⟩
        · exact ⟨_, List.mem_singleton.mpr rfl, f, List.mem_cons_of_mem _ hfm, hfp⟩))
    obtain ⟨k1, k2, k3⟩ := this
    exact ⟨k1, k2, k3⟩
  | callRequired root step via stack a e hc hr he hq =>
    obtain ⟨h1, h2, h3⟩ := h
    have hnow : errored { st with
        clock := a.clock,
        trace := st.trace ++ [Event.mk step via (mapKeys st.stepResults) true],
        pool := rest ++ [Goroutine.send root ("error in step " ++ root.ID ++ ": " ++ e)] } := by
      right
      simp only [sends_append, sends_singleton, isSend_send, or_true]
    refine ⟨?_, fun _ => hnow, ?_⟩
    · intro ev hev hf hreq
      rcases List.mem_append.mp hev with hev | hev
      · refine ⟨(h1 ev hev hf hreq).1, fun H _ _ => Or.inr (Or.inr hnow)⟩
      · simp only [List.mem_singleton] at hev
        subst hev
        rw [hq] at hreq
        cases hreq
    · intro k r hkr
      refine ⟨(h3 k r hkr).1, fun hc' => ?_⟩
      obtain ⟨ev, hev, hid⟩ := (h3 k r hkr).2 hc'
      exact ⟨ev, List.mem_append_left _ hev, hid⟩
  | callFailed root step via stack a e hc hr he hq hw =>
    obtain ⟨h1, h2, h3⟩ := h
    have hg : Goroutine.exec root (Frame.call step via :: stack) ∈ st.pool :=
      hperm.mem_iff.mpr (List.mem_cons_self _ _)
    refine ⟨?_, ?_, ?_⟩
    · intro ev hev hf hreq
      rcases List.mem_append.mp hev with hev | hev
      · refine ⟨(mapKeys_mapSet_mem _ _ _ _).mpr (Or.inr (h1 ev hev hf hreq).1), ?_⟩
        intro H hH hfound
        rcases (h1 ev hev hf hreq).2 H hH hfound with hk | ⟨x, hx, hp⟩ | hr'
        · exact Or.inl ((mapKeys_mapSet_mem _ _ _ _).mpr (Or.inr hk))
        · rcases List.mem_cons.mp (hperm.mem_iff.mp hx) with rfl | hx
          · obtain ⟨f, hfm, hfp⟩ := hp
            rcases List.mem_cons.mp hfm with rfl | hfm
            · exact Or.inl ((mapKeys_mapSet_mem _ _ _ _).mpr (Or.inl hfp.symm))
            · exact Or.inr (Or.inl ⟨_, List.mem_append_right _ (List.mem_singleton.mpr rfl),
                f, List.mem_cons_of_mem _ hfm, hfp⟩)
          · exact Or.inr (Or.inl ⟨x, List.mem_append_left _ hx, hp⟩)
        · exact Or.inr (Or.inr (herr hr'))
      · simp only [List.mem_singleton] at hev
        subst hev
        refine ⟨(mapKeys_mapSet_mem _ _ _ _).mpr (Or.inl rfl), ?_⟩
        intro H hH _
        exact Or.inr (Or.inl ⟨_, List.mem_append_right _ (List.mem_singleton.mpr rfl),
          _, List.mem_cons_self _ _, rfl, hH⟩)
    · intro hreq
      rw [requiredFailure_append] at hreq
      rcases hreq with hreq | hreq
      · exact herr (h2 hreq)
      · rw [hq] at hreq
        cases hreq.1
    · intro k r hkr
      rcases mem_mapSet _ _ _ _ hkr with hkr | hkr
      · simp only [Prod.mk.injEq] at hkr
        obtain ⟨rfl, rfl⟩ := hkr
        exact ⟨Or.inr rfl, fun hc' => by cases hc'⟩
      · refine ⟨(h3 k r hkr).1, fun hc' => ?_⟩
        obtain ⟨ev, hev, hid⟩ := (h3 k r hkr).2 hc'
        exact ⟨ev, List.mem_append_left _ hev, hid⟩
  | callOk root step via stack a hc hr he hw =>
    obtain ⟨h1, h2, h3⟩ := h
    refine ⟨?_, ?_, ?_⟩
    · intro ev hev hf hreq
      rcases List.mem_append.mp hev with hev | hev
      · refine ⟨(mapKeys_mapSet_mem _ _ _ _).mpr (Or.inr (h1 ev hev hf hreq).1), ?_⟩
        intro H hH hfound
        rcases (h1 ev hev hf hreq).2 H hH hfound with hk | ⟨x, hx, hp⟩ | hr'
        · exact Or.inl ((mapKeys_mapSet_mem _ _ _ _).mpr (Or.inr hk))
        · rcases List.mem_cons.mp (hperm.mem_iff.mp hx) with rfl | hx
          · obtain ⟨f, hfm, hfp⟩ := hp
            rcases List.mem_cons.mp hfm with rfl | hfm
            · exact Or.inl ((mapKeys_mapSet_mem _ _ _ _).mpr (Or.inl hfp.symm))
            · exact Or.inr (Or.inl ⟨_, List.mem_append_right _ (List.mem_singleton.mpr rfl),
                f, List.mem_cons_of_mem _ hfm, hfp⟩)
          · exact Or.inr (Or.inl ⟨x, List.mem_append_left _ hx, hp⟩)
        · exact Or.inr (Or.inr (herr hr'))
      · simp only [List.mem_singleton] at hev
        subst hev
        cases hf
    · intro hreq
      rw [requiredFailure_append] at hreq
      rcases hreq with hreq | hreq
      · exact herr (h2 hreq)
      · cases hreq.2
    · intro k r hkr
      rcases mem_mapSet _ _ _ _ hkr with hkr | hkr
      · simp only [Prod.mk.injEq] at hkr
        obtain ⟨rfl, rfl⟩ := hkr
        exact ⟨Or.inl rfl, fun _ =>
          ⟨_, List.mem_append_right _ (List.mem_singleton.mpr rfl), rfl, rfl⟩⟩
      · refine ⟨(h3 k r hkr).1, fun hc' => ?_⟩
        obtain ⟨ev, hev, hid⟩ := (h3 k r hkr).2 hc'
        exact ⟨ev, List.mem_append_left _ hev, hid⟩
  | nextDone root step stack =>
    refine handlerInv_pool wf st _ rest _ hperm h herr (fun H _ hp => Or.inl ?_)
    obtain ⟨f, hfm, hfp⟩ := hp
    rcases List.mem_cons.mp hfm with rfl | hfm
    · cases hfp
    · exact ⟨_, List.mem_singleton.mpr rfl, f, hfm, hfp⟩
  | nextCall root step id ids stack nextStep hf hc =>
    refine handlerInv_pool wf st _ rest _ hperm h herr (fun H _ hp => Or.inl ?_)
    obtain ⟨f, hfm, hfp⟩ := hp
    rcases List.mem_cons.mp hfm with rfl | hfm
    · cases hfp
    · exact ⟨_, List.mem_singleton.mpr rfl, f,
        List.mem_cons_of_mem _ (List.mem_cons_of_mem _ hfm), hfp⟩
  | nextSkip root step id ids stack hsk =>
    refine handlerInv_pool wf st _ rest _ hperm h herr (fun H _ hp => Or.inl ?_)
    obtain ⟨f, hfm, hfp⟩ := hp
    rcases List.mem_cons.mp hfm with rfl | hfm
    · cases hfp
    · exact ⟨_, List.mem_singleton.mpr rfl, f, List.mem_cons_of_mem _ hfm, hfp⟩
  | errDone root step stack =>
    refine handlerInv_pool wf st _ rest _ hperm h herr (fun H _ hp => Or.inl ?_)
    obtain ⟨f, hfm, hfp⟩ := hp
    rcases List.mem_cons.mp hfm with rfl | hfm
    · simp [Frame.Pending] at hfp
    · exact ⟨_, List.mem_singleton.mpr rfl, f, hfm, hfp⟩
  | errCall root step id ids stack errorStep hf =>
    refine handlerInv_pool wf st _ rest _ hperm h herr (fun H _ hp => Or.inl ?_)
    obtain ⟨f, hfm, hfp⟩ := hp
    rcases List.mem_cons.mp hfm with rfl | hfm
    · simp only [Frame.Pending, List.mem_cons] at hfp
      rcases hfp with hfp | hfp
      · refine ⟨_, List.mem_singleton.mpr rfl, _, List.mem_cons_self _ _, ?_⟩
        simp only [Frame.Pending]
        rw [hfp]
        exact (findStep_some wf id errorStep hf).2
      · exact ⟨_, List.mem_singleton.mpr rfl, Frame.onError step ids,
          List.mem_cons_of_mem _ (List.mem_cons_self _ _), hfp⟩
    · exact ⟨_, List.mem_singleton.mpr rfl, f,
        List.mem_cons_of_mem _ (List.mem_cons_of_mem _ hfm), hfp⟩
  | errSkip root step id ids stack hf =>
    refine handlerInv_pool wf st _ rest _ hperm h herr (fun H hfound hp => Or.inl ?_)
    obtain ⟨f, hfm, hfp⟩ := hp
    rcases List.mem_cons.mp hfm with rfl | hfm
    · simp only [Frame.Pending, List.mem_cons] at hfp
      rcases hfp with hfp | hfp
      · rw [hfp, hf] at hfound
        cases hfound
      · exact ⟨_, List.mem_singleton.mpr rfl, Frame.onError step ids,
          List.mem_cons_self _ _, hfp⟩
    · exact ⟨_, List.mem_singleton.mpr rfl, f, List.mem_cons_of_mem _ hfm, hfp⟩
  | sendOk root err hlen =>
    obtain ⟨h1, h2, h3⟩ := h
    have hnow : errored { st with errChan := st.errChan ++ [err], pool := rest } := by
      left
      simp
    refine ⟨?_, fun _ => hnow, h3⟩
    intro ev hev hf hreq
    exact ⟨(h1 ev hev hf hreq).1, fun H _ _ => Or.inr (Or.inr hnow)⟩
  | sendBlocked root err hlen =>
    exact handlerInv_pool wf st _ rest _ hperm h herr
      (fun H _ hp => by simp [Goroutine.Pending] at hp)

theorem handlerInv_init (wf : Workflow) : HandlerInv wf (initState wf) := by
  refine ⟨?_, ?_, ?_⟩
  · intro e he
    simp [initState] at he
  · rintro ⟨e, he, _⟩
    simp [initState] at he
  · intro k r hkr
    simp [initState] at hkr

theorem handlerInv_execution (wf : Workflow) (env : Env) (sched : List Nat) :
    HandlerInv wf (execution wf env sched) :=
  runSched_invariant wf env (HandlerInv wf)
    (fun st g rest st' _ hperm ht h => handlerInv_step wf env st g rest st' hperm ht h)
    sched (initState wf) (handlerInv_init wf)

/-! ## A closed set of states holds every execution -/

theorem schedStep_mem_of_closed (wf : Workflow) (env : Env) (S : List ExecState)
    (hclosed : closed wf env S = true) (st : ExecState) (hst : st ∈ S) (i : Nat) :
    schedStep wf env st i ∈ S := by
  by_cases hi : i < st.pool.length
  · unfold closed at hclosed
    rw [List.all_eq_true] at hclosed
    have h1 := hclosed st hst
    rw [List.all_eq_true] at h1
    have h2 := h1 (schedStep wf env st i)
      (List.mem_map.mpr ⟨i, List.mem_range.mpr hi, rfl⟩)
    simpa using h2
  · have : schedStep wf env st i = st := by
      unfold schedStep
      have hnone : st.pool.get? i = none := by
        rw [List.get?_eq_none]
        omega
      rw [hnone]
      simp
    rw [this]
    exact hst

theorem runSched_mem_of_closed (wf : Workflow) (env : Env) (S : List ExecState)
    (hclosed : closed wf env S = true) (sched : List Nat) :
    ∀ st ∈ S, runSched wf env sched st ∈ S := by
  induction sched with
  | nil => intro st hst; exact hst
  | cons i sched ih =>
    intro st hst
    exact ih _ (schedStep_mem_of_closed wf env S hclosed st hst i)

/-- Every execution ends in a state of a closed set that holds the initial state. -/
theorem execution_mem_of_closed (wf : Workflow) (env : Env) (S : List ExecState)
    (hinit : initState wf ∈ S) (hclosed : closed wf env S = true) (sched : List Nat) :
    execution wf env sched ∈ S :=
  runSched_mem_of_closed wf env S hclosed sched _ hinit

/-! ## Acyclic graphs are the graphs with a numbering that grows along the edges -/

theorem acyclic_of_rank (wf : Workflow) (rank : String → Nat)
    (hrank : ∀ s ∈ wf.Steps, ∀ next ∈ s.Next, rank s.ID < rank next) : Acyclic wf := by
  have hlt : ∀ a b, Relation.TransGen (nextEdge wf) a b → rank a < rank b := by
    intro a b hab
    induction hab with
    | single h =>
      obtain ⟨s, hs, rfl, hn⟩ := h
      exact hrank s hs _ hn
    | tail _ h ih =>
      obtain ⟨s, hs, rfl, hn⟩ := h
      exact Nat.lt_trans ih (hrank s hs _ hn)
  intro id hid
  exact Nat.lt_irrefl _ (hlt id id hid)

theorem rank_of_acyclic (wf : Workflow) (h : Acyclic wf) :
    ∃ rank : String → Nat, ∀ s ∈ wf.Steps, ∀ next ∈ s.Next, rank s.ID < rank next := by
  classical
  refine ⟨fun t => ((wf.Steps.map (fun s => s.ID)).toFinset.filter
    (fun x => Relation.TransGen (nextEdge wf) x t)).card, ?_⟩
  intro s hs next hn
  have hedge : nextEdge wf s.ID next := ⟨s, hs, rfl, hn⟩
  apply Finset.card_lt_card
  rw [Finset.ssubset_iff_of_subset]
  · refine ⟨s.ID, ?_, ?_⟩
    · rw [Finset.mem_filter]
      exact ⟨List.mem_toFinset.mpr (List.mem_map_of_mem (fun s => s.ID) hs),
        Relation.TransGen.single hedge⟩
    · rw [Finset.mem_filter]
      intro hmem
      exact h s.ID hmem.2
  · intro x hx
    rw [Finset.mem_filter] at hx ⊢
    exact ⟨hx.1, Relation.TransGen.tail hx.2 hedge⟩

/-! ## A run without failures, as long as the runtime does not abort -/

/-- For a registered workflow with distinct step ids, no dangling `Next` edge and
an acyclic `Next` graph, none of whose step runs fails and whose context is
never cancelled: every execution in which no read of `completed` has fallen
inside a write can be continued by a schedule under which `ExecuteWorkflow`
returns, and under every schedule under which it returns the error is nil, the
status is `completed` and `StepResults` has as many entries as the workflow has
steps, one `completed` entry for each step id. -/
theorem ExecuteWorkflow_completes_unless_aborted (w : WorkflowEngine) (env : Env) (id : String)
    (wf : Workflow) (hreg : mapGet w.workflows id = some wf)
    (hnodup : (wf.Steps.map (fun s => s.ID)).Nodup)
    (hedges : ∀ s ∈ wf.Steps, ∀ next ∈ s.Next, ∃ t ∈ wf.Steps, t.ID = next)
    (hacyclic : Acyclic wf)
    (hok : ∀ n, ∀ s ∈ wf.Steps, ∃ a, runStep env n s = some a ∧ a.err = none)
    (hctx : ∀ n, env.ctxErr n = none) :
    (∀ sched, (execution wf env sched).panicked = false →
        ∃ more w' r, ExecuteWorkflow w env (sched ++ more) id = some (w', some r, none)) ∧
      ∀ sched w' res err, ExecuteWorkflow w env sched id = some (w', res, err) →
        err = none ∧ ∃ r, res = some r ∧ r.Status = WorkflowStatus.completed ∧
          r.StepResults.length = wf.Steps.length ∧
          ∀ s ∈ wf.Steps, ∃ sr, mapGet r.StepResults s.ID = some sr ∧
            sr.Status = WorkflowStatus.completed := by
  obtain ⟨rank, hrank⟩ := rank_of_acyclic wf hacyclic
  have hs : Sound wf env := ⟨hnodup, hedges, hok, hctx⟩
  constructor
  · intro sched hlive
    obtain ⟨more, hend, hp⟩ := execution_ends wf env hs rank hrank sched hlive
    obtain ⟨he, _, _⟩ := execution_result wf env hs rank hrank _ hend hp
    obtain ⟨w', r, hr⟩ := ExecuteWorkflow_returns w env _ id wf hreg hend hp
    rw [he] at hr
    exact ⟨more, w', r, hr⟩
  · intro sched w' res err h
    obtain ⟨hend, hp, herr, r, hres, hsr, _, hcompl⟩ :=
      ExecuteWorkflow_returned w env sched id wf hreg w' res err h
    obtain ⟨he, hlen, hall⟩ := execution_result wf env hs rank hrank sched hend hp
    rw [he] at herr
    refine ⟨herr, r, hres, hcompl herr, ?_, ?_⟩
    · rw [hsr]; exact hlen
    · rw [hsr]; exact hall

theorem testWorkflow_ok (n : Nat) (s : Step) (hs : s ∈ testWorkflow.Steps) :
    ∃ a, runStep quietEnv n s = some a ∧ a.err = none := by
  simp only [testWorkflow, workflowOf, List.mem_cons, List.mem_singleton, List.not_mem_nil,
    or_false] at hs
  rcases hs with rfl | rfl | rfl <;> exact ⟨_, rfl, rfl⟩

/-- An instance: some execution of the workflow of `TestWorkflowEngine` returns
three completed results. -/
theorem ExecuteWorkflow_completes_unless_aborted_example :
    ∃ sched w' r, ExecuteWorkflow (engineWith testWorkflow) quietEnv sched "wf" =
        some (w', some r, none) ∧
      r.Status = WorkflowStatus.completed ∧ r.StepResults.length = 3 := by
  have h := ExecuteWorkflow_completes_unless_aborted (engineWith testWorkflow) quietEnv "wf"
    testWorkflow (by decide) (by decide) (by decide)
    (acyclic_of_rank testWorkflow (fun id => if id = "step3" then 1 else 0) (by decide))
    testWorkflow_ok (fun _ => rfl)
  obtain ⟨more, w', r, hr⟩ := h.1 [] rfl
  obtain ⟨_, r', hr', hst, hlen, _⟩ := h.2 _ w' (some r) none hr
  cases hr'
  exact ⟨_, w', r, hr, hst, hlen⟩
/-! ## The retry loop -/

theorem executeWithRetry_eq (env : Env) (clock : Nat) (step : Step) (r : RetryConfig)
    (result : StepResult) :
    executeWithRetry env clock step r result =
      retryLoop env step r (attemptLimit r) (attemptLimit r) 0 r.Delay "<nil>" result clock [] :=
  rfl

theorem attemptLimit_pos (r : RetryConfig) : 1 ≤ attemptLimit r := by
  unfold attemptLimit
  split
  · exact Nat.le_refl 1
  · omega

theorem attemptLimit_eq_max (r : RetryConfig) : attemptLimit r = max 1 r.MaxAttempts.toNat := by
  unfold attemptLimit
  split <;> omega

/-- The three ways a call of `executeSingleStep` can go. -/
theorem executeSingleStep_cases (env : Env) (n : Nat) (step : Step) (result : StepResult) :
    executeSingleStep env n step result = none ∨
      (∃ data, executeSingleStep env n step result =
        some (none, { result with Data := some data })) ∨
      ∃ e, executeSingleStep env n step result = some (some e, result) := by
  unfold executeSingleStep
  split_ifs
  · rcases hx : env.rest n step.Config with d | e | _ <;> simp
  · rcases hx : env.transform n step.Config with d | e | _ <;> simp
  · rcases hx : EchoStep.Execute step.Config with d | e | _ <;> simp
  · simp

theorem retryLoop_success (env : Env) (step : Step) (r : RetryConfig) (M todo attempt : Nat)
    (delay : Int) (lastErr : String) (result : StepResult) (clock : Nat) (waits : List Int)
    (data : String)
    (h : ∀ res, executeSingleStep env clock step res = some (none, { res with Data := some data })) :
    retryLoop env step r M (todo + 1) attempt delay lastErr result clock waits =
      some { err := none,
             result := { result with Attempts := attempt + 1, Data := some data },
             clock := clock + 1, waits := waits } := by
  simp only [retryLoop, h]

theorem retryLoop_wait (env : Env) (step : Step) (r : RetryConfig) (M todo attempt : Nat)
    (delay : Int) (lastErr : String) (result : StepResult) (clock : Nat) (waits : List Int)
    (e : String)
    (h : ∀ res, executeSingleStep env clock step res = some (some e, res))
    (hmore : attempt + 1 < M) (hctx : env.ctxErr (clock + 1) = none) :
    retryLoop env step r M (todo + 1) attempt delay lastErr result clock waits =
      retryLoop env step r M todo (attempt + 1) (nextDelay env r delay) e
        { result with Attempts := attempt + 1 } (clock + 2) (waits ++ [delay]) := by
  simp only [retryLoop, h, hmore, if_true, hctx]

theorem retryLoop_last (env : Env) (step : Step) (r : RetryConfig) (M todo attempt : Nat)
    (delay : Int) (lastErr : String) (result : StepResult) (clock : Nat) (waits : List Int)
    (e : String)
    (h : ∀ res, executeSingleStep env clock step res = some (some e, res))
    (hlast : ¬ attempt + 1 < M) :
    retryLoop env step r M (todo + 1) attempt delay lastErr result clock waits =
      retryLoop env step r M todo (attempt + 1) delay e
        { result with Attempts := attempt + 1 } (clock + 1) waits := by
  simp only [retryLoop, h, hlast, if_false]

/-- The loop when every attempt fails: it runs to the limit, waits between the
attempts and not after the last one, and the delays follow `nextDelay`. -/
theorem retryLoop_exhausted (env : Env) (step : Step) (r : RetryConfig) (M : Nat)
    (hctx : ∀ n, env.ctxErr n = none) :
    ∀ todo attempt delay lastErr result clock waits, todo + 1 + attempt = M →
      (∀ i, i < todo + 1 → attemptFails env (clock + 2 * i) step) →
      ∃ a e, retryLoop env step r M (todo + 1) attempt delay lastErr result clock waits =
          some a ∧ attemptFails env (clock + 2 * todo) step ∧
        (∀ res, executeSingleStep env (clock + 2 * todo) step res = some (some e, res)) ∧
        a.err = some ("max retry attempts reached: " ++ e) ∧ a.result.Attempts = M ∧
        a.waits = waits ++ List.iterate (nextDelay env r) delay todo ∧
        a.clock = clock + 2 * todo + 1 := by
  intro todo
  induction todo with
  | zero =>
    intro attempt delay lastErr result clock waits hM hfail
    obtain ⟨e, he⟩ := hfail 0 (by omega)
    simp only [Nat.mul_zero, Nat.add_zero] at he
    rw [retryLoop_last env step r M 0 attempt delay lastErr result clock waits e he (by omega)]
    refine ⟨_, e, rfl, ⟨e, by simpa using he⟩, by simpa using he, rfl, ?_, ?_, rfl⟩
    · show attempt + 1 = M
      omega
    · simp [List.iterate]
  | succ todo ih =>
    intro attempt delay lastErr result clock waits hM hfail
    obtain ⟨e, he⟩ := hfail 0 (by omega)
    simp only [Nat.mul_zero, Nat.add_zero] at he
    rw [retryLoop_wait env step r M (todo + 1) attempt delay lastErr result clock waits e he
      (by omega) (hctx _)]
    have hfail' : ∀ i, i < todo + 1 → attemptFails env (clock + 2 + 2 * i) step := by
      intro i hi
      have := hfail (i + 1) (by omega)
      have heq : clock + 2 * (i + 1) = clock + 2 + 2 * i := by omega
      rw [heq] at this
      exact this
    obtain ⟨a, e', ha, hf, hlast, herr, hatt, hwaits, hclock⟩ :=
      ih (attempt + 1) (nextDelay env r delay) e { result with Attempts := attempt + 1 }
        (clock + 2) (waits ++ [delay]) (by omega) hfail'
    have heq : clock + 2 + 2 * todo = clock + 2 * (todo + 1) := by omega
    rw [heq] at hf hlast
    refine ⟨a, e', ha, hf, hlast, herr, hatt, ?_, ?_⟩
    · rw [hwaits, List.append_assoc]
      rfl
    · rw [hclock]
      omega

/-- The loop when the attempt number `j` is the first that succeeds. -/
theorem retryLoop_succeeds (env : Env) (step : Step) (r : RetryConfig) (M : Nat)
    (hctx : ∀ n, env.ctxErr n = none) :
    ∀ j todo attempt delay lastErr result clock waits, todo + attempt = M → j < todo →
      (∀ i, i < j → attemptFails env (clock + 2 * i) step) →
      attemptSucceeds env (clock + 2 * j) step →
      ∃ a, retryLoop env step r M todo attempt delay lastErr result clock waits = some a ∧
        a.err = none ∧ a.result.Attempts = attempt + j + 1 ∧
        a.waits = waits ++ List.iterate (nextDelay env r) delay j ∧
        a.clock = clock + 2 * j + 1 := by
  intro j
  induction j with
  | zero =>
    intro todo attempt delay lastErr result clock waits _ hj _ hsucc
    obtain ⟨data, hd⟩ := hsucc
    simp only [Nat.mul_zero, Nat.add_zero] at hd
    obtain ⟨t, rfl⟩ : ∃ t, todo = t + 1 := ⟨todo - 1, by omega⟩
    rw [retryLoop_success env step r M t attempt delay lastErr result clock waits data hd]
    exact ⟨_, rfl, rfl, rfl, by simp [List.iterate], rfl⟩
  | succ j ih =>
    intro todo attempt delay lastErr result clock waits hM hj hfail hsucc
    obtain ⟨t, rfl⟩ : ∃ t, todo = t + 1 := ⟨todo - 1, by omega⟩
    obtain ⟨e, he⟩ := hfail 0 (by omega)
    simp only [Nat.mul_zero, Nat.add_zero] at he
    rw [retryLoop_wait env step r M t attempt delay lastErr result clock waits e he
      (by omega) (hctx _)]
    have hfail' : ∀ i, i < j → attemptFails env (clock + 2 + 2 * i) step := by
      intro i hi
      have := hfail (i + 1) (by omega)
      have heq : clock + 2 * (i + 1) = clock + 2 + 2 * i := by omega
      rw [heq] at this
      exact this
    have hsucc' : attemptSucceeds env (clock + 2 + 2 * j) step := by
      have heq : clock + 2 * (j + 1) = clock + 2 + 2 * j := by omega
      rw [heq] at hsucc
      exact hsucc
    obtain ⟨a, ha, herr, hatt, hwaits, hclock⟩ :=
      ih t (attempt + 1) (nextDelay env r delay) e { result with Attempts := attempt + 1 }
        (clock + 2) (waits ++ [delay]) (by omega) (by omega) hfail' hsucc'
    refine ⟨a, ha, herr, ?_, ?_, ?_⟩
    · rw [hatt]
      omega
    · rw [hwaits, List.append_assoc]
      rfl
    · rw [hclock]
      omega

/-- The loop never makes more calls than the limit, whatever the executor and the
context do: the attempts recorded are the calls made. -/
theorem retryLoop_bound (env : Env) (step : Step) (r : RetryConfig) (M : Nat) :
    ∀ todo attempt delay lastErr result clock waits a, todo + attempt = M →
      (todo = 0 → result.Attempts = attempt) →
      retryLoop env step r M todo attempt delay lastErr result clock waits = some a →
      a.result.Attempts ≤ M ∧
        a.clock + waits.length + attempt = clock + a.waits.length + a.result.Attempts := by
  intro todo
  induction todo with
  | zero =>
    intro attempt delay lastErr result clock waits a hM hres h
    simp only [retryLoop, Option.some.injEq] at h
    subst h
    have := hres rfl
    simp only
    omega
  | succ todo ih =>
    intro attempt delay lastErr result clock waits a hM _ h
    rcases executeSingleStep_cases env clock step { result with Attempts := attempt + 1 }
      with hc | ⟨data, hc⟩ | ⟨e, hc⟩
    · simp only [retryLoop, hc] at h
      cases h
    · simp only [retryLoop, hc, Option.some.injEq] at h
      subst h
      simp only
      omega
    · by_cases hmore : attempt + 1 < M
      · cases hx : env.ctxErr (clock + 1) with
        | some ce =>
          simp only [retryLoop, hc, hmore, if_true, hx, Option.some.injEq] at h
          subst h
          simp only
          omega
        | none =>
          simp only [retryLoop, hc, hmore, if_true, hx] at h
          have := ih (attempt + 1) (nextDelay env r delay) e { result with Attempts := attempt + 1 }
            (clock + 2) (waits ++ [delay]) a (by omega) (fun _ => rfl) h
          simp only [List.length_append, List.length_singleton] at this
          omega
      · simp only [retryLoop, hc, hmore, if_false] at h
        have := ih (attempt + 1) delay e { result with Attempts := attempt + 1 }
          (clock + 1) waits a (by omega) (fun _ => rfl) h
        omega

theorem executeWithRetry_bound (env : Env) (clock : Nat) (step : Step) (r : RetryConfig)
    (result : StepResult) (a : Attempted) (h : executeWithRetry env clock step r result = some a) :
    a.result.Attempts ≤ attemptLimit r ∧ attemptsMade clock a = a.result.Attempts := by
  rw [executeWithRetry_eq] at h
  have hpos := attemptLimit_pos r
  have := retryLoop_bound env step r (attemptLimit r) (attemptLimit r) 0 r.Delay "<nil>" result
    clock [] a (by omega) (fun h0 => by omega) h
  simp only [List.length_nil] at this
  unfold attemptsMade
  omega

/-! ## The registry: deletion and unknown ids -/

theorem mapGet_mapDel_same {α : Type} (m : List (String × α)) (k : String) :
    mapGet (mapDel m k) k = none := by
  induction m with
  | nil => rfl
  | cons p rest ih =>
    obtain ⟨k₀, v₀⟩ := p
    by_cases h₀ : k₀ = k
    · simp only [mapDel, h₀, if_true, ih]
    · simp only [mapDel, h₀, if_false, mapGet, ih]

theorem mapGet_mapDel_other {α : Type} (m : List (String × α)) (k k' : String) (h : k' ≠ k) :
    mapGet (mapDel m k) k' = mapGet m k' := by
  induction m with
  | nil => rfl
  | cons p rest ih =>
    obtain ⟨k₀, v₀⟩ := p
    by_cases h₀ : k₀ = k
    · subst h₀
      simp only [mapDel, if_true, mapGet, Ne.symm h, if_false, ih]
    · simp only [mapDel, h₀, if_false, mapGet, ih]

/-- The first return of `ExecuteWorkflow`: an id that is not registered. -/
theorem ExecuteWorkflow_of_unregistered (w : WorkflowEngine) (env : Env) (sched : List Nat)
    (id : String) (h : mapGet w.workflows id = none) :
    ExecuteWorkflow w env sched id = some (w, none, some ("workflow " ++ id ++ " not found")) := by
  unfold ExecuteWorkflow
  rw [h]

theorem nextDelay_of_nonpos (env : Env) (r : RetryConfig) (d : Int) (h : r.Multiplier ≤ 0) :
    nextDelay env r d = d := by
  unfold nextDelay
  rw [if_neg (not_lt.mpr h)]

theorem nextDelay_of_pos (env : Env) (r : RetryConfig) (d : Int) (h : 0 < r.Multiplier) :
    nextDelay env r d =
      if r.MaxDelay > 0 ∧ env.scaleDelay d r.Multiplier > r.MaxDelay then r.MaxDelay
      else env.scaleDelay d r.Multiplier := by
  unfold nextDelay
  rw [if_pos h]

theorem nextDelay_le_cap (env : Env) (r : RetryConfig) (d : Int) (h : 0 < r.Multiplier)
    (hcap : 0 < r.MaxDelay) : nextDelay env r d ≤ r.MaxDelay := by
  rw [nextDelay_of_pos env r d h]
  split
  · exact le_refl _
  · rename_i hn
    simp only [gt_iff_lt, not_and, not_lt] at hn
    exact hn hcap

theorem iterate_fixed {α : Type} (f : α → α) (d : α) (h : f d = d) (n : Nat) :
    ∀ x ∈ List.iterate f d n, x = d := by
  induction n with
  | zero => intro x hx; simp [List.iterate] at hx
  | succ n ih =>
    intro x hx
    simp only [List.iterate, List.mem_cons, h] at hx
    rcases hx with rfl | hx
    · rfl
    · exact ih x hx

theorem iterate_tail_image {α : Type} (f : α → α) (n : Nat) :
    ∀ d, ∀ x ∈ (List.iterate f d n).tail, ∃ y, x = f y := by
  induction n with
  | zero => intro d x hx; simp [List.iterate] at hx
  | succ n ih =>
    intro d x hx
    simp only [List.iterate, List.tail_cons] at hx
    cases n with
    | zero => simp [List.iterate] at hx
    | succ n =>
      simp only [List.iterate, List.mem_cons] at hx
      rcases hx with rfl | hx
      · exact ⟨d, rfl⟩
      · exact ih (f d) x (by simpa [List.iterate] using hx)

/-! ## The claims -/

theorem engineWith_registered (steps : List Step) :
    mapGet (engineWith (workflowOf steps)).workflows "wf" = some (workflowOf steps) := by
  simp [engineWith, RegisterWorkflow, workflowOf, NewWorkflowEngine, mapGet, mapSet]

/-- C1, the code at the failing input. The workflow of `TestWorkflowEngine`
(`step1` alone and `step2 -> step3`) is registered, has distinct step ids, no
dangling `Next` edge and an acyclic `Next` graph, none of its step runs fails
and the context is never cancelled. After the goroutine of `step1` has run its
executor and begun the assignment `completed["step1"] = true` under `w.mu`, the
goroutine of `step2` reads `completed["step2"]` under the other lock `mu`: the
read falls inside the write, the runtime aborts the program, and under no
continuation of this schedule does `ExecuteWorkflow` return a result. -/
theorem concurrent_map_access_aborts :
    mapGet (engineWith testWorkflow).workflows "wf" = some testWorkflow ∧
      (testWorkflow.Steps.map (fun s => s.ID)).Nodup ∧
      (∀ s ∈ testWorkflow.Steps, ∀ next ∈ s.Next, ∃ t ∈ testWorkflow.Steps, t.ID = next) ∧
      Acyclic testWorkflow ∧
      (∀ n, ∀ s ∈ testWorkflow.Steps, ∃ a, runStep quietEnv n s = some a ∧ a.err = none) ∧
      (∀ n, quietEnv.ctxErr n = none) ∧
      (execution testWorkflow quietEnv [0, 1, 1]).writing = true ∧
      (execution testWorkflow quietEnv [0, 1, 1]).pool =
        [Goroutine.entry (echoStep "step2" ["step3"]),
         Goroutine.exec (echoStep "step1" [])
           [Frame.write (echoStep "step1" []) false]] ∧
      (execution testWorkflow quietEnv [0, 1, 1, 0]).panicked = true ∧
      ∀ more, ExecuteWorkflow (engineWith testWorkflow) quietEnv ([0, 1, 1, 0] ++ more) "wf" =
        none := by
  refine ⟨by decide, by decide, by decide,
    acyclic_of_rank testWorkflow (fun id => if id = "step3" then 1 else 0) (by decide),
    testWorkflow_ok, fun _ => rfl, by decide, by decide, by decide, ?_⟩
  intro more
  have hp : (execution testWorkflow quietEnv ([0, 1, 1, 0] ++ more)).panicked = true := by
    unfold execution
    rw [runSched_append, runSched_panicked _ _ _ _ (by decide)]
    decide
  exact ExecuteWorkflow_not_returned _ quietEnv _ "wf" testWorkflow (by decide)
    (by rw [hp]; simp)

/-- The two admission paths that test `canExecuteStep` honour the dependencies:
in every execution of every workflow, a step run that was admitted by
`executeStepAndDependents` or by the successor loop of `executeStep` starts
only when every step that names it in `Next` has a step result. -/
theorem successors_wait_for_predecessors (wf : Workflow) (env : Env) (sched : List Nat)
    (e : Event) (he : e ∈ (execution wf env sched).trace) (hvia : e.via ≠ Admission.onError)
    (p : Step) (hp : p ∈ wf.Steps) (hnext : e.step.ID ∈ p.Next) : p.ID ∈ e.recorded :=
  (depsInv_execution wf env sched).2.2 e he hvia p hp hnext

/-- An instance: in the diamond, `C` is run by the successor loop after `B` was recorded. -/
theorem successors_wait_for_predecessors_example :
    "B" ∈ (Event.mk (echoStep "C" []) Admission.next ["A", "B"] false).recorded :=
  successors_wait_for_predecessors diamondWorkflow quietEnv (roundRobin 20)
    (Event.mk (echoStep "C" []) Admission.next ["A", "B"] false) (by decide) (by decide)
    (echoStep "B" ["C"]) (by decide) (by decide)

/-- C2, the code at the failing input. The workflow `A`, `P -> H` with `H` the
error handler of the failing `A` is acyclic. In the execution in which the
goroutine of `A` takes its first six actions before the goroutine of `P`
moves (test of `completed`, `canExecuteStep`, the failing run of `A`, the end
of the assignment to `completed`, the visit of `OnError`, the run of `H`), the handler `H` is run while `P`, which
names `H` in `Next`, has no step result: the only step result is that of `A`. -/
theorem handler_runs_before_predecessor :
    Acyclic handlerWorkflow ∧
      echoStep "P" ["H"] ∈ handlerWorkflow.Steps ∧ "H" ∈ (echoStep "P" ["H"]).Next ∧
      (execution handlerWorkflow quietEnv [0, 1, 1, 1, 1, 1]).trace =
        [Event.mk (soapStep "A" [] ["H"] false) Admission.wrapper [] true,
         Event.mk (echoStep "H" []) Admission.onError ["A"] false] ∧
      "P" ∉ (Event.mk (echoStep "H" []) Admission.onError ["A"] false).recorded :=
  ⟨acyclic_of_rank handlerWorkflow (fun id => if id = "H" then 1 else 0) (by decide),
    by decide, by decide, by decide, by decide⟩

theorem diamondWorkflow_states :
    initState diamondWorkflow ∈ reachable diamondWorkflow quietEnv 40 ∧
      closed diamondWorkflow quietEnv (reachable diamondWorkflow quietEnv 40) = true ∧
      ∀ st ∈ reachable diamondWorkflow quietEnv 40, st.pool = [] →
        st.trace.map (fun e => (e.step.ID, e.via)) =
          [("A", Admission.wrapper), ("B", Admission.next), ("C", Admission.next),
           ("C", Admission.next)] := by
  decide!

/-- C3, the code at the failing input. In the diamond `A -> B`, `A -> C`,
`B -> C` every execution that ends has run the executor of `C` twice: both
runs are started by the successor loop of `executeStep`, the first for `B`
and the second for `A`, and the loop does not look at `completed`. -/
theorem diamond_runs_C_twice (sched : List Nat)
    (out : WorkflowEngine × Option WorkflowResult × Option String)
    (h : ExecuteWorkflow (engineWith diamondWorkflow) quietEnv sched "wf" = some out) :
    (execution diamondWorkflow quietEnv sched).trace.map (fun e => (e.step.ID, e.via)) =
      [("A", Admission.wrapper), ("B", Admission.next), ("C", Admission.next),
       ("C", Admission.next)] := by
  obtain ⟨hend, _⟩ := ExecuteWorkflow_returned _ quietEnv sched "wf" diamondWorkflow
    (engineWith_registered _) out.1 out.2.1 out.2.2 h
  exact diamondWorkflow_states.2.2 _
    (execution_mem_of_closed _ _ _ diamondWorkflow_states.1 diamondWorkflow_states.2.1 sched)
    hend

/-- Witness of C3: the schedule that always moves the first goroutine ends after 20 moves. -/
theorem diamond_runs_C_twice_witness :
    (ExecuteWorkflow (engineWith diamondWorkflow) quietEnv (roundRobin 20) "wf").isSome = true ∧
      (execution diamondWorkflow quietEnv (roundRobin 20)).trace.map
          (fun e => (e.step.ID, e.via)) =
        [("A", Admission.wrapper), ("B", Admission.next), ("C", Admission.next),
         ("C", Admission.next)] := by
  cases h : ExecuteWorkflow (engineWith diamondWorkflow) quietEnv (roundRobin 20) "wf" with
  | none => exact absurd h (by decide)
  | some out => exact ⟨rfl, diamond_runs_C_twice (roundRobin 20) out h⟩

theorem requiredWorkflow_states :
    initState requiredWorkflow ∈ reachable requiredWorkflow quietEnv 10 ∧
      closed requiredWorkflow quietEnv (reachable requiredWorkflow quietEnv 10) = true ∧
      ∀ st ∈ reachable requiredWorkflow quietEnv 10, st.pool = [] →
        st.stepResults = [] ∧
          st.errChan.head? = some "error in step A: unknown step type: soap" := by
  decide!

/-- C4, the code at the failing input. For `A -> B` with a required `A` of an
unknown type, under every schedule under which `ExecuteWorkflow` returns the
result has status `failed` and no step result at all, none for `A` either, and
the failure of `A` is returned as the error of the call. -/
theorem required_failure_is_not_recorded (sched : List Nat) (w' : WorkflowEngine)
    (res : Option WorkflowResult) (err : Option String)
    (h : ExecuteWorkflow (engineWith requiredWorkflow) quietEnv sched "wf" =
      some (w', res, err)) :
    err = some "error in step A: unknown step type: soap" ∧
      ∃ r, res = some r ∧ r.Status = WorkflowStatus.failed ∧ r.StepResults = [] := by
  obtain ⟨hend, _, herr, r, hres, hsr, hfail, _⟩ :=
    ExecuteWorkflow_returned _ quietEnv sched "wf" requiredWorkflow
      (engineWith_registered _) w' res err h
  have hst := requiredWorkflow_states.2.2 _
    (execution_mem_of_closed _ _ _ requiredWorkflow_states.1 requiredWorkflow_states.2.1 sched)
    hend
  rw [hst.2] at herr
  exact ⟨herr, r, hres, (hfail _ herr).1, hsr.trans hst.1⟩

/-- Witness of C4: the call returns after four moves of the one goroutine. -/
theorem required_failure_is_not_recorded_witness :
    ∃ r, (ExecuteWorkflow (engineWith requiredWorkflow) quietEnv (roundRobin 4) "wf").map
        (fun out => out.2.1) = some (some r) ∧
      r.Status = WorkflowStatus.failed ∧ r.StepResults = [] := by
  cases h : ExecuteWorkflow (engineWith requiredWorkflow) quietEnv (roundRobin 4) "wf" with
  | none => exact absurd h (by decide)
  | some out =>
    obtain ⟨w', res, err⟩ := out
    obtain ⟨_, r, hr, hs, hl⟩ := required_failure_is_not_recorded (roundRobin 4) w' res err h
    exact ⟨r, by simp [hr], hs, hl⟩

theorem optionalWorkflow_states :
    initState optionalWorkflow ∈ reachable optionalWorkflow quietEnv 300 ∧
      closed optionalWorkflow quietEnv (reachable optionalWorkflow quietEnv 300) = true ∧
      ∀ st ∈ reachable optionalWorkflow quietEnv 300, st.pool = [] →
        (mapGet st.stepResults "A").map (fun r => r.Status) = some WorkflowStatus.failed ∧
        (mapGet st.stepResults "B").map (fun r => r.Status) = some WorkflowStatus.completed ∧
        (mapGet st.stepResults "C").map (fun r => r.Status) = some WorkflowStatus.completed ∧
        Event.mk (echoStep "B" []) Admission.wrapper (mapKeys st.stepResults) false ∈
          st.trace.map (fun e => { e with recorded := mapKeys st.stepResults }) := by
  decide!

/-- C5, the code at the failing input. For `A -> B` and `C` with an `A` of an
unknown type that is not required, under every schedule under which
`ExecuteWorkflow` returns the result holds a `failed` entry for `A`, a
`completed` entry for `C` and a `completed` entry for `B`: the successor `B`
is run, by the goroutine that `executeStepAndDependents` starts for it after
`executeStep` returned nil for `A`. -/
theorem optional_failure_runs_successor (sched : List Nat) (w' : WorkflowEngine)
    (res : Option WorkflowResult) (err : Option String)
    (h : ExecuteWorkflow (engineWith optionalWorkflow) quietEnv sched "wf" =
      some (w', res, err)) :
    ∃ r, res = some r ∧
      (mapGet r.StepResults "A").map (fun sr => sr.Status) = some WorkflowStatus.failed ∧
      (mapGet r.StepResults "B").map (fun sr => sr.Status) = some WorkflowStatus.completed ∧
      (mapGet r.StepResults "C").map (fun sr => sr.Status) = some WorkflowStatus.completed ∧
      ∃ e ∈ (execution optionalWorkflow quietEnv sched).trace,
        e.step = echoStep "B" [] ∧ e.via = Admission.wrapper ∧ e.failed = false := by
  obtain ⟨hend, _, _, r, hres, hsr, _, _⟩ :=
    ExecuteWorkflow_returned _ quietEnv sched "wf" optionalWorkflow
      (engineWith_registered _) w' res err h
  have hst := optionalWorkflow_states.2.2 _
    (execution_mem_of_closed _ _ _ optionalWorkflow_states.1 optionalWorkflow_states.2.1 sched)
    hend
  refine ⟨r, hres, hsr ▸ hst.1, hsr ▸ hst.2.1, hsr ▸ hst.2.2.1, ?_⟩
  obtain ⟨e, he, heq⟩ := List.mem_map.mp hst.2.2.2
  refine ⟨e, he, ?_, ?_, ?_⟩
  · exact congrArg Event.step heq
  · exact congrArg Event.via heq
  · exact congrArg Event.failed heq

/-- Witness of C5: the call returns when the goroutine of `A` ends its
assignment to `completed` before the goroutine of `C` moves. -/
theorem optional_failure_runs_successor_witness :
    ∃ r, (ExecuteWorkflow (engineWith optionalWorkflow) quietEnv optionalSchedule "wf").map
        (fun out => out.2.1) = some (some r) ∧
      (mapGet r.StepResults "B").map (fun sr => sr.Status) = some WorkflowStatus.completed := by
  cases h : ExecuteWorkflow (engineWith optionalWorkflow) quietEnv optionalSchedule "wf" with
  | none => exact absurd h (by decide)
  | some out =>
    obtain ⟨w', res, err⟩ := out
    obtain ⟨r, hr, _, hb, _⟩ := optional_failure_runs_successor optionalSchedule w' res err h
    exact ⟨r, by simp [hr], hb⟩

/-- For every execution of a registered workflow that returns with a nil error
(no required step failed): when a step was run and failed and names an
existing step `H` in `OnError`, the result holds a step result for the failed
step, with status `failed` when each of its runs failed, and a step result for
`H` with status `completed` or `failed`. -/
theorem handlers_of_failed_steps_are_recorded (w : WorkflowEngine) (env : Env)
    (sched : List Nat) (id : String) (wf : Workflow) (hreg : mapGet w.workflows id = some wf)
    (w' : WorkflowEngine) (r : WorkflowResult)
    (h : ExecuteWorkflow w env sched id = some (w', some r, none))
    (e : Event) (he : e ∈ (execution wf env sched).trace) (hfail : e.failed = true)
    (H : String) (hH : H ∈ e.step.OnError) (hexists : ∃ s ∈ wf.Steps, s.ID = H) :
    (∃ sa, mapGet r.StepResults e.step.ID = some sa ∧
        (sa.Status = WorkflowStatus.completed ∨ sa.Status = WorkflowStatus.failed) ∧
        ((∀ e' ∈ (execution wf env sched).trace, e'.step.ID = e.step.ID → e'.failed = true) →
          sa.Status = WorkflowStatus.failed)) ∧
      ∃ sh, mapGet r.StepResults H = some sh ∧
        (sh.Status = WorkflowStatus.completed ∨ sh.Status = WorkflowStatus.failed) := by
  obtain ⟨hend, _, herr, r', hres, hsr, _, _⟩ :=
    ExecuteWorkflow_returned w env sched id wf hreg w' (some r) none h
  cases hres
  obtain ⟨h1, h2, h3⟩ := handlerInv_execution wf env sched
  have hchan : (execution wf env sched).errChan = [] := by
    cases hc : (execution wf env sched).errChan with
    | nil => rfl
    | cons x xs => rw [hc] at herr; cases herr
  have hquiet : ¬ errored (execution wf env sched) := by
    unfold errored
    rw [hchan, hend, sends_nil]
    simp
  have hreq : e.step.Required = false := by
    cases hq : e.step.Required with
    | false => rfl
    | true => exact absurd (h2 ⟨e, he, hq, hfail⟩) hquiet
  obtain ⟨hkey, hhandlers⟩ := h1 e he hfail hreq
  have hfound : (findStep wf H).isSome = true := by
    obtain ⟨s, hs, rfl⟩ := hexists
    obtain ⟨u, hu⟩ := findStep_of_mem wf s hs
    rw [hu]
    rfl
  have hkeyH : H ∈ mapKeys (execution wf env sched).stepResults := by
    rcases hhandlers H hH hfound with hk | ⟨g, hg, _⟩ | hr
    · exact hk
    · rw [hend] at hg
      cases hg
    · exact absurd hr hquiet
  rw [hsr]
  constructor
  · rw [← mapGet_isSome_iff] at hkey
    obtain ⟨sa, hsa⟩ := Option.isSome_iff_exists.mp hkey
    have hst := h3 _ _ (mapGet_some_mem _ _ _ hsa)
    refine ⟨sa, hsa, hst.1, fun hall => ?_⟩
    rcases hst.1 with hc | hf
    · obtain ⟨e', he', hid, hok⟩ := hst.2 hc
      rw [hall e' he' hid] at hok
      cases hok
    · exact hf
  · rw [← mapGet_isSome_iff] at hkeyH
    obtain ⟨sh, hsh⟩ := Option.isSome_iff_exists.mp hkeyH
    exact ⟨sh, hsh, (h3 _ _ (mapGet_some_mem _ _ _ hsh)).1⟩

theorem guardedWorkflow_states :
    initState guardedWorkflow ∈ reachable guardedWorkflow quietEnv 10 ∧
      closed guardedWorkflow quietEnv (reachable guardedWorkflow quietEnv 10) = true ∧
      ∀ st ∈ reachable guardedWorkflow quietEnv 10, st.pool = [] →
        st.stepResults = [] ∧
          st.trace.map (fun e => (e.step, e.failed)) =
            [(soapStep "A" ["B"] ["H"] true, true)] := by
  decide!

/-- C6, the code at the failing input. In `A -> B -> H` the step `A` is
required, is of an unknown type and names the existing step `H` in `OnError`.
Under every schedule under which `ExecuteWorkflow` returns, the failed run of
`A` is the only run of an executor and the result holds no step result: none
for the failed `A`, and the handler `H` is never run. The return of line 197
leaves `executeStep` before the step result is stored (line 204) and before
the loop over `OnError` (line 217): the defect of C4. -/
theorem required_failure_skips_handler (sched : List Nat) (w' : WorkflowEngine)
    (res : Option WorkflowResult) (err : Option String)
    (h : ExecuteWorkflow (engineWith guardedWorkflow) quietEnv sched "wf" =
      some (w', res, err)) :
    soapStep "A" ["B"] ["H"] true ∈ guardedWorkflow.Steps ∧
      "H" ∈ (soapStep "A" ["B"] ["H"] true).OnError ∧
      echoStep "H" [] ∈ guardedWorkflow.Steps ∧
      (execution guardedWorkflow quietEnv sched).trace.map (fun e => (e.step, e.failed)) =
        [(soapStep "A" ["B"] ["H"] true, true)] ∧
      ∃ r, res = some r ∧ r.StepResults = [] ∧
        mapGet r.StepResults "A" = none ∧ mapGet r.StepResults "H" = none := by
  obtain ⟨hend, _, _, r, hres, hsr, _, _⟩ :=
    ExecuteWorkflow_returned _ quietEnv sched "wf" guardedWorkflow
      (engineWith_registered _) w' res err h
  have hst := guardedWorkflow_states.2.2 _
    (execution_mem_of_closed _ _ _ guardedWorkflow_states.1 guardedWorkflow_states.2.1 sched)
    hend
  have hnil : r.StepResults = [] := hsr.trans hst.1
  refine ⟨by decide, by decide, by decide, hst.2, r, hres, hnil, ?_, ?_⟩ <;>
    rw [hnil] <;> rfl

/-- Witness of C6: the call returns after four moves of the one goroutine. -/
theorem required_failure_skips_handler_witness :
    ∃ r, (ExecuteWorkflow (engineWith guardedWorkflow) quietEnv (roundRobin 4) "wf").map
        (fun out => out.2.1) = some (some r) ∧
      r.StepResults = [] := by
  cases h : ExecuteWorkflow (engineWith guardedWorkflow) quietEnv (roundRobin 4) "wf" with
  | none => exact absurd h (by decide)
  | some out =>
    obtain ⟨w', res, err⟩ := out
    obtain ⟨_, _, _, _, r, hr, hs, _⟩ :=
      required_failure_skips_handler (roundRobin 4) w' res err h
    exact ⟨r, by simp [hr], hs⟩

/-- For every execution of a registered workflow whose context is never
cancelled and that returns, the status of the result is `failed` exactly when
some run of a required step failed and `completed` otherwise; it is never
`pending` or `running`. -/
theorem status_failed_iff_required_failure (w : WorkflowEngine) (env : Env)
    (sched : List Nat) (id : String) (wf : Workflow) (hreg : mapGet w.workflows id = some wf)
    (hctx : ∀ n, env.ctxErr n = none) (w' : WorkflowEngine) (res : Option WorkflowResult)
    (err : Option String) (h : ExecuteWorkflow w env sched id = some (w', res, err)) :
    ∃ r, res = some r ∧
      (r.Status = WorkflowStatus.failed ↔ requiredFailure (execution wf env sched).trace) ∧
      (r.Status = WorkflowStatus.completed ↔ ¬ requiredFailure (execution wf env sched).trace) ∧
      r.Status ≠ WorkflowStatus.pending ∧ r.Status ≠ WorkflowStatus.running := by
  obtain ⟨hend, _, herr, r, hres, _, hfail, hcompl⟩ :=
    ExecuteWorkflow_returned w env sched id wf hreg w' res err h
  have hinv := errInv_execution wf env hctx sched
  unfold ErrInv at hinv
  rw [hend, sends_nil, or_false] at hinv
  refine ⟨r, hres, ?_⟩
  cases herr' : err with
  | none =>
    have hst := hcompl herr'
    have hno : ¬ requiredFailure (execution wf env sched).trace := by
      rw [hinv]
      intro hne
      rw [herr'] at herr
      cases hc : (execution wf env sched).errChan with
      | nil => exact hne hc
      | cons x xs => rw [hc] at herr; cases herr
    rw [hst]
    exact ⟨⟨fun hx => (by cases hx), fun hx => absurd hx hno⟩, ⟨fun _ => hno, fun _ => rfl⟩,
      by decide, by decide⟩
  | some e =>
    have hst := (hfail e herr').1
    have hyes : requiredFailure (execution wf env sched).trace := by
      rw [hinv]
      intro hnil
      rw [herr', hnil] at herr
      cases herr
    rw [hst]
    exact ⟨⟨fun _ => hyes, fun _ => rfl⟩, ⟨fun hx => (by cases hx), fun hx => absurd hyes hx⟩,
      by decide, by decide⟩

theorem blockedWorkflow_states :
    initState blockedWorkflow ∈ reachable blockedWorkflow quietEnv 100 ∧
      closed blockedWorkflow quietEnv (reachable blockedWorkflow quietEnv 100) = true ∧
      ∀ st ∈ reachable blockedWorkflow quietEnv 100,
        (st.pool.isEmpty && !st.panicked) = false ∧ mapGet st.stepResults "B" = none := by
  decide!

/-- C7, the code at the failing input. In the registered, acyclic workflow
`A -> B`, `C -> B` the step `A` is required and of an unknown type, and the
context is never cancelled. The run of `A` fails (it does when the goroutine of `A`
takes the first three actions), but `ExecuteWorkflow` returns under no
schedule at all, so no result with status `failed` is ever produced: `A` is
never marked in `completed`, and the goroutine that is started for `B` once
`C` has completed polls `canExecuteStep` and starts itself again without end,
so `wg.Wait()` never returns. The step `B` is never run. -/
theorem required_failure_never_returns :
    mapGet (engineWith blockedWorkflow).workflows "wf" = some blockedWorkflow ∧
      Acyclic blockedWorkflow ∧
      (∀ n, quietEnv.ctxErr n = none) ∧
      (soapStep "A" ["B"] [] true).Required = true ∧
      (execution blockedWorkflow quietEnv [0, 1, 1]).trace =
        [Event.mk (soapStep "A" ["B"] [] true) Admission.wrapper [] true] ∧
      (∀ sched, ExecuteWorkflow (engineWith blockedWorkflow) quietEnv sched "wf" = none) ∧
      ∀ sched, mapGet (execution blockedWorkflow quietEnv sched).stepResults "B" = none := by
  refine ⟨by decide,
    acyclic_of_rank blockedWorkflow (fun id => if id = "B" then 1 else 0) (by decide),
    fun _ => rfl, rfl, by decide, ?_, ?_⟩
  · intro sched
    exact ExecuteWorkflow_not_returned _ quietEnv sched "wf" blockedWorkflow (by decide)
      (blockedWorkflow_states.2.2 _
        (execution_mem_of_closed _ _ _ blockedWorkflow_states.1 blockedWorkflow_states.2.1
          sched)).1
  · intro sched
    exact (blockedWorkflow_states.2.2 _
      (execution_mem_of_closed _ _ _ blockedWorkflow_states.1 blockedWorkflow_states.2.1
        sched)).2

/-- C8, as amended. For every execution of a registered workflow whose context
is never cancelled, whenever the call returns: its error is non-nil exactly
when some run of a required step failed; that error is then a message
`error in step <id>: <error>` in which `<error>` is the error returned by the
run of a required step that was run and failed, and it is also reported in the
result (status `failed`, `Error` the message); with a nil error the status is
`completed`; and every failed run of a step that is not required is reported
inside the result, by a step result for that step. -/
theorem call_error_iff_required_failure (w : WorkflowEngine) (env : Env)
    (sched : List Nat) (id : String) (wf : Workflow) (hreg : mapGet w.workflows id = some wf)
    (hctx : ∀ n, env.ctxErr n = none) (w' : WorkflowEngine) (res : Option WorkflowResult)
    (err : Option String) (h : ExecuteWorkflow w env sched id = some (w', res, err)) :
    (err ≠ none ↔ requiredFailure (execution wf env sched).trace) ∧
      (∀ e, err = some e → ∃ root, FailedRun env (execution wf env sched).trace root e) ∧
      ∃ r, res = some r ∧
        (∀ e, err = some e → r.Status = WorkflowStatus.failed ∧ r.Error = e) ∧
        (err = none → r.Status = WorkflowStatus.completed) ∧
        ∀ ev ∈ (execution wf env sched).trace, ev.failed = true → ev.step.Required = false →
          ∃ sr, mapGet r.StepResults ev.step.ID = some sr := by
  obtain ⟨hend, _, herr, r, hres, hsr, hfail, hcompl⟩ :=
    ExecuteWorkflow_returned w env sched id wf hreg w' res err h
  have hinv := errInv_execution wf env hctx sched
  have hmsg := errMsgInv_execution wf env hctx sched
  have hhand := handlerInv_execution wf env sched
  unfold ErrInv at hinv
  rw [hend, sends_nil, or_false] at hinv
  refine ⟨?_, ?_, r, hres, hfail, hcompl, ?_⟩
  · rw [hinv, herr]
    cases (execution wf env sched).errChan with
    | nil => simp
    | cons x xs => simp
  · intro e he
    rw [herr] at he
    exact hmsg.1 e (List.mem_of_mem_head? he)
  · intro ev hev hf hq
    have hkey := (hhand.1 ev hev hf hq).1
    rw [← hsr, ← mapGet_isSome_iff] at hkey
    exact Option.isSome_iff_exists.mp hkey

/-- Witness of C8: the failure of a step that is not required gives a nil error. -/
theorem call_error_iff_required_failure_witness :
    (ExecuteWorkflow (engineWith recoverWorkflow) quietEnv recoverSchedule "wf").map
        (fun out => out.2.2) = some none ∧
      ¬ requiredFailure (execution recoverWorkflow quietEnv recoverSchedule).trace := by
  cases h : ExecuteWorkflow (engineWith recoverWorkflow) quietEnv recoverSchedule "wf" with
  | none => exact absurd h (by decide)
  | some out =>
    obtain ⟨w', res, err⟩ := out
    have key := (call_error_iff_required_failure (engineWith recoverWorkflow) quietEnv
      recoverSchedule "wf" recoverWorkflow (engineWith_registered _) (fun _ => rfl) w' res err
      h).1
    have hno : ¬ requiredFailure (execution recoverWorkflow quietEnv recoverSchedule).trace := by
      unfold requiredFailure
      decide
    have herr : err = none := by
      by_contra hne
      exact hno (key.mp hne)
    exact ⟨by simp [herr], hno⟩

/-- Counterexample of C8: the workflow is registered and the context is never
cancelled, yet the call returns a non-nil error, the failure of the required
step `A`. -/
theorem required_failure_is_a_call_error :
    mapGet (engineWith requiredWorkflow).workflows "wf" = some requiredWorkflow ∧
      (∀ n, quietEnv.ctxErr n = none) ∧
      (ExecuteWorkflow (engineWith requiredWorkflow) quietEnv (roundRobin 4) "wf").map
          (fun out => out.2.2) = some (some "error in step A: unknown step type: soap") :=
  ⟨by decide, fun _ => rfl, by decide⟩

/-- C9. For every engine and every workflow whose id is empty or already
registered, `RegisterWorkflow` returns an error and the engine is unchanged:
the registered ids and every stored definition are what they were. -/
theorem RegisterWorkflow_rejects (w : WorkflowEngine) (now : Nat) (workflow : Workflow)
    (h : workflow.ID = "" ∨ (mapGet w.workflows workflow.ID).isSome = true) :
    (RegisterWorkflow w now workflow).2.isSome = true ∧
      (RegisterWorkflow w now workflow).1 = w := by
  unfold RegisterWorkflow
  by_cases h1 : workflow.ID = ""
  · simp [h1]
  · rcases h with h | h
    · exact absurd h h1
    · simp [h1, h]

/-- Witness of C9: the second registration of the workflow of `TestWorkflowEngine`. -/
theorem RegisterWorkflow_rejects_witness :
    (RegisterWorkflow (engineWith testWorkflow) 9
        { testWorkflow with Name := "another", Steps := [] }).2.isSome = true ∧
      (RegisterWorkflow (engineWith testWorkflow) 9
        { testWorkflow with Name := "another", Steps := [] }).1 = engineWith testWorkflow :=
  RegisterWorkflow_rejects (engineWith testWorkflow) 9
    { testWorkflow with Name := "another", Steps := [] } (Or.inr (by decide))

/-- C10. For every engine and every workflow whose id is not empty and not yet
registered, `RegisterWorkflow` returns nil; afterwards `GetWorkflow` of that id
finds the workflow as submitted but with status `pending` and the timestamps
of the registration, `GetWorkflow` of every other id returns what it returned
before, and `GetWorkflow` leaves the engine as it is. -/
theorem RegisterWorkflow_then_GetWorkflow (w : WorkflowEngine) (now : Nat) (workflow : Workflow)
    (hid : workflow.ID ≠ "") (hnew : mapGet w.workflows workflow.ID = none) :
    (RegisterWorkflow w now workflow).2 = none ∧
      (GetWorkflow (RegisterWorkflow w now workflow).1 workflow.ID).2 =
        (some { workflow with
          Status := WorkflowStatus.pending, CreatedAt := now, UpdatedAt := now }, true) ∧
      (∀ id, id ≠ workflow.ID →
        (GetWorkflow (RegisterWorkflow w now workflow).1 id).2 = (GetWorkflow w id).2) ∧
      (∀ (e : WorkflowEngine) (id : String), (GetWorkflow e id).1 = e) := by
  have hreg : RegisterWorkflow w now workflow =
      (WorkflowEngine.mk (mapSet w.workflows workflow.ID
          ({ workflow with
            Status := WorkflowStatus.pending, CreatedAt := now, UpdatedAt := now }))
        w.results, none) := by
    simp [RegisterWorkflow, hid, hnew]
  refine ⟨by rw [hreg], ?_, ?_, fun e id => rfl⟩
  · rw [hreg]
    simp [GetWorkflow, mapGet_mapSet_same]
  · intro id hne
    rw [hreg]
    simp [GetWorkflow, mapGet_mapSet_other _ _ _ _ hne]

/-- Witness of C10: a workflow submitted with status `failed` is stored as `pending`. -/
theorem RegisterWorkflow_then_GetWorkflow_witness :
    (RegisterWorkflow NewWorkflowEngine 9
        { testWorkflow with Status := WorkflowStatus.failed }).2 = none ∧
      (GetWorkflow (RegisterWorkflow NewWorkflowEngine 9
        { testWorkflow with Status := WorkflowStatus.failed }).1 "wf").2 =
        (some { testWorkflow with CreatedAt := 9, UpdatedAt := 9 }, true) :=
  ⟨(RegisterWorkflow_then_GetWorkflow NewWorkflowEngine 9
      { testWorkflow with Status := WorkflowStatus.failed } (by decide) (by decide)).1,
   (RegisterWorkflow_then_GetWorkflow NewWorkflowEngine 9
      { testWorkflow with Status := WorkflowStatus.failed } (by decide) (by decide)).2.1⟩

/-- C11, as amended. `RegisterWorkflow` does not look at the steps: for every
engine and every workflow it fails exactly when the id is empty or already
registered, whatever the `Next` and `OnError` edges are, and when it returns
nil the workflow is stored: `GetWorkflow` of its id finds it. -/
theorem RegisterWorkflow_checks_only_the_id (w : WorkflowEngine) (now : Nat)
    (workflow : Workflow) :
    ((RegisterWorkflow w now workflow).2.isSome = true ↔
        (workflow.ID = "" ∨ (mapGet w.workflows workflow.ID).isSome = true)) ∧
      ((RegisterWorkflow w now workflow).2 = none →
        (GetWorkflow (RegisterWorkflow w now workflow).1 workflow.ID).2.2 = true) := by
  unfold RegisterWorkflow
  by_cases h1 : workflow.ID = ""
  · simp [h1]
  · by_cases h2 : (mapGet w.workflows workflow.ID).isSome = true
    · simp [h1, h2]
    · simp [h1, h2, GetWorkflow, mapGet_mapSet_same]

/-- Witness of C11: a workflow with a dangling `Next` edge is stored. -/
theorem RegisterWorkflow_checks_only_the_id_witness :
    "Z" ∈ (echoStep "A" ["Z"]).Next ∧ findStep danglingWorkflow "Z" = none ∧
      (RegisterWorkflow NewWorkflowEngine 7 danglingWorkflow).2.isSome = false ∧
      (GetWorkflow (RegisterWorkflow NewWorkflowEngine 7 danglingWorkflow).1
        danglingWorkflow.ID).2.2 = true := by
  have key := RegisterWorkflow_checks_only_the_id NewWorkflowEngine 7 danglingWorkflow
  have hnone : (RegisterWorkflow NewWorkflowEngine 7 danglingWorkflow).2 = none := by
    cases hx : (RegisterWorkflow NewWorkflowEngine 7 danglingWorkflow).2 with
    | none => rfl
    | some e =>
      have := key.1.mp (by rw [hx]; rfl)
      exact absurd this (by decide)
  exact ⟨by decide, by decide, by rw [hnone]; rfl, key.2 hnone⟩

theorem cyclicWorkflow_cycle : ¬ Acyclic cyclicWorkflow := by
  intro h
  have hab : nextEdge cyclicWorkflow "A" "B" := ⟨echoStep "A" ["B"], by decide, rfl, by decide⟩
  have hba : nextEdge cyclicWorkflow "B" "A" := ⟨echoStep "B" ["A"], by decide, rfl, by decide⟩
  exact h "A" (Relation.TransGen.tail (Relation.TransGen.single hab) hba)

/-- Counterexample of C11: the registration of the cycle `A -> B -> A` returns
nil and the workflow is stored. -/
theorem cyclic_workflow_is_registered :
    ¬ Acyclic cyclicWorkflow ∧
      (RegisterWorkflow NewWorkflowEngine 7 cyclicWorkflow).2 = none ∧
      (GetWorkflow (RegisterWorkflow NewWorkflowEngine 7 cyclicWorkflow).1 "wf").2 =
        (some cyclicWorkflow, true) :=
  ⟨cyclicWorkflow_cycle, by decide, by decide⟩

/-- C12. For every engine and every id that is not registered, `ExecuteWorkflow`
returns at once, under every schedule and in every environment, with a non-nil
error and no result; no goroutine moves and the engine, its workflows and its
results, is unchanged. -/
theorem ExecuteWorkflow_unknown_id (w : WorkflowEngine) (env : Env) (sched : List Nat)
    (id : String) (h : mapGet w.workflows id = none) :
    ExecuteWorkflow w env sched id =
        some (w, none, some ("workflow " ++ id ++ " not found")) ∧
      ExecuteWorkflow w env sched id = ExecuteWorkflow w env [] id := by
  rw [ExecuteWorkflow_of_unregistered w env sched id h,
    ExecuteWorkflow_of_unregistered w env [] id h]
  exact ⟨rfl, rfl⟩

/-- Witness of C12: the call of `TestWorkflowEngine` with the id `non-existent`. -/
theorem ExecuteWorkflow_unknown_id_witness :
    ExecuteWorkflow (engineWith testWorkflow) quietEnv (roundRobin 14) "non-existent" =
      some (engineWith testWorkflow, none, some "workflow non-existent not found") :=
  (ExecuteWorkflow_unknown_id (engineWith testWorkflow) quietEnv (roundRobin 14) "non-existent"
    (by decide)).1

/-- C13. `DeleteWorkflow` returns an error exactly when the id is not
registered, and the engine is then unchanged; otherwise no workflow and no
result is stored under the id afterwards, `GetWorkflow` of the id reports not
found and `ExecuteWorkflow` of the id fails, and the workflows and results of
every other id are what they were. -/
theorem DeleteWorkflow_removes (w : WorkflowEngine) (id : String) :
    ((DeleteWorkflow w id).2.isSome = true ↔ mapGet w.workflows id = none) ∧
      (mapGet w.workflows id = none → (DeleteWorkflow w id).1 = w) ∧
      ((mapGet w.workflows id).isSome = true →
        (GetWorkflow (DeleteWorkflow w id).1 id).2 = (none, false) ∧
        mapGet (DeleteWorkflow w id).1.results id = none ∧
        (∀ env sched, ExecuteWorkflow (DeleteWorkflow w id).1 env sched id =
          some ((DeleteWorkflow w id).1, none, some ("workflow " ++ id ++ " not found"))) ∧
        ∀ other, other ≠ id →
          mapGet (DeleteWorkflow w id).1.workflows other = mapGet w.workflows other ∧
          mapGet (DeleteWorkflow w id).1.results other = mapGet w.results other) := by
  unfold DeleteWorkflow
  cases hreg : mapGet w.workflows id with
  | none => simp
  | some wf =>
    simp only [Option.isSome_some, if_true, Option.isSome_none, Bool.false_eq_true, false_iff,
      not_false_eq_true, true_and, false_implies, forall_true_left, reduceCtorEq]
    refine ⟨?_, mapGet_mapDel_same _ _, ?_, ?_⟩
    · simp [GetWorkflow, mapGet_mapDel_same]
    · intro env sched
      exact ExecuteWorkflow_of_unregistered _ env sched id (mapGet_mapDel_same _ _)
    · intro other hne
      exact ⟨mapGet_mapDel_other _ _ _ hne, mapGet_mapDel_other _ _ _ hne⟩

/-- Witness of C13: the workflow of `TestWorkflowEngine` is deleted. -/
theorem DeleteWorkflow_removes_witness :
    (DeleteWorkflow (engineWith testWorkflow) "wf").2 = none ∧
      (GetWorkflow (DeleteWorkflow (engineWith testWorkflow) "wf").1 "wf").2 = (none, false) :=
  ⟨by decide,
    ((DeleteWorkflow_removes (engineWith testWorkflow) "wf").2.2 (by decide)).1⟩

/-- The attempts of `executeWithRetry`, for a retry policy whose limit is
`k' = max 1 MaxAttempts` and a context that is never cancelled: when the calls
of the executor fail on the attempts `1 .. j - 1` and the call of attempt
`j ≤ k'` succeeds, `executeWithRetry` makes `j` calls, returns nil and sets
`Attempts = j`; when every call fails it makes `k'` calls, sets `Attempts = k'`
and returns an error; and in no case, whatever the executor and the context
do, does it make more than `k'` calls. (Attempt `i + 1` is the call made at
time `clock + 2 * i`: one tick for each call, one for each wait.) -/
theorem executeWithRetry_attempts (env : Env) (clock : Nat) (step : Step) (r : RetryConfig)
    (result : StepResult) (hctx : ∀ n, env.ctxErr n = none) :
    attemptLimit r = max 1 r.MaxAttempts.toNat ∧
      (∀ j, 1 ≤ j → j ≤ attemptLimit r →
        (∀ i, i + 1 < j → attemptFails env (clock + 2 * i) step) →
        attemptSucceeds env (clock + 2 * (j - 1)) step →
        ∃ a, executeWithRetry env clock step r result = some a ∧ a.err = none ∧
          a.result.Attempts = j ∧ attemptsMade clock a = j) ∧
      ((∀ i, i < attemptLimit r → attemptFails env (clock + 2 * i) step) →
        ∃ a e, executeWithRetry env clock step r result = some a ∧ a.err = some e ∧
          a.result.Attempts = attemptLimit r ∧ attemptsMade clock a = attemptLimit r) ∧
      ∀ a, executeWithRetry env clock step r result = some a →
        attemptsMade clock a ≤ attemptLimit r := by
  refine ⟨attemptLimit_eq_max r, ?_, ?_, ?_⟩
  · intro j hj1 hjk hfail hsucc
    obtain ⟨a, ha, herr, hatt, _, _⟩ :=
      retryLoop_succeeds env step r (attemptLimit r) hctx (j - 1) (attemptLimit r) 0 r.Delay
        "<nil>" result clock [] (by omega) (by omega)
        (fun i hi => hfail i (by omega)) hsucc
    rw [← executeWithRetry_eq] at ha
    have hj : a.result.Attempts = j := by
      rw [hatt]
      omega
    exact ⟨a, ha, herr, hj, by rw [(executeWithRetry_bound env clock step r result a ha).2, hj]⟩
  · intro hfail
    have hpos := attemptLimit_pos r
    obtain ⟨a, e, ha, _, _, herr, hatt, _, _⟩ :=
      retryLoop_exhausted env step r (attemptLimit r) hctx (attemptLimit r - 1) 0 r.Delay
        "<nil>" result clock [] (by omega) (fun i hi => hfail i (by omega))
    have heq : attemptLimit r - 1 + 1 = attemptLimit r := by omega
    rw [heq, ← executeWithRetry_eq] at ha
    exact ⟨a, _, ha, herr, hatt,
      by rw [(executeWithRetry_bound env clock step r result a ha).2, hatt]⟩
  · intro a ha
    have := executeWithRetry_bound env clock step r result a ha
    rw [this.2]
    exact this.1

/-- An instance: the executor times out twice and answers on the third of three attempts. -/
theorem executeWithRetry_attempts_example :
    ∃ a, executeWithRetry flakyEnv 0 (restRetryStep doublingRetry) doublingRetry freshResult =
        some a ∧
      a.err = none ∧ a.result.Attempts = 3 ∧ attemptsMade 0 a = 3 :=
  (executeWithRetry_attempts flakyEnv 0 (restRetryStep doublingRetry) doublingRetry freshResult
    (fun _ => rfl)).2.1 3 (by decide) (by decide)
    (fun i hi => by
      have hi' : i = 0 ∨ i = 1 := by omega
      rcases hi' with rfl | rfl <;> exact ⟨"timeout", fun _ => rfl⟩)
    ⟨"pong", fun _ => rfl⟩

/-- C14, the code. A call of `executeStep` for a step with a retry policy
whose limit is `k' = max 1 MaxAttempts`, with a context that is never cancelled
and `w.mu` free. When the executor fails on the attempts `1 .. j - 1` and
succeeds on attempt `j ≤ k'`, `j` calls are made and the step result that is
stored has status `completed` and `Attempts = j`. When the executor fails on
every attempt, `k'` calls are made and an error is returned; for a step that
is not required the step result that is stored has status `failed` and
`Attempts = k'`; for a required step nothing is stored, `StepResults` is what
it was and the error goes to `errChan`: the return of line 197 comes before
the store of line 204, the defect of C4. In no case are more than `k'` calls
made. -/
theorem retry_outcome_is_stored (env : Env) (st : ExecState) (root step : Step)
    (via : Admission) (stack : List Frame) (r : RetryConfig) (hretry : step.Retry = some r)
    (hctx : ∀ n, env.ctxErr n = none) (hfree : st.writing = false) :
    attemptLimit r = max 1 r.MaxAttempts.toNat ∧
      (∀ j, 1 ≤ j → j ≤ attemptLimit r →
        (∀ i, i + 1 < j → attemptFails env (st.clock + 2 * i) step) →
        attemptSucceeds env (st.clock + 2 * (j - 1)) step →
        ∃ a, runStep env st.clock step = some a ∧ a.err = none ∧
          attemptsMade st.clock a = j ∧
          ∃ sr, mapGet (actCall env st root step via stack).1.stepResults step.ID = some sr ∧
            sr.Status = WorkflowStatus.completed ∧ sr.Attempts = j) ∧
      ((∀ i, i < attemptLimit r → attemptFails env (st.clock + 2 * i) step) →
        ∃ a e, runStep env st.clock step = some a ∧ a.err = some e ∧
          attemptsMade st.clock a = attemptLimit r ∧
          (step.Required = false →
            ∃ sr, mapGet (actCall env st root step via stack).1.stepResults step.ID = some sr ∧
              sr.Status = WorkflowStatus.failed ∧ sr.Attempts = attemptLimit r ∧
              sr.Error = e) ∧
          (step.Required = true →
            (actCall env st root step via stack).1.stepResults = st.stepResults ∧
            (actCall env st root step via stack).2 =
              [Goroutine.send root ("error in step " ++ root.ID ++ ": " ++ e)])) ∧
      ∀ a, runStep env st.clock step = some a → attemptsMade st.clock a ≤ attemptLimit r := by
  have hrun : ∀ a, executeWithRetry env st.clock step r
      { StepID := step.ID, Status := WorkflowStatus.running, StartTime := env.now st.clock,
        EndTime := 0, Data := none, Error := "", Attempts := 0 } = some a →
      runStep env st.clock step = some a := by
    intro a ha
    simp only [runStep, hretry]
    exact ha
  obtain ⟨hlim, hsucc, hfail, hbound⟩ := executeWithRetry_attempts env st.clock step r
    { StepID := step.ID, Status := WorkflowStatus.running, StartTime := env.now st.clock,
      EndTime := 0, Data := none, Error := "", Attempts := 0 } hctx
  refine ⟨hlim, ?_, ?_, ?_⟩
  · intro j hj1 hjk hf hs
    obtain ⟨a, ha, herr, hatt, hmade⟩ := hsucc j hj1 hjk hf hs
    refine ⟨a, hrun a ha, herr, hmade, ?_⟩
    simp only [actCall, hctx, hrun a ha, herr, hfree, Bool.false_eq_true, if_false,
      mapGet_mapSet_same]
    exact ⟨_, rfl, rfl, hatt⟩
  · intro hf
    obtain ⟨a, e, ha, herr, hatt, hmade⟩ := hfail hf
    refine ⟨a, e, hrun a ha, herr, hmade, ?_, ?_⟩
    · intro hreq
      simp only [actCall, hctx, hrun a ha, herr, hreq, hfree, Bool.false_eq_true, if_false,
        mapGet_mapSet_same]
      exact ⟨_, rfl, rfl, hatt, rfl⟩
    · intro hreq
      simp only [actCall, hctx, hrun a ha, herr, hreq, if_true, and_self]
  · intro a ha
    simp only [runStep, hretry] at ha
    exact hbound a ha

/-- Witness of C14: the required step of type `soap` with three attempts is
tried three times and nothing is stored; the call of `ExecuteWorkflow` returns
the error and a result without step results. -/
theorem retry_outcome_is_stored_witness :
    (∃ a e, runStep quietEnv 0 (requiredRetryStep doublingRetry) = some a ∧ a.err = some e ∧
        attemptsMade 0 a = 3 ∧
        (actCall quietEnv (initState retryWorkflow) (requiredRetryStep doublingRetry)
          (requiredRetryStep doublingRetry) Admission.wrapper []).1.stepResults = []) ∧
      (ExecuteWorkflow (engineWith retryWorkflow) quietEnv (roundRobin 4) "wf").map
          (fun out => (out.2.1.map (fun r => (r.Status, r.StepResults)), out.2.2)) =
        some (some (WorkflowStatus.failed, []),
          some "error in step A: max retry attempts reached: unknown step type: soap") := by
  refine ⟨?_, by decide⟩
  obtain ⟨a, e, ha, he, hmade, _, hreq⟩ :=
    (retry_outcome_is_stored quietEnv (initState retryWorkflow)
      (requiredRetryStep doublingRetry) (requiredRetryStep doublingRetry) Admission.wrapper []
      doublingRetry rfl (fun _ => rfl) rfl).2.2.1
      (fun i _ => ⟨"unknown step type: soap", fun _ => rfl⟩)
  exact ⟨a, e, ha, he, hmade, (hreq rfl).1⟩

/-- C15, as amended. For a step whose type is not `rest`, `transform` or `echo`
every attempt fails with the unknown-step-type error. Without a retry policy
one attempt is made and there is no wait; with a retry policy, and a context
that is never cancelled, the failure is retried like any other: `k'` attempts
and `k' - 1` waits, `k'` being `max 1 MaxAttempts`, and the error returned is
`max retry attempts reached` with the unknown-step-type error. -/
theorem unknown_step_type_is_retried (env : Env) (clock : Nat) (step : Step)
    (hrest : step.StepType ≠ "rest") (htransform : step.StepType ≠ "transform")
    (hecho : step.StepType ≠ "echo") :
    (∀ n result, executeSingleStep env n step result =
        some (some ("unknown step type: " ++ step.StepType), result)) ∧
      (step.Retry = none →
        ∃ a, runStep env clock step = some a ∧
          a.err = some ("unknown step type: " ++ step.StepType) ∧
          attemptsMade clock a = 1 ∧ a.waits = []) ∧
      ∀ r, step.Retry = some r → (∀ n, env.ctxErr n = none) →
        ∃ a, runStep env clock step = some a ∧
          a.err = some ("max retry attempts reached: " ++
            ("unknown step type: " ++ step.StepType)) ∧
          a.result.Attempts = attemptLimit r ∧ attemptsMade clock a = attemptLimit r ∧
          a.waits.length = attemptLimit r - 1 := by
  have hsingle : ∀ n result, executeSingleStep env n step result =
      some (some ("unknown step type: " ++ step.StepType), result) := by
    intro n result
    simp [executeSingleStep, hrest, htransform, hecho]
  refine ⟨hsingle, ?_, ?_⟩
  · intro hnone
    have hrun : runStep env clock step =
        some { err := some ("unknown step type: " ++ step.StepType),
               result := { StepID := step.ID, Status := WorkflowStatus.running,
                           StartTime := env.now clock, EndTime := 0, Data := none,
                           Error := "", Attempts := 0 },
               clock := clock + 1, waits := [] } := by
      simp only [runStep, hnone, hsingle]
    refine ⟨_, hrun, rfl, ?_, rfl⟩
    simp [attemptsMade]
  · intro r hr hctx
    have hpos := attemptLimit_pos r
    obtain ⟨a, e, ha, _, hlast, herr, hatt, hwaits, _⟩ :=
      retryLoop_exhausted env step r (attemptLimit r) hctx (attemptLimit r - 1) 0 r.Delay
        "<nil>"
        { StepID := step.ID, Status := WorkflowStatus.running, StartTime := env.now clock,
          EndTime := 0, Data := none, Error := "", Attempts := 0 }
        clock [] (by omega) (fun i _ => ⟨_, hsingle _⟩)
    have heq : attemptLimit r - 1 + 1 = attemptLimit r := by omega
    rw [heq, ← executeWithRetry_eq] at ha
    have he : e = "unknown step type: " ++ step.StepType := by
      have h1 := hlast freshResult
      rw [hsingle] at h1
      simp only [Option.some.injEq, Prod.mk.injEq, and_true] at h1
      exact h1.symm
    have hrun : runStep env clock step = some a := by
      simp only [runStep, hr]
      exact ha
    refine ⟨a, hrun, by rw [herr, he], hatt, ?_, ?_⟩
    · rw [(executeWithRetry_bound env clock step r _ a ha).2, hatt]
    · rw [hwaits]
      simp [List.length_iterate]

/-- Witness of C15: a step of type `soap` with three attempts is tried three times. -/
theorem unknown_step_type_is_retried_witness :
    ∃ a, runStep quietEnv 0 (soapRetryStep doublingRetry) = some a ∧
      a.result.Attempts = 3 ∧ attemptsMade 0 a = 3 ∧ a.waits.length = 2 := by
  obtain ⟨a, ha, _, h1, h2, h3⟩ :=
    (unknown_step_type_is_retried quietEnv 0 (soapRetryStep doublingRetry) (by decide)
      (by decide) (by decide)).2.2 doublingRetry rfl (fun _ => rfl)
  exact ⟨a, ha, h1, h2, h3⟩

/-- Counterexample of C15: the step of type `soap` carries a retry policy with
three attempts; its run makes three attempts and waits twice, 500 each time. -/
theorem unknown_step_type_waits :
    (soapRetryStep constantRetry).StepType = "soap" ∧ constantRetry.MaxAttempts = 3 ∧
      (runStep quietEnv 0 (soapRetryStep constantRetry)).map
          (fun a => (a.err, a.result.Attempts, attemptsMade 0 a, a.waits)) =
        some (some "max retry attempts reached: unknown step type: soap", 3, 3, [500, 500]) := by
  decide

/-- C16, the code at the failing input. For every step without a retry policy,
`executeStep` makes one call of `executeSingleStep` and no wait, and the step
result keeps `Attempts = 0`: only `executeWithRetry` writes that field. -/
theorem single_attempt_is_recorded_as_zero (env : Env) (clock : Nat) (step : Step)
    (hnone : step.Retry = none) (a : Attempted) (ha : runStep env clock step = some a) :
    attemptsMade clock a = 1 ∧ a.waits = [] ∧ a.result.Attempts = 0 := by
  simp only [runStep, hnone] at ha
  rcases executeSingleStep_cases env clock step
    { StepID := step.ID, Status := WorkflowStatus.running, StartTime := env.now clock,
      EndTime := 0, Data := none, Error := "", Attempts := 0 } with hc | ⟨d, hc⟩ | ⟨e, hc⟩
  · rw [hc] at ha
    cases ha
  · rw [hc] at ha
    simp only [Option.some.injEq] at ha
    subst ha
    simp [attemptsMade]
  · rw [hc] at ha
    simp only [Option.some.injEq] at ha
    subst ha
    simp [attemptsMade]

/-- Witness of C16: the one echo step of a workflow is run once and recorded
as `completed` with `Attempts = 0`. -/
theorem single_attempt_is_recorded_as_zero_witness :
    (∃ a, runStep quietEnv 0 (echoStep "A" []) = some a ∧ attemptsMade 0 a = 1 ∧
        a.result.Attempts = 0) ∧
      (ExecuteWorkflow (engineWith singleWorkflow) quietEnv (roundRobin 6) "wf").map
          (fun out => out.2.1.map (fun r =>
            r.StepResults.map (fun kv => (kv.1, kv.2.Status, kv.2.Attempts)))) =
        some (some [("A", WorkflowStatus.completed, 0)]) := by
  refine ⟨?_, by decide⟩
  cases h : runStep quietEnv 0 (echoStep "A" []) with
  | none => exact absurd h (by decide)
  | some a =>
    have key := single_attempt_is_recorded_as_zero quietEnv 0 (echoStep "A" []) rfl a h
    exact ⟨a, rfl, key.1, key.2.2⟩

/-- C17, as amended. For every retry policy and a step whose every attempt
fails, with a context that is never cancelled, `executeWithRetry` waits
`k' - 1` times, `k'` being `max 1 MaxAttempts`, and not after the last of its
`k'` attempts; the first wait is `Delay` and every further wait is `nextDelay`
of the wait before it. `nextDelay` leaves the delay unchanged when the
multiplier is `≤ 0`; when the multiplier is positive it is the `float64`
product `time.Duration(float64(delay) * Multiplier)`, whatever that is,
replaced by `MaxDelay` only when `MaxDelay > 0` and the product is greater.
So every wait after the first is at most `MaxDelay` when the multiplier and
`MaxDelay` are positive, and every wait is `Delay` when the multiplier is
`≤ 0`. -/
theorem executeWithRetry_waits (env : Env) (clock : Nat) (step : Step) (r : RetryConfig)
    (result : StepResult) (hctx : ∀ n, env.ctxErr n = none)
    (hfail : ∀ n, attemptFails env n step) :
    ∃ a, executeWithRetry env clock step r result = some a ∧
      a.waits = List.iterate (nextDelay env r) r.Delay (attemptLimit r - 1) ∧
      a.waits.length = attemptLimit r - 1 ∧ attemptsMade clock a = attemptLimit r ∧
      a.clock = clock + (attemptLimit r - 1) + attemptLimit r ∧
      (2 ≤ attemptLimit r → a.waits.head? = some r.Delay) ∧
      (∀ d, r.Multiplier ≤ 0 → nextDelay env r d = d) ∧
      (∀ d, 0 < r.Multiplier → r.MaxDelay ≤ 0 →
        nextDelay env r d = env.scaleDelay d r.Multiplier) ∧
      (∀ d, 0 < r.Multiplier → 0 < r.MaxDelay →
        nextDelay env r d = min (env.scaleDelay d r.Multiplier) r.MaxDelay) ∧
      (0 < r.Multiplier → 0 < r.MaxDelay → ∀ wait ∈ a.waits.tail, wait ≤ r.MaxDelay) ∧
      (r.Multiplier ≤ 0 → ∀ wait ∈ a.waits, wait = r.Delay) := by
  have hpos := attemptLimit_pos r
  obtain ⟨a, e, ha, _, _, _, hatt, hwaits, hclock⟩ :=
    retryLoop_exhausted env step r (attemptLimit r) hctx (attemptLimit r - 1) 0 r.Delay
      "<nil>" result clock [] (by omega) (fun i _ => hfail _)
  have heq : attemptLimit r - 1 + 1 = attemptLimit r := by omega
  rw [heq, ← executeWithRetry_eq] at ha
  rw [List.nil_append] at hwaits
  refine ⟨a, ha, hwaits, by rw [hwaits, List.length_iterate], ?_, ?_, ?_, ?_, ?_, ?_, ?_, ?_⟩
  · rw [(executeWithRetry_bound env clock step r result a ha).2, hatt]
  · rw [hclock]
    omega
  · intro h2
    rw [hwaits]
    obtain ⟨n, hn⟩ : ∃ n, attemptLimit r - 1 = n + 1 := ⟨attemptLimit r - 2, by omega⟩
    rw [hn]
    rfl
  · intro d hm
    exact nextDelay_of_nonpos env r d hm
  · intro d hm hcap
    rw [nextDelay_of_pos env r d hm, if_neg]
    intro hc
    exact absurd hc.1 (not_lt.mpr hcap)
  · intro d hm hcap
    rw [nextDelay_of_pos env r d hm]
    split
    · rename_i hc
      exact (min_eq_right (le_of_lt hc.2)).symm
    · rename_i hc
      simp only [gt_iff_lt, not_and, not_lt] at hc
      exact (min_eq_left (hc hcap)).symm
  · intro hm hcap wait hw
    rw [hwaits] at hw
    obtain ⟨y, rfl⟩ := iterate_tail_image (nextDelay env r) _ r.Delay wait hw
    exact nextDelay_le_cap env r y hm hcap
  · intro hm wait hw
    rw [hwaits] at hw
    exact iterate_fixed (nextDelay env r) r.Delay (nextDelay_of_nonpos env r _ hm) _ wait hw

/-- Witness of C17: three attempts of a step of type `soap` under a doubling
delay of 100 capped at 1000 wait twice, and the second wait is at most 1000. -/
theorem executeWithRetry_waits_witness :
    ∃ a, executeWithRetry quietEnv 0 (soapRetryStep doublingRetry) doublingRetry freshResult =
        some a ∧
      a.waits.length = 2 ∧ a.waits.head? = some 100 ∧
      ∀ wait ∈ a.waits.tail, wait ≤ 1000 := by
  obtain ⟨a, ha, hw, hlen, _, _, _, _, _, _, hcap, _⟩ :=
    executeWithRetry_waits quietEnv 0 (soapRetryStep doublingRetry) doublingRetry freshResult
      (fun _ => rfl) (fun _ => ⟨"unknown step type: soap", fun _ => rfl⟩)
  refine ⟨a, ha, hlen, ?_, hcap (by decide) (by decide)⟩
  rw [hw]
  rfl

/-- Counterexample of C17: with the multiplier 0, the delay 500 and the cap
`MaxDelay = 100`, the second wait is 500, more than `MaxDelay`. -/
theorem constant_delay_exceeds_cap :
    constantRetry.Multiplier ≤ 0 ∧ constantRetry.MaxDelay = 100 ∧
      (executeWithRetry quietEnv 0 (soapRetryStep constantRetry) constantRetry freshResult).map
          (fun a => a.waits) = some [500, 500] ∧
      ¬ ((500 : Int) ≤ constantRetry.MaxDelay) := by
  decide

end GoFlow
